import Mathlib

/-!
# Verification of the tree-based version-control engine (src/script.js)

Shallow embedding of the `VersionControl` class. Records ("words") are an
opaque type `α` with decidable structural equality; the JS code compares
records only through `JSON.stringify`, which is injective with respect to
structural equality, so fingerprints are modelled by the records themselves.

Modelling conventions:
* JS `Map` (insertion ordered) is an association list `List (Nat × _)`;
  `Map.get/set/delete` are `mget/mset/mdel`.
* Version ids (random strings in JS) are `Nat`s drawn from a `nextId`
  counter held in the state; this captures the intended freshness.
* ISO timestamp strings compare lexicographically, which on a fixed-format
  ISO encoding agrees with chronological order, so instants are `Nat`s and
  the state carries a strictly increasing `clock`.
* Recursions that the JS code runs on an acyclic tree (delta resolution,
  current-path walk, subtree deletion) are given fuel equal to the map
  size plus one; on the acyclic states the invariants describe, the fuel
  never runs out (proved below), so the embedding computes exactly what
  the JS does there.
* `localStorage` persistence (`saveHistory`) is a no-op for the engine's
  in-memory state and is not modelled; `updateHistoryButtonLabel` is UI.
* `JSON.parse(JSON.stringify(x))` deep copies are identities on immutable
  Lean values.
* The threshold test `deltaSize < fullSize * 0.6` is modelled as the exact
  rational comparison `10 * deltaSize < 6 * fullSize`.
-/

namespace VC

/-- One entry of a delta payload: a back-reference into the resolved parent
collection (a JS number) or an inline record (a JS object). -/
inductive DeltaEntry (α : Type) where
  | ref : Nat → DeltaEntry α
  | item : α → DeltaEntry α
deriving DecidableEq

/-- A version node, as stored in `this.versions`.  Exactly the fields the
JS constructor sites create: snapshot payload `data`, delta payload
`delta` (both optional, a snapshot node has `data`, a delta node has
`delta`). -/
structure Version (α : Type) where
  id : Nat
  parentId : Option Nat
  children : List Nat
  timestamp : Nat
  description : String
  wordCount : Nat
  lastAccessed : Nat
  data : Option (List α)
  delta : Option (List (DeltaEntry α))
deriving DecidableEq

/-- The whole `VersionControl` instance: node map, root/current pointers,
capacity, the id counter and clock (modelling `generateId` and
`new Date()`), and the `_dataCache` memo (insertion ordered). -/
structure VCState (α : Type) where
  versions : List (Nat × Version α)
  rootId : Option Nat
  currentId : Option Nat
  maxVersions : Nat
  nextId : Nat
  clock : Nat
  cache : List (Nat × List α)
deriving DecidableEq

/-- `Map.prototype.get`. -/
def mget {κ β : Type} [DecidableEq κ] : List (κ × β) → κ → Option β
  | [], _ => none
  | e :: rest, k => if e.1 = k then some e.2 else mget rest k

/-- `Map.prototype.set`: replace in place if the key is present, else
append (JS `Map` keeps insertion order). -/
def mset {κ β : Type} [DecidableEq κ] : List (κ × β) → κ → β → List (κ × β)
  | [], k, v => [(k, v)]
  | e :: rest, k, v => if e.1 = k then (k, v) :: rest else e :: mset rest k v

/-- `Map.prototype.delete` (keys are unique in a JS `Map`, so removing all
occurrences equals removing the one entry). -/
def mdel {κ β : Type} [DecidableEq κ] (m : List (κ × β)) (k : κ) : List (κ × β) :=
  m.filter (fun e => decide (e.1 ≠ k))

/-- Keys of the node map. -/
def keysOf {α : Type} (m : List (Nat × Version α)) : List Nat :=
  m.map Prod.fst

variable {α : Type} [DecidableEq α] [Inhabited α]

/-! ## Fingerprint/delta codec (`computeDelta` / `applyDelta`) -/

/-- Push index `i` onto the fingerprint bucket of `a`
(`fingerprints.get(fp).push(i)`, creating the bucket if absent). -/
def fpInsert [DecidableEq κ] (m : List (κ × List Nat)) (a : κ) (i : Nat) :
    List (κ × List Nat) :=
  match mget m a with
  | some is => mset m a (is ++ [i])
  | none => m ++ [(a, [i])]

/-- The `fingerprints` multi-map of `computeDelta`: fingerprint of each
base record to the list of positions holding it, in order. -/
def buildFp (base : List α) : List (α × List Nat) :=
  base.enum.foldl (fun m p => fpInsert m p.2 p.1) []

/-- The `newData.map(...)` walk of `computeDelta`: consume the first free
matching base position (`indices.shift()`) or emit the record inline. -/
def computeDeltaGo (m : List (α × List Nat)) : List α → List (DeltaEntry α)
  | [] => []
  | x :: xs =>
    match mget m x with
    | some (i :: is) => DeltaEntry.ref i :: computeDeltaGo (mset m x is) xs
    | _ => DeltaEntry.item x :: computeDeltaGo m xs

/-- `computeDelta(parentData, newData)`. -/
def computeDelta (base target : List α) : List (DeltaEntry α) :=
  computeDeltaGo (buildFp base) target

/-- `applyDelta(parentData, delta)`: back-reference entries index into the
base.  A JS out-of-range index yields `undefined`; that broken case is
modelled by `default` and never arises for the deltas the engine builds
(every emitted index is proved in range). -/
def applyDelta (base : List α) (delta : List (DeltaEntry α)) : List α :=
  delta.map fun e =>
    match e with
    | DeltaEntry.ref i => base.getD i default
    | DeltaEntry.item a => a

/-- Indices of the back-reference entries of a delta. -/
def deltaRefs (d : List (DeltaEntry α)) : List Nat :=
  d.filterMap fun e =>
    match e with
    | DeltaEntry.ref i => some i
    | DeltaEntry.item _ => none

/-! ## Serialized sizes (`JSON.stringify(x).length`)

Parametric in the serialized size `sz a` of one record; a JSON array of
`n ≥ 1` elements adds two brackets and `n - 1` commas, an empty array is
`"[]"`.  A numeric entry prints as its decimal representation. -/

/-- Length of `JSON.stringify` of a collection. -/
def jsonLenList (sz : α → Nat) (l : List α) : Nat :=
  if l.isEmpty then 2 else (l.map sz).sum + l.length + 1

/-- Length of one serialized delta entry. -/
def deltaEntrySz (sz : α → Nat) : DeltaEntry α → Nat
  | DeltaEntry.ref i => (Nat.repr i).length
  | DeltaEntry.item a => sz a

/-- Length of `JSON.stringify` of a delta. -/
def jsonLenDelta (sz : α → Nat) (d : List (DeltaEntry α)) : Nat :=
  if d.isEmpty then 2 else (d.map (deltaEntrySz sz)).sum + d.length + 1

/-! ## Delta depth and resolution -/

/-- `_deltaDepth`: count consecutive delta nodes walking parents until a
snapshot (`v.data`) or a missing node stops the walk.  Fuel bounds the
walk; it suffices on acyclic states. -/
def deltaDepthAux (m : List (Nat × Version α)) : Nat → Option Nat → Nat
  | _, none => 0
  | 0, some _ => 0
  | fuel + 1, some id =>
    match mget m id with
    | none => 0
    | some v =>
      if v.data.isSome then 0 else 1 + deltaDepthAux m fuel v.parentId

/-- `this._deltaDepth(versionId)`. -/
def deltaDepth (m : List (Nat × Version α)) (id : Option Nat) : Nat :=
  deltaDepthAux m (m.length + 1) id

/-- Pure (cache-free) resolution: what `resolveData` computes for a node,
walking `data` / `delta` / `parentId` only. -/
def resolveNC (m : List (Nat × Version α)) : Nat → Nat → Option (List α)
  | 0, _ => none
  | fuel + 1, id =>
    match mget m id with
    | none => none
    | some v =>
      match v.data with
      | some d => some d
      | none =>
        match v.delta, v.parentId with
        | some δ, some p => (resolveNC m fuel p).map (fun pd => applyDelta pd δ)
        | _, _ => none

/-- Resolution at the standard fuel (enough on acyclic states). -/
def resolveTop (m : List (Nat × Version α)) (id : Nat) : Option (List α) :=
  resolveNC m (m.length + 1) id

/-- A node resolves to `L` at some fuel. -/
def Resolves (m : List (Nat × Version α)) (id : Nat) (L : List α) : Prop :=
  ∃ fuel, resolveNC m fuel id = some L

/-- Insert a freshly computed result into `_dataCache` and evict the
oldest entry if the cache now exceeds 5 entries. -/
def cachePut (st : VCState α) (id : Nat) (r : List α) :
    Option (List α) × VCState α :=
  let c := st.cache ++ [(id, r)]
  (some r, { st with cache := if 5 < c.length then c.tail else c })

/-- `resolveData(versionId)`, with the memo cache threaded through the
state (the JS method mutates only `this._dataCache`). -/
def resolveDataAux : Nat → VCState α → Nat → Option (List α) × VCState α
  | 0, st, _ => (none, st)
  | fuel + 1, st, id =>
    match mget st.versions id with
    | none => (none, st)
    | some v =>
      match mget st.cache id with
      | some r => (some r, st)
      | none =>
        match v.data with
        | some d => cachePut st id d
        | none =>
          match v.delta, v.parentId with
          | some δ, some p =>
            let pr := resolveDataAux fuel st p
            match pr.1 with
            | none => (none, pr.2)
            | some pd => cachePut pr.2 id (applyDelta pd δ)
          | _, _ => (none, st)

/-- `resolveData` at the standard fuel. -/
def resolveData (st : VCState α) (id : Nat) : Option (List α) × VCState α :=
  resolveDataAux (st.versions.length + 1) st id

/-! ## Navigation -/

/-- `canUndo()`. -/
def canUndo (st : VCState α) : Bool :=
  match st.currentId with
  | none => false
  | some c =>
    match mget st.versions c with
    | none => false
    | some v => v.parentId.isSome

/-- `canRedo()`. -/
def canRedo (st : VCState α) : Bool :=
  match st.currentId with
  | none => false
  | some c =>
    match mget st.versions c with
    | none => false
    | some v => !v.children.isEmpty

/-- `undo()`: move `current` to its parent, stamp the parent's
`lastAccessed`, return the parent. -/
def undo (st : VCState α) : Option (Version α) × VCState α :=
  if !canUndo st then (none, st) else
  match st.currentId with
  | none => (none, st)
  | some cid =>
    match mget st.versions cid with
    | none => (none, st)
    | some cur =>
      match cur.parentId with
      | none => (none, st)
      | some pid =>
        let st1 := { st with currentId := some pid }
        match mget st1.versions pid with
        | none => (none, st1)
        | some p =>
          let p' := { p with lastAccessed := st1.clock }
          (some p',
           { st1 with versions := mset st1.versions pid p', clock := st1.clock + 1 })

/-- `getMostRecentChild(childIds)`: latest `lastAccessed`, strict
comparison, so ties keep the first-encountered child.  With two or more
children the JS reads `versions.get(childIds[0]).lastAccessed` without a
guard (it would throw on a dangling first child); that unreachable-under-
the-invariants case is modelled as `none`. -/
def getMostRecentChild (m : List (Nat × Version α)) : List Nat → Option Nat
  | [] => none
  | [c] => some c
  | c0 :: c1 :: rest =>
    match mget m c0 with
    | none => none
    | some v0 =>
      let best := (c1 :: rest).foldl
        (fun acc cid =>
          match mget m cid with
          | some child => if acc.2 < child.lastAccessed then (cid, child.lastAccessed) else acc
          | none => acc)
        (c0, v0.lastAccessed)
      some best.1

/-- `redo()`: move `current` to the most recently accessed child, stamp
its `lastAccessed`, return it. -/
def redo (st : VCState α) : Option (Version α) × VCState α :=
  if !canRedo st then (none, st) else
  match st.currentId with
  | none => (none, st)
  | some cid =>
    match mget st.versions cid with
    | none => (none, st)
    | some cur =>
      if cur.children.isEmpty then (none, st) else
      match getMostRecentChild st.versions cur.children with
      | none => (none, st)
      | some childId =>
        let st1 := { st with currentId := some childId }
        match mget st1.versions childId with
        | none => (none, st1)
        | some child =>
          let child' := { child with lastAccessed := st1.clock }
          (some child',
           { st1 with versions := mset st1.versions childId child', clock := st1.clock + 1 })

/-- `goToVersion(versionId)`. -/
def goToVersion (st : VCState α) (versionId : Nat) : Option (Version α) × VCState α :=
  match mget st.versions versionId with
  | none => (none, st)
  | some v =>
    let st1 := { st with currentId := some versionId }
    let v' := { v with lastAccessed := st1.clock }
    (some v',
     { st1 with versions := mset st1.versions versionId v', clock := st1.clock + 1 })

/-! ## Current path and deletion -/

/-- `isInCurrentPath(versionId)`: walk from `currentId` up the parent
chain; note the JS tests the id before looking the node up, so a dangling
`currentId` is itself on the path. -/
def isInCurrentPathAux (m : List (Nat × Version α)) : Nat → Option Nat → Nat → Bool
  | _, none, _ => false
  | 0, some _, _ => false
  | fuel + 1, some c, target =>
    if c = target then true
    else isInCurrentPathAux m fuel ((mget m c).bind Version.parentId) target

/-- `isInCurrentPath` at the standard fuel. -/
def isInCurrentPath (st : VCState α) (versionId : Nat) : Bool :=
  isInCurrentPathAux st.versions (st.versions.length + 1) st.currentId versionId

/-- The ids on the walk `isInCurrentPath` performs, in order. -/
def upChain (m : List (Nat × Version α)) : Nat → Option Nat → List Nat
  | _, none => []
  | 0, some _ => []
  | fuel + 1, some c => c :: upChain m fuel ((mget m c).bind Version.parentId)

/-- The current path (current to root) at the standard fuel. -/
def pathIds (st : VCState α) : List Nat :=
  upChain st.versions (st.versions.length + 1) st.currentId

/-- `deleteVersionAndChildren(versionId)`: children first, recursively,
then the node itself; `_clearCache()` runs at every level that found its
node. -/
def delVCAux : Nat → VCState α → Nat → VCState α
  | 0, st, _ => st
  | fuel + 1, st, id =>
    match mget st.versions id with
    | none => st
    | some v =>
      let st1 := v.children.foldl (delVCAux fuel) st
      { st1 with versions := mdel st1.versions id, cache := [] }

/-- `deleteVersionAndChildren` at the standard fuel. -/
def deleteVersionAndChildren (st : VCState α) (id : Nat) : VCState α :=
  delVCAux (st.versions.length + 1) st id

/-- The snapshot-conversion loop of `deleteVersionAndReparentChildren`:
each delta child is resolved and converted in place to a snapshot. -/
def convertChildren : VCState α → List Nat → VCState α
  | st, [] => st
  | st, c :: rest =>
    let st' :=
      match mget st.versions c with
      | some child =>
        if child.delta.isSome ∧ child.data = none then
          let rr := resolveData st c
          match rr.1 with
          | some resolved =>
            let child' := { child with data := some resolved, delta := none }
            { rr.2 with versions := mset rr.2.versions c child' }
          | none => rr.2
        else st
      | none => st
    convertChildren st' rest

/-- `deleteVersionAndReparentChildren(versionId)`: refuse on a missing id
or the root; convert delta children to snapshots; clear the cache; splice
children into the parent's list at the deleted node's position; reassign
their `parentId`; remove the node. -/
def deleteVersionAndReparentChildren (st : VCState α) (versionId : Nat) : VCState α :=
  match mget st.versions versionId with
  | none => st
  | some version =>
    if st.rootId = some versionId then st
    else
      let parentId := version.parentId
      let childrenToReparent := version.children
      let st1 := convertChildren st childrenToReparent
      let st2 := { st1 with cache := [] }
      let st3 :=
        match parentId with
        | none => st2
        | some pid =>
          match mget st2.versions pid with
          | none => st2
          | some parent =>
            let at? := parent.children.indexOf versionId
            let filtered := parent.children.filter (fun i => decide (i ≠ versionId))
            let insertAt := if versionId ∈ parent.children then at? else filtered.length
            let newKids := filtered.take insertAt ++ childrenToReparent ++ filtered.drop insertAt
            let parent' := { parent with children := newKids }
            { st2 with versions := mset st2.versions pid parent' }
      let st4 := childrenToReparent.foldl
        (fun s childId =>
          match mget s.versions childId with
          | some child =>
            { s with versions := mset s.versions childId ({ child with parentId := parentId }) }
          | none => s)
        st3
      { st4 with versions := mdel st4.versions versionId }

/-- The reparenting pass of `deleteVersionAndReparentChildren` (the
`forEach` that rewrites each orphaned child's `parentId`). -/
def reparentFold (pid : Option Nat) (cs : List Nat) (s : VCState α) : VCState α :=
  cs.foldl
    (fun s childId =>
      match mget s.versions childId with
      | some child =>
        { s with versions := mset s.versions childId ({ child with parentId := pid }) }
      | none => s)
    s

/-! ## Pruning -/

/-- One pass of the `pruneOldVersions` loop over the ranked candidates. -/
def pruneLoop (toRemove : Nat) : List (Version α) → VCState α → Nat → VCState α
  | [], st, _ => st
  | v :: rest, st, removed =>
    if toRemove ≤ removed then st
    else if isInCurrentPath st v.id then pruneLoop toRemove rest st removed
    else if st.rootId = some v.id then pruneLoop toRemove rest st removed
    else
      let st1 :=
        match v.parentId with
        | none => st
        | some pid =>
          match mget st.versions pid with
          | none => st
          | some parent =>
            let parent' := { parent with children := parent.children.filter (fun i => decide (i ≠ v.id)) }
            { st with versions := mset st.versions pid parent' }
      let st2 := deleteVersionAndChildren st1 v.id
      pruneLoop toRemove rest st2 (removed + 1)

/-- One effective iteration of the prune loop on candidate `v` (the
detach-from-parent write followed by the recursive subtree deletion);
`pruneLoop` performs exactly this on every candidate that passes the
current-path and root checks. -/
def pruneStep (st : VCState α) (v : Version α) : VCState α :=
  let st1 :=
    match v.parentId with
    | none => st
    | some pid =>
      match mget st.versions pid with
      | none => st
      | some parent =>
        let parent' := { parent with children := parent.children.filter (fun i => decide (i ≠ v.id)) }
        { st with versions := mset st.versions pid parent' }
  deleteVersionAndChildren st1 v.id

/-- The ascending-by-`lastAccessed` ranking of all nodes.  JS
`Array.prototype.sort` is stable and the comparator subtracts the two
instants; a stable ascending sort of the same values is unique, so the
insertion sort used here computes the same list. -/
def rankedVersions (st : VCState α) : List (Version α) :=
  (st.versions.map Prod.snd).insertionSort
    (fun a b => a.lastAccessed ≤ b.lastAccessed)

/-- `pruneOldVersions(forceRemove)`. -/
def pruneOldVersions (st : VCState α) (forceRemove : Nat) : VCState α :=
  let targetSize := if 0 < forceRemove then st.versions.length - forceRemove else st.maxVersions
  if st.versions.length ≤ targetSize then st
  else
    let toRemove := st.versions.length - targetSize
    pruneLoop toRemove (rankedVersions st) st 0

/-! ## Commit -/

/-- `createVersion(data, description)`.  The decision mirrors the JS: a
delta payload is used iff a current node exists, its collection resolves,
the consecutive delta depth is below 9, and the serialized delta is
smaller than 0.6 of the serialized snapshot. -/
def createVersion (sz : α → Nat) (st : VCState α) (data : List α)
    (descr : String) : Version α × VCState α :=
  let now := st.clock
  let base : Version α :=
    { id := st.nextId, parentId := st.currentId, children := [],
      timestamp := now, description := descr, wordCount := data.length,
      lastAccessed := now, data := none, delta := none }
  let step1 :=
    match st.currentId with
    | none => ({ base with data := some data }, st)
    | some cid =>
      let rr := resolveData st cid
      match rr.1 with
      | none => ({ base with data := some data }, rr.2)
      | some parentData =>
        let δ := computeDelta parentData data
        let deltaSize := jsonLenDelta sz δ
        let fullSize := jsonLenList sz data
        let depth := deltaDepth rr.2.versions st.currentId
        if depth < 9 ∧ 10 * deltaSize < 6 * fullSize then
          ({ base with delta := some δ }, rr.2)
        else
          ({ base with data := some data }, rr.2)
  let nv := step1.1
  let st1 := step1.2
  let st2 :=
    match st.currentId with
    | some cid =>
      match mget st1.versions cid with
      | some parent =>
        let parent' := { parent with children := parent.children ++ [nv.id] }
        { st1 with versions := mset st1.versions cid parent' }
      | none => st1
    | none => { st1 with rootId := some nv.id }
  let st3 := { st2 with
    versions := mset st2.versions nv.id nv
    currentId := some nv.id
    cache := []
    nextId := st2.nextId + 1
    clock := st2.clock + 1 }
  let st4 := if st3.maxVersions < st3.versions.length then pruneOldVersions st3 0 else st3
  (nv, st4)

/-- `createVersion` without the final capacity check: everything up to and
including the insertion of the new node.  `createVersion` is exactly this
followed by `pruneOldVersions 0` when the size exceeds the capacity; the
split names the intermediate state so eviction-count properties can speak
about the moment pruning ran. -/
def createVersionNoPrune (sz : α → Nat) (st : VCState α) (data : List α)
    (descr : String) : Version α × VCState α :=
  let now := st.clock
  let base : Version α :=
    { id := st.nextId, parentId := st.currentId, children := [],
      timestamp := now, description := descr, wordCount := data.length,
      lastAccessed := now, data := none, delta := none }
  let step1 :=
    match st.currentId with
    | none => ({ base with data := some data }, st)
    | some cid =>
      let rr := resolveData st cid
      match rr.1 with
      | none => ({ base with data := some data }, rr.2)
      | some parentData =>
        let δ := computeDelta parentData data
        let deltaSize := jsonLenDelta sz δ
        let fullSize := jsonLenList sz data
        let depth := deltaDepth rr.2.versions st.currentId
        if depth < 9 ∧ 10 * deltaSize < 6 * fullSize then
          ({ base with delta := some δ }, rr.2)
        else
          ({ base with data := some data }, rr.2)
  let nv := step1.1
  let st1 := step1.2
  let st2 :=
    match st.currentId with
    | some cid =>
      match mget st1.versions cid with
      | some parent =>
        let parent' := { parent with children := parent.children ++ [nv.id] }
        { st1 with versions := mset st1.versions cid parent' }
      | none => st1
    | none => { st1 with rootId := some nv.id }
  let st3 := { st2 with
    versions := mset st2.versions nv.id nv
    currentId := some nv.id
    cache := []
    nextId := st2.nextId + 1
    clock := st2.clock + 1 }
  (nv, st3)

/-! ## Graft, clear, init -/

/-- The id remap of `graftTree`: every imported key is assigned a fresh
local id, in iteration order. -/
def graftIdMap (st : VCState α) (imported : List (Nat × Version α)) : List (Nat × Nat) :=
  imported.enum.map fun p => (p.2.1, st.nextId + p.1)

/-- The throwaway resolver `graftTree` builds over the imported tree only
(`tempVC`). -/
def tempResolver (imported : List (Nat × Version α)) (importedRootId importedCurrentId : Nat) :
    VCState α :=
  { versions := imported, rootId := some importedRootId,
    currentId := some importedCurrentId, maxVersions := 100,
    nextId := 0, clock := 0, cache := [] }

/-- Re-key one imported node: fresh id, remapped parent (the imported
root's parent becomes the local root), remapped children with unknown
targets dropped; an imported root whose payload is a delta is converted to
a snapshot via the throwaway resolver. -/
def regraftNode (st : VCState α) (idMap : List (Nat × Nat))
    (tmp : VCState α) (importedRootId : Nat) (oldId : Nat) (v : Version α) :
    Nat × Version α :=
  let newId := (mget idMap oldId).getD 0
  let newParent :=
    if oldId = importedRootId then st.rootId
    else match v.parentId with
         | none => none
         | some p => mget idMap p
  let nv : Version α :=
    { v with
      id := newId
      parentId := newParent
      children := v.children.filterMap (mget idMap) }
  if oldId = importedRootId ∧ nv.delta.isSome ∧ nv.data = none then
    match (resolveData tmp oldId).1 with
    | some resolved => (newId, { nv with data := some resolved, delta := none })
    | none => (newId, nv)
  else (newId, nv)

/-- `graftTree(importedVersionsObj, importedRootId, importedCurrentId)`.
If the imported root id is unknown the JS pushes `undefined` into the
local root's children; that broken entry cannot be represented in
`List Nat` and is modelled by not pushing (the claims assume a well-formed
imported tree, where the case does not arise). -/
def graftTree (st : VCState α) (imported : List (Nat × Version α))
    (importedRootId importedCurrentId : Nat) : Option Nat × VCState α :=
  let idMap := graftIdMap st imported
  let tmp := tempResolver imported importedRootId importedCurrentId
  let st0 : VCState α := { st with nextId := st.nextId + imported.length }
  let st1 := imported.foldl
    (fun (s : VCState α) p =>
      let kv := regraftNode st idMap tmp importedRootId p.1 p.2
      { s with versions := mset s.versions kv.1 kv.2 })
    st0
  let st2 : VCState α :=
    match st.rootId with
    | none => st1
    | some r =>
      match mget st1.versions r with
      | none => st1
      | some localRoot =>
        let localRoot' :=
          match mget idMap importedRootId with
          | none => localRoot
          | some newRootId => { localRoot with children := localRoot.children ++ [newRootId] }
        { st1 with versions := mset st1.versions r localRoot' }
  let newCur : Option Nat :=
    match mget idMap importedCurrentId with
    | some nc => some nc
    | none => st2.currentId
  let st3 : VCState α := { st2 with currentId := newCur, cache := [] }
  let st4 : VCState α :=
    if st3.maxVersions < st3.versions.length then pruneOldVersions st3 0 else st3
  (mget idMap importedCurrentId, st4)

/-- `graftTree` up to (excluding) its final capacity check: insertion of
the re-keyed imported nodes, the child push under the local root, the
current-pointer update and the cache clear. `graftTree` is this followed
by `pruneOldVersions` when the result exceeds the capacity. -/
def graftTreeNoPrune (st : VCState α) (imported : List (Nat × Version α))
    (importedRootId importedCurrentId : Nat) : Option Nat × VCState α :=
  let idMap := graftIdMap st imported
  let tmp := tempResolver imported importedRootId importedCurrentId
  let st0 : VCState α := { st with nextId := st.nextId + imported.length }
  let st1 := imported.foldl
    (fun (s : VCState α) p =>
      let kv := regraftNode st idMap tmp importedRootId p.1 p.2
      { s with versions := mset s.versions kv.1 kv.2 })
    st0
  let st2 : VCState α :=
    match st.rootId with
    | none => st1
    | some r =>
      match mget st1.versions r with
      | none => st1
      | some localRoot =>
        let localRoot' :=
          match mget idMap importedRootId with
          | none => localRoot
          | some newRootId => { localRoot with children := localRoot.children ++ [newRootId] }
        { st1 with versions := mset st1.versions r localRoot' }
  let newCur : Option Nat :=
    match mget idMap importedCurrentId with
    | some nc => some nc
    | none => st2.currentId
  let st3 : VCState α := { st2 with currentId := newCur, cache := [] }
  (mget idMap importedCurrentId, st3)

/-- The insertion pass of `graftTree`: re-key each imported node and
`set` it into the local map. -/
def graftInsertFold (st' : VCState α) (idMap : List (Nat × Nat)) (tmp : VCState α)
    (importedRootId : Nat) (l : List (Nat × Version α)) (s : VCState α) : VCState α :=
  l.foldl
    (fun (s : VCState α) p =>
      let kv := regraftNode st' idMap tmp importedRootId p.1 p.2
      { s with versions := mset s.versions kv.1 kv.2 })
    s

/-- `clearHistory()`. -/
def clearHistory (st : VCState α) : VCState α :=
  { st with versions := [], rootId := none, currentId := none, cache := [] }

/-- A freshly constructed, empty `VersionControl` (nothing persisted). -/
def initVC (maxV : Nat) : VCState α :=
  { versions := [], rootId := none, currentId := none,
    maxVersions := maxV, nextId := 0, clock := 0, cache := [] }

/-! ## Specification-side definitions -/

/-- The parent pointer of a node, as a partial function on ids. -/
def parentOf (m : List (Nat × Version α)) (j : Nat) : Option Nat :=
  (mget m j).bind Version.parentId

/-- Iterate the parent pointer `n` times. -/
def iterChain (m : List (Nat × Version α)) : Nat → Nat → Option Nat
  | 0, j => some j
  | n + 1, j =>
    match parentOf m j with
    | none => none
    | some p => iterChain m n p

/-- `id` lies on the ancestor chain of `j` (including `j` itself). -/
def Reach (m : List (Nat × Version α)) (j id : Nat) : Prop :=
  ∃ n, iterChain m n j = some id

/-- `m'` keeps a subset of `m`'s entries, unchanged. -/
def SubMap (m' m : List (Nat × Version α)) : Prop :=
  ∀ j w, mget m' j = some w → mget m j = some w

/-- Every present node's parent is present. -/
def ParentClosed (m : List (Nat × Version α)) : Prop :=
  ∀ j w p, mget m j = some w → w.parentId = some p → mget m p ≠ none

/-- Every present node is listed among its parent's children. -/
def ChildBack (m : List (Nat × Version α)) : Prop :=
  ∀ c w p, mget m c = some w → w.parentId = some p →
    ∀ v, mget m p = some v → c ∈ v.children

/-- `m'` keeps a subset of `m`'s nodes with the payload fields
(`data`/`delta`/`parentId`) unchanged (children lists may differ). -/
def ShrinkMap (m' m : List (Nat × Version α)) : Prop :=
  ∀ j w', mget m' j = some w' →
    ∃ w, mget m j = some w ∧ w'.data = w.data ∧ w'.delta = w.delta ∧
      w'.parentId = w.parentId

/-- The payload fields (`data`/`delta`/`parentId`) of two nodes agree
(children lists and timestamps may differ); resolution only reads these. -/
def PayloadEq (v w : Version α) : Prop :=
  v.data = w.data ∧ v.delta = w.delta ∧ v.parentId = w.parentId

/-- `m'` contains every node of `m`, with equal payload. -/
def PayloadExt (m m' : List (Nat × Version α)) : Prop :=
  ∀ k v, mget m k = some v → ∃ v', mget m' k = some v' ∧ PayloadEq v v'

/-- A rank function certifying acyclicity: parents rank strictly below
their children. -/
def ParentRank (m : List (Nat × Version α)) (rnk : Nat → Nat) : Prop :=
  ∀ e ∈ m, ∀ p, e.2.parentId = some p → rnk p < rnk e.1

/-- Statements of the shape "whatever the optional value holds satisfies
P" are decidable; used to check the invariants on concrete states. -/
instance decForallOptEq {β : Type} {o : Option β} {P : β → Prop}
    [inst : ∀ p, Decidable (P p)] : Decidable (∀ p, o = some p → P p) :=
  match o with
  | none => isTrue (fun p h => nomatch h)
  | some a =>
    match inst a with
    | isTrue h => isTrue (fun p hp => by cases hp; exact h)
    | isFalse h => isFalse (fun hall => h (hall a rfl))

/-- The tree invariants of the version store (spec section 3): unique
keys, nodes know their own id, ids below the allocation counter, root and
current pointers valid (null exactly on the empty tree), exactly the root
parentless, parents present, children lists duplicate-free and the exact
inverse of the parent relation, and acyclicity. -/
structure Inv (st : VCState α) : Prop where
  nodupKeys : (keysOf st.versions).Nodup
  keyMatch : ∀ e ∈ st.versions, e.2.id = e.1
  keysLt : ∀ e ∈ st.versions, e.1 < st.nextId
  rootNone : st.rootId = none ↔ st.versions = []
  currNone : st.currentId = none ↔ st.versions = []
  rootMem : ∀ r, st.rootId = some r → mget st.versions r ≠ none
  currMem : ∀ c, st.currentId = some c → mget st.versions c ≠ none
  parentRootIff : ∀ e ∈ st.versions, (e.2.parentId = none ↔ st.rootId = some e.1)
  parentMem : ∀ e ∈ st.versions, ∀ p, e.2.parentId = some p → mget st.versions p ≠ none
  childNodup : ∀ e ∈ st.versions, e.2.children.Nodup
  chBack : ∀ e ∈ st.versions, ∀ c ∈ e.2.children, parentOf st.versions c = some e.1
  chFull : ∀ ce ∈ st.versions, ∀ pe ∈ st.versions,
    ce.2.parentId = some pe.1 → ce.1 ∈ pe.2.children
  acyclic : ∃ rnk, ParentRank st.versions rnk

/-- Every memoized cache entry is a true resolution. -/
def CacheOK (st : VCState α) : Prop :=
  ∀ e ∈ st.cache, Resolves st.versions e.1 e.2

/-- Every present node resolves. -/
def AllResolve (st : VCState α) : Prop :=
  ∀ e ∈ st.versions, ∃ L, Resolves st.versions e.1 L

/-- The states reachable by the engine satisfy all of this (tree
invariants, sound memo cache, and a resolvable collection at every
node). -/
structure Good (st : VCState α) : Prop where
  inv : Inv st
  cacheOK : CacheOK st
  allRes : AllResolve st

/-- Run a sequence of commits (`createVersion` calls). -/
def commitMany (sz : α → Nat) : VCState α → List (List α × String) → VCState α
  | st, [] => st
  | st, c :: cs => commitMany sz (createVersion sz st c.1 c.2).2 cs

/-- Extend a creation-collection ledger along a sequence of commits: the
node a commit creates (id `st.nextId`) is mapped to the collection passed
to it. -/
def ghostMany (sz : α → Nat) : VCState α → (Nat → List α) → List (List α × String) → (Nat → List α)
  | _, g, [] => g
  | st, g, c :: cs =>
    ghostMany sz (createVersion sz st c.1 c.2).2
      (fun j => if j = st.nextId then c.1 else g j) cs

/-- Every present node resolves to its recorded creation collection. -/
def TracksGhost (st : VCState α) (g : Nat → List α) : Prop :=
  ∀ e ∈ st.versions, resolveTop st.versions e.1 = some (g e.1)

/-- Number of eviction-eligible nodes: neither the root nor on the
current path. -/
def eligibleCount (st : VCState α) : Nat :=
  ((keysOf st.versions).filter
    (fun id => !(isInCurrentPath st id || decide (st.rootId = some id)))).length

/-- All indices stored in the fingerprint map point at base positions
holding the fingerprinted record. -/
def FpOk (base : List α) (m : List (α × List Nat)) : Prop :=
  ∀ e ∈ m, ∀ i ∈ e.2, base.get? i = some e.1

/-- All indices held by a fingerprint map, across buckets. -/
def fpIndices (m : List (α × List Nat)) : List Nat :=
  (m.map Prod.snd).flatten

/-- Serialized size of a record whose JSON form is its decimal numeral
(used to instantiate the engine on `Nat` records in concrete runs). -/
def szNat : Nat → Nat := fun n => (Nat.repr n).length

/-- Concrete run: empty store, commit a root, commit a child; the current
node is the child (id 1), the root has id 0. -/
def cxSt2 : VCState Nat :=
  (createVersion szNat (createVersion szNat (initVC 100) [] "init").2 [0] "child").2

/-- A one-node store (a root holding the empty collection, current at the
root), used to exercise the navigation error paths concretely. -/
def oneNodeSt : VCState Nat :=
  { versions := [(0, ⟨0, none, [], 0, "init", 0, 0, some [], none⟩)],
    rootId := some 0, currentId := some 0, maxVersions := 100,
    nextId := 1, clock := 1, cache := [] }

/-- Concrete run: commit root, commit A.  Root id 0, A id 1, current A. -/
def scnA : VCState Nat :=
  (createVersion szNat (createVersion szNat (initVC 100) [] "init").2 [10] "A").2

/-- Continue: undo (back to root), commit B (id 2, a sibling of A),
current B. -/
def scnStB : VCState Nat :=
  (createVersion szNat (undo scnA).2 [20] "B").2

/-- Continue: undo again, current at the root with children A and B, B
visited more recently. -/
def scnSt : VCState Nat :=
  (undo scnStB).2

/-- Root node of the concrete reparent scenario: collection `[7]`,
snapshot, one child. -/
def reparentV0 : Version Nat := ⟨0, none, [1], 0, "r", 1, 0, some [7], none⟩

/-- Middle node (the one to be deleted): collection `[7, 8]`, snapshot,
one child. -/
def reparentV1 : Version Nat := ⟨1, some 0, [2], 0, "d", 2, 0, some [7, 8], none⟩

/-- Leaf node, delta-encoded against its parent (node 1): one
back-reference and one inline record, resolving to `[7, 9]`. -/
def reparentV2 : Version Nat :=
  ⟨2, some 1, [], 0, "c", 2, 0, none, some [DeltaEntry.ref 0, DeltaEntry.item 9]⟩

/-- Concrete store with a non-root, non-current middle node (id 1) whose
only child is delta-encoded against it; current is at the root. -/
def reparentSt : VCState Nat :=
  { versions := [(0, reparentV0), (1, reparentV1), (2, reparentV2)],
    rootId := some 0, currentId := some 0, maxVersions := 50,
    nextId := 3, clock := 1, cache := [] }

/-- A concrete imported tree whose node ids (0 and 1) collide with local
ids: an imported root holding `[1]` with one child holding `[2]`. -/
def graftImp : List (Nat × Version Nat) :=
  [(0, ⟨0, none, [1], 0, "ir", 1, 0, some [1], none⟩),
   (1, ⟨1, some 0, [], 0, "ic", 1, 0, some [2], none⟩)]

/-- Root node of the over-capacity graft scenario: collection `[7]`, one
child (node 1). -/
def gcxV0 : Version Nat := ⟨0, none, [1], 0, "r", 1, 0, some [7], none⟩

/-- Local non-root node of the over-capacity graft scenario. -/
def gcxV1 : Version Nat := ⟨1, some 0, [], 0, "a", 1, 0, some [8], none⟩

/-- A full-to-capacity two-node store (maxVersions = 2): grafting anything
into it overflows the cap and triggers the prune inside graftTree. -/
def gcxSt : VCState Nat :=
  { versions := [(0, gcxV0), (1, gcxV1)], rootId := some 0,
    currentId := some 0, maxVersions := 2, nextId := 2, clock := 1,
    cache := [] }

/-- A well-formed one-node import (root id 5, also the imported current). -/
def gcxImp : List (Nat × Version Nat) :=
  [(5, ⟨5, none, [], 0, "i", 1, 0, some [9], none⟩)]

/-- A malformed two-node import: node 6 names node 5 as parent but node 5
does not list 6 among its children, so the parent/children inverse fails
inside the imported payload. -/
def badImp : List (Nat × Version Nat) :=
  [(5, ⟨5, none, [], 0, "i", 1, 0, some [9], none⟩),
   (6, ⟨6, some 5, [], 0, "j", 1, 0, some [10], none⟩)]

/-! # Theorems -/

/-! ## Association-list lemmas -/

theorem mget_eq_some_mem {κ β : Type} [DecidableEq κ] {m : List (κ × β)} {k : κ} {v : β}
    (h : mget m k = some v) : (k, v) ∈ m := by
  induction m with
  | nil => simp [mget] at h
  | cons e rest ih =>
    by_cases hk : e.1 = k
    · rw [mget, if_pos hk] at h
      cases h
      have he : e = (k, e.2) := by cases e; cases hk; rfl
      exact List.mem_cons.mpr (Or.inl he.symm)
    · rw [mget, if_neg hk] at h
      exact List.mem_cons_of_mem _ (ih h)

theorem mem_mset {κ β : Type} [DecidableEq κ] {m : List (κ × β)} {k : κ} {v : β}
    {e : κ × β} (h : e ∈ mset m k v) : e = (k, v) ∨ e ∈ m := by
  induction m with
  | nil => simp [mset] at h; simp [h]
  | cons f rest ih =>
    by_cases hk : f.1 = k
    · rw [mset, if_pos hk] at h
      rcases List.mem_cons.mp h with h | h
      · exact Or.inl h
      · exact Or.inr (List.mem_cons_of_mem _ h)
    · rw [mset, if_neg hk] at h
      rcases List.mem_cons.mp h with h | h
      · exact Or.inr (List.mem_cons.mpr (Or.inl h))
      · rcases ih h with h | h
        · exact Or.inl h
        · exact Or.inr (List.mem_cons_of_mem _ h)

theorem mget_mset_self {κ β : Type} [DecidableEq κ] (m : List (κ × β)) (k : κ) (v : β) :
    mget (mset m k v) k = some v := by
  induction m with
  | nil => simp [mset, mget]
  | cons e rest ih =>
    by_cases hk : e.1 = k
    · rw [mset, if_pos hk, mget, if_pos rfl]
    · rw [mset, if_neg hk, mget, if_neg hk]
      exact ih

theorem mget_mset_ne {κ β : Type} [DecidableEq κ] (m : List (κ × β)) (k k' : κ) (v : β)
    (h : k' ≠ k) : mget (mset m k v) k' = mget m k' := by
  induction m with
  | nil =>
    simp only [mset, mget]
    rw [if_neg]
    intro hh
    exact h hh.symm
  | cons e rest ih =>
    by_cases hk : e.1 = k
    · rw [mset, if_pos hk, mget, mget,
        if_neg (fun hh => h ((show (k, v).1 = k' from hh)).symm),
        if_neg (fun hh => h ((hk ▸ hh : (k : κ) = k')).symm)]
    · rw [mset, if_neg hk, mget, mget]
      by_cases he : e.1 = k'
      · rw [if_pos he, if_pos he]
      · rw [if_neg he, if_neg he]
        exact ih

theorem mset_decomp {κ β : Type} [DecidableEq κ] {m : List (κ × β)} {k : κ} {v : β}
    (h : mget m k = some v) (v' : β) :
    ∃ pre post, m = pre ++ (k, v) :: post ∧ mset m k v' = pre ++ (k, v') :: post := by
  induction m with
  | nil => simp [mget] at h
  | cons e rest ih =>
    by_cases hk : e.1 = k
    · rw [mget, if_pos hk] at h
      cases h
      refine ⟨[], rest, ?_, ?_⟩
      · cases e; cases hk; rfl
      · rw [mset, if_pos hk]; rfl
    · rw [mget, if_neg hk] at h
      obtain ⟨pre, post, h1, h2⟩ := ih h
      exact ⟨e :: pre, post, by rw [h1]; rfl, by rw [mset, if_neg hk, h2]; rfl⟩

/-! ## Fingerprint map and the delta codec -/

theorem fpIndices_append {α : Type} (m1 m2 : List (α × List Nat)) :
    fpIndices (m1 ++ m2) = fpIndices m1 ++ fpIndices m2 := by
  simp [fpIndices]

theorem fpOk_fpInsert {α : Type} [DecidableEq α] {base : List α} {m : List (α × List Nat)}
    {a : α} {i : Nat} (hm : FpOk base m) (hi : base.get? i = some a) :
    FpOk base (fpInsert m a i) := by
  intro e he j hj
  unfold fpInsert at he
  cases hget : mget m a with
  | none =>
    simp only [hget] at he
    rcases List.mem_append.mp he with he | he
    · exact hm e he j hj
    · simp at he
      subst he
      simp at hj
      subst hj
      exact hi
  | some is =>
    simp only [hget] at he
    rcases mem_mset he with heq | hmem
    · subst heq
      simp at hj
      rcases hj with hj | hj
      · exact hm _ (mget_eq_some_mem hget) j hj
      · subst hj
        exact hi
    · exact hm _ hmem j hj

theorem fpIndices_perm_fpInsert {α : Type} [DecidableEq α] (m : List (α × List Nat))
    (a : α) (i : Nat) :
    List.Perm (fpIndices (fpInsert m a i)) (fpIndices m ++ [i]) := by
  unfold fpInsert
  cases hget : mget m a with
  | none =>
    rw [fpIndices_append]
    simp [fpIndices]
  | some is =>
    obtain ⟨pre, post, h1, h2⟩ := mset_decomp hget (is ++ [i])
    have e1 : fpIndices (mset m a (is ++ [i])) =
        fpIndices pre ++ (is ++ ([i] ++ fpIndices post)) := by
      rw [h2]
      simp [fpIndices, List.append_assoc]
    have e2 : fpIndices m ++ [i] =
        fpIndices pre ++ (is ++ (fpIndices post ++ [i])) := by
      rw [h1]
      simp [fpIndices, List.append_assoc]
    rw [e1, e2]
    exact List.Perm.append_left _ (List.Perm.append_left _ List.perm_append_comm)

theorem buildFp_aux {α : Type} [DecidableEq α] (base : List α) :
    ∀ (l : List (Nat × α)) (m : List (α × List Nat)),
      (∀ p ∈ l, base.get? p.1 = some p.2) → FpOk base m →
      FpOk base (l.foldl (fun m p => fpInsert m p.2 p.1) m) ∧
      List.Perm (fpIndices (l.foldl (fun m p => fpInsert m p.2 p.1) m))
        (fpIndices m ++ l.map Prod.fst) := by
  intro l
  induction l with
  | nil =>
    intro m _ hm
    refine ⟨hm, ?_⟩
    simpa using List.Perm.refl (fpIndices m)
  | cons p rest ih =>
    intro m hl hm
    obtain ⟨h1, h2⟩ := ih (fpInsert m p.2 p.1)
      (fun q hq => hl q (List.mem_cons_of_mem _ hq))
      (fpOk_fpInsert hm (hl p (List.mem_cons_self _ _)))
    refine ⟨h1, ?_⟩
    simp only [List.foldl_cons, List.map_cons]
    have h3 := h2.trans (List.Perm.append_right _ (fpIndices_perm_fpInsert m p.2 p.1))
    have h4 : (fpIndices m ++ [p.1]) ++ rest.map Prod.fst =
        fpIndices m ++ (p.1 :: rest.map Prod.fst) := by simp
    rw [← h4]
    exact h3

theorem buildFp_ok {α : Type} [DecidableEq α] (base : List α) :
    FpOk base (buildFp base) ∧ (fpIndices (buildFp base)).Nodup := by
  unfold buildFp
  obtain ⟨h1, h2⟩ := buildFp_aux base base.enum []
    (fun p hp => by
      have := List.mem_enum_iff_getElem?.mp hp
      simpa [List.get?_eq_getElem?] using this)
    (by intro e he; simp at he)
  refine ⟨h1, ?_⟩
  rw [h2.nodup_iff]
  simp only [fpIndices, List.map_nil, List.flatten_nil, List.nil_append]
  rw [List.enum_map_fst]
  exact List.nodup_range _

theorem computeDeltaGo_roundtrip {α : Type} [DecidableEq α] [Inhabited α] {base : List α} :
    ∀ (t : List α) (m : List (α × List Nat)), FpOk base m →
      applyDelta base (computeDeltaGo m t) = t := by
  intro t
  induction t with
  | nil => intro m _; rfl
  | cons x xs ih =>
    intro m hm
    unfold computeDeltaGo
    cases hget : mget m x with
    | none =>
      simp only [applyDelta, List.map_cons]
      exact congrArg (x :: ·) (ih m hm)
    | some is =>
      cases is with
      | nil =>
        simp only [applyDelta, List.map_cons]
        exact congrArg (x :: ·) (ih m hm)
      | cons i is' =>
        simp only [applyDelta, List.map_cons]
        have hx : base.get? i = some x :=
          hm _ (mget_eq_some_mem hget) i (List.mem_cons_self _ _)
        have hgd : base.getD i default = x := by
          rw [List.getD_eq_getElem?_getD, ← List.get?_eq_getElem?, hx]
          rfl
        rw [hgd]
        refine congrArg (x :: ·) (ih (mset m x is') ?_)
        intro e he j hj
        rcases mem_mset he with heq | he
        · subst heq
          simp at hj
          exact hm _ (mget_eq_some_mem hget) j (List.mem_cons_of_mem _ hj)
        · exact hm e he j hj

theorem computeDeltaGo_refs {α : Type} [DecidableEq α] :
    ∀ (t : List α) (m : List (α × List Nat)), (fpIndices m).Nodup →
      (deltaRefs (computeDeltaGo m t)).Nodup ∧
      ∀ r ∈ deltaRefs (computeDeltaGo m t), r ∈ fpIndices m := by
  intro t
  induction t with
  | nil => intro m _; simp [computeDeltaGo, deltaRefs]
  | cons x xs ih =>
    intro m hm
    unfold computeDeltaGo
    cases hget : mget m x with
    | none =>
      simp only [deltaRefs, List.filterMap_cons]
      exact ih m hm
    | some is =>
      cases is with
      | nil =>
        simp only [deltaRefs, List.filterMap_cons]
        exact ih m hm
      | cons i is' =>
        obtain ⟨pre, post, h1, h2⟩ := mset_decomp hget is'
        have hfi : fpIndices m = fpIndices pre ++ (i :: is') ++ fpIndices post := by
          rw [h1, fpIndices_append]
          simp [fpIndices]
        have hfi' : fpIndices (mset m x is') = fpIndices pre ++ is' ++ fpIndices post := by
          rw [h2, fpIndices_append]
          simp [fpIndices]
        have hmid : (i :: (fpIndices pre ++ (is' ++ fpIndices post))).Nodup := by
          rw [← List.nodup_middle]
          rw [hfi] at hm
          simpa [List.append_assoc] using hm
        have hm' : (fpIndices (mset m x is')).Nodup := by
          rw [hfi']
          have := hmid.of_cons
          simpa [List.append_assoc] using this
        have hni : i ∉ fpIndices (mset m x is') := by
          rw [hfi']
          have := (List.nodup_cons.mp hmid).1
          simpa [List.append_assoc] using this
        obtain ⟨ihn, ihs⟩ := ih (mset m x is') hm'
        simp only [deltaRefs, List.filterMap_cons]
        constructor
        · exact List.nodup_cons.mpr ⟨fun hmem => hni (ihs _ hmem), ihn⟩
        · intro r hr
          rcases List.mem_cons.mp hr with rfl | hr
          · rw [hfi]
            simp
          · have := ihs r hr
            rw [hfi'] at this
            rw [hfi]
            rcases List.mem_append.mp this with h | h
            · rcases List.mem_append.mp h with h | h
              · simp [h]
              · simp [h]
            · simp [h]

/-- C2: for every base/target pair, applying the computed delta to the
base reproduces the target element for element (also with duplicates),
and each base position is consumed by at most one back-reference (the
back-reference indices are pairwise distinct). -/
theorem claim2_delta_roundtrip {α : Type} [DecidableEq α] [Inhabited α]
    (base target : List α) :
    applyDelta base (computeDelta base target) = target ∧
    (deltaRefs (computeDelta base target)).Nodup := by
  obtain ⟨hok, hnd⟩ := buildFp_ok base
  exact ⟨computeDeltaGo_roundtrip target (buildFp base) hok,
    (computeDeltaGo_refs target (buildFp base) hnd).1⟩

/-! ## Frame properties of resolution -/

theorem cachePut_frame (st : VCState α) (id : Nat) (r : List α) :
    (cachePut st id r).2.versions = st.versions ∧
    (cachePut st id r).2.rootId = st.rootId ∧
    (cachePut st id r).2.currentId = st.currentId ∧
    (cachePut st id r).2.maxVersions = st.maxVersions ∧
    (cachePut st id r).2.nextId = st.nextId ∧
    (cachePut st id r).2.clock = st.clock ∧
    (cachePut st id r).2.cache.length ≤ max 5 st.cache.length := by
  refine ⟨rfl, rfl, rfl, rfl, rfl, rfl, ?_⟩
  show (if 5 < (st.cache ++ [(id, r)]).length then (st.cache ++ [(id, r)]).tail
    else st.cache ++ [(id, r)]).length ≤ max 5 st.cache.length
  by_cases h : 5 < (st.cache ++ [(id, r)]).length
  · rw [if_pos h]
    simp only [List.length_tail, List.length_append, List.length_cons,
      List.length_nil] at h ⊢
    omega
  · rw [if_neg h]
    simp only [List.length_append, List.length_cons, List.length_nil] at h ⊢
    omega

theorem resolveDataAux_frame :
    ∀ (fuel : Nat) (st : VCState α) (id : Nat),
    (resolveDataAux fuel st id).2.versions = st.versions ∧
    (resolveDataAux fuel st id).2.rootId = st.rootId ∧
    (resolveDataAux fuel st id).2.currentId = st.currentId ∧
    (resolveDataAux fuel st id).2.maxVersions = st.maxVersions ∧
    (resolveDataAux fuel st id).2.nextId = st.nextId ∧
    (resolveDataAux fuel st id).2.clock = st.clock ∧
    (resolveDataAux fuel st id).2.cache.length ≤ max 5 st.cache.length := by
  intro fuel
  induction fuel with
  | zero =>
    intro st id
    exact ⟨rfl, rfl, rfl, rfl, rfl, rfl, Nat.le_max_right _ _⟩
  | succ fuel ih =>
    intro st id
    cases hv : mget st.versions id with
    | none =>
      simp only [resolveDataAux, hv]
      simp [Nat.le_max_right]
    | some v =>
      cases hc : mget st.cache id with
      | some r =>
        simp only [resolveDataAux, hv, hc]
        simp [Nat.le_max_right]
      | none =>
        cases hd : v.data with
        | some d =>
          simp only [resolveDataAux, hv, hc, hd]
          exact cachePut_frame st id d
        | none =>
          cases hδ : v.delta with
          | none =>
            simp only [resolveDataAux, hv, hc, hd, hδ]
            simp [Nat.le_max_right]
          | some δ =>
            cases hp : v.parentId with
            | none =>
              simp only [resolveDataAux, hv, hc, hd, hδ, hp]
              simp [Nat.le_max_right]
            | some p =>
              simp only [resolveDataAux, hv, hc, hd, hδ, hp]
              obtain ⟨e1, e2, e3, e4, e5, e6, e7⟩ := ih st p
              cases hres : (resolveDataAux fuel st p).1 with
              | none =>
                simp only [hres]
                exact ⟨e1, e2, e3, e4, e5, e6, e7⟩
              | some pd =>
                simp only [hres]
                obtain ⟨f1, f2, f3, f4, f5, f6, f7⟩ :=
                  cachePut_frame (resolveDataAux fuel st p).2 id (applyDelta pd δ)
                refine ⟨f1.trans e1, f2.trans e2, f3.trans e3, f4.trans e4,
                  f5.trans e5, f6.trans e6, ?_⟩
                refine f7.trans ?_
                simp at e7 ⊢
                omega

theorem resolveData_versions (st : VCState α) (id : Nat) :
    (resolveData st id).2.versions = st.versions :=
  (resolveDataAux_frame _ st id).1

/-- C10: `resolveData` modifies no version node (so `lastAccessed` and the
eviction priorities are untouched), does not change the root or current
pointers, the capacity, the id counter or the clock; its only effect is on
the internal memo cache, which never exceeds 5 entries. -/
theorem claim10_resolve_frame (st : VCState α) (id : Nat) :
    (resolveData st id).2.versions = st.versions ∧
    (resolveData st id).2.rootId = st.rootId ∧
    (resolveData st id).2.currentId = st.currentId ∧
    (resolveData st id).2.maxVersions = st.maxVersions ∧
    (resolveData st id).2.nextId = st.nextId ∧
    (resolveData st id).2.clock = st.clock ∧
    (st.cache.length ≤ 5 → (resolveData st id).2.cache.length ≤ 5) := by
  obtain ⟨e1, e2, e3, e4, e5, e6, e7⟩ :=
    resolveDataAux_frame (st.versions.length + 1) st id
  exact ⟨e1, e2, e3, e4, e5, e6, fun h => e7.trans (by omega)⟩

theorem claim10_witness :
    (resolveData oneNodeSt 0).2.versions = oneNodeSt.versions ∧
    (resolveData oneNodeSt 0).2.cache.length ≤ 5 := by
  obtain ⟨e1, _, _, _, _, _, e7⟩ := claim10_resolve_frame oneNodeSt 0
  exact ⟨e1, e7 (by decide)⟩

/-! ## Error paths (C9) -/

/-- C9: unknown ids are silent no-ops for `goToVersion` and `resolveData`
(absent result, state unchanged), and so are `undo` at a parentless
current node and `redo` at a childless one; none of these operations can
fail any other way (they are total functions). -/
theorem claim9_notfound_noop (st : VCState α) (id : Nat) :
    (mget st.versions id = none →
      goToVersion st id = (none, st) ∧ resolveData st id = (none, st)) ∧
    (∀ c cur, st.currentId = some c → mget st.versions c = some cur →
      cur.parentId = none → undo st = (none, st)) ∧
    (∀ c cur, st.currentId = some c → mget st.versions c = some cur →
      cur.children = [] → redo st = (none, st)) := by
  refine ⟨fun h => ⟨?_, ?_⟩, fun c cur hc hcur hp => ?_, fun c cur hc hcur hch => ?_⟩
  · simp only [goToVersion, h]
  · simp only [resolveData, resolveDataAux, h]
  · have hcu : canUndo st = false := by
      simp only [canUndo, hc, hcur, hp, Option.isSome_none]
    simp only [undo, hcu, Bool.not_false, if_pos]
  · have hcr : canRedo st = false := by
      simp only [canRedo, hc, hcur, hch]
      rfl
    simp only [redo, hcr, Bool.not_false, if_pos]

theorem claim9_witness :
    (goToVersion oneNodeSt 5 = (none, oneNodeSt) ∧
      resolveData oneNodeSt 5 = (none, oneNodeSt)) ∧
    undo oneNodeSt = (none, oneNodeSt) ∧
    redo oneNodeSt = (none, oneNodeSt) := by
  obtain ⟨h1, h2, h3⟩ := claim9_notfound_noop oneNodeSt 5
  refine ⟨h1 (by decide), ?_, ?_⟩
  · exact h2 0 ⟨0, none, [], 0, "init", 0, 0, some [], none⟩ rfl (by decide) (by decide)
  · exact h3 0 ⟨0, none, [], 0, "init", 0, 0, some [], none⟩ rfl (by decide) (by decide)

/-! ## The snapshot/delta decision (C3) -/

/-- C3: `createVersion` stores a delta payload iff a current node exists,
its collection resolves, the consecutive delta-chain depth at the current
node is strictly below 9, and the serialized delta size is strictly below
0.6 times the serialized snapshot size; in every other case (including the
first commit, which becomes the root) it stores a full snapshot. -/
theorem claim3_encoding_decision (sz : α → Nat) (st : VCState α) (data : List α)
    (descr : String) :
    ((createVersion sz st data descr).1.delta.isSome ↔
      (∃ cid pd, st.currentId = some cid ∧ (resolveData st cid).1 = some pd ∧
        deltaDepth st.versions (some cid) < 9 ∧
        10 * jsonLenDelta sz (computeDelta pd data) < 6 * jsonLenList sz data)) ∧
    ((createVersion sz st data descr).1.data.isSome ↔
      ¬ (∃ cid pd, st.currentId = some cid ∧ (resolveData st cid).1 = some pd ∧
        deltaDepth st.versions (some cid) < 9 ∧
        10 * jsonLenDelta sz (computeDelta pd data) < 6 * jsonLenList sz data)) := by
  cases hc : st.currentId with
  | none => simp [createVersion, hc]
  | some cid =>
    have hver : (resolveData st cid).2.versions = st.versions := resolveData_versions st cid
    cases hr : (resolveData st cid).1 with
    | none => simp [createVersion, hc, hr]
    | some pd =>
      by_cases hcond : deltaDepth (resolveData st cid).2.versions (some cid) < 9 ∧
          10 * jsonLenDelta sz (computeDelta pd data) < 6 * jsonLenList sz data
      · simp only [createVersion, hc, hr, if_pos hcond]
        rw [hver] at hcond
        simp [hcond.1, hcond.2]
        exact ⟨pd, hr, hcond.2⟩
      · simp only [createVersion, hc, hr, if_neg hcond]
        rw [hver] at hcond
        simp [hcond]
        intro x hx hdep
        rw [hr] at hx
        cases hx
        exact Nat.le_of_not_lt (fun hs => hcond ⟨hdep, hs⟩)

/-! ## Redo semantics (C5) -/

theorem mostRecentFoldSpec (m : List (Nat × Version α)) :
    ∀ (rest seen : List Nat) (a ta : Nat) (wa : Version α),
      mget m a = some wa → wa.lastAccessed = ta →
      (∃ l1 l2, seen = l1 ++ a :: l2 ∧
        (∀ c ∈ l1, ∀ wc, mget m c = some wc → wc.lastAccessed < ta) ∧
        (∀ c ∈ seen, ∀ wc, mget m c = some wc → wc.lastAccessed ≤ ta)) →
      ∃ b tb wb,
        rest.foldl
          (fun acc cid =>
            match mget m cid with
            | some child =>
              if acc.2 < child.lastAccessed then (cid, child.lastAccessed) else acc
            | none => acc) (a, ta) = (b, tb) ∧
        mget m b = some wb ∧ wb.lastAccessed = tb ∧
        ∃ l1 l2, seen ++ rest = l1 ++ b :: l2 ∧
          (∀ c ∈ l1, ∀ wc, mget m c = some wc → wc.lastAccessed < tb) ∧
          (∀ c ∈ seen ++ rest, ∀ wc, mget m c = some wc → wc.lastAccessed ≤ tb) := by
  intro rest
  induction rest with
  | nil =>
    intro seen a ta wa ha hta hinv
    exact ⟨a, ta, wa, rfl, ha, hta, by simpa using hinv⟩
  | cons c rest ih =>
    intro seen a ta wa ha hta hinv
    obtain ⟨l1, l2, hseen, hstrict, hle⟩ := hinv
    simp only [List.foldl_cons]
    cases hc : mget m c with
    | none =>
      obtain ⟨b, tb, wb, hfold, hb, htb, l1', l2', hsp, hst, hl⟩ :=
        ih (seen ++ [c]) a ta wa ha hta
          ⟨l1, l2 ++ [c], by rw [hseen]; simp, hstrict, by
            intro x hx wx hwx
            rcases List.mem_append.mp hx with hx | hx
            · exact hle x hx wx hwx
            · simp at hx
              rw [hx] at hwx
              rw [hc] at hwx
              cases hwx⟩
      refine ⟨b, tb, wb, ?_, hb, htb, l1', l2', ?_, hst, ?_⟩
      · simpa [hc] using hfold
      · rw [← hsp]; simp
      · intro x hx wx hwx
        refine hl x ?_ wx hwx
        rw [List.append_assoc]
        simpa using hx
    | some child =>
      by_cases hgt : ta < child.lastAccessed
      · obtain ⟨b, tb, wb, hfold, hb, htb, l1', l2', hsp, hst, hl⟩ :=
          ih (seen ++ [c]) c child.lastAccessed child hc rfl
            ⟨seen, [], by simp, by
              intro x hx wx hwx
              exact Nat.lt_of_le_of_lt (hle x hx wx hwx) hgt, by
              intro x hx wx hwx
              rcases List.mem_append.mp hx with hx | hx
              · exact Nat.le_of_lt (Nat.lt_of_le_of_lt (hle x hx wx hwx) hgt)
              · simp at hx
                rw [hx, hc] at hwx
                cases hwx
                exact Nat.le_refl _⟩
        refine ⟨b, tb, wb, ?_, hb, htb, l1', l2', ?_, hst, ?_⟩
        · simpa [hc, hgt] using hfold
        · rw [← hsp]; simp
        · intro x hx wx hwx
          refine hl x ?_ wx hwx
          rw [List.append_assoc]
          simpa using hx
      · obtain ⟨b, tb, wb, hfold, hb, htb, l1', l2', hsp, hst, hl⟩ :=
          ih (seen ++ [c]) a ta wa ha hta
            ⟨l1, l2 ++ [c], by rw [hseen]; simp, hstrict, by
              intro x hx wx hwx
              rcases List.mem_append.mp hx with hx | hx
              · exact hle x hx wx hwx
              · simp at hx
                rw [hx, hc] at hwx
                cases hwx
                exact Nat.le_of_not_lt hgt⟩
        refine ⟨b, tb, wb, ?_, hb, htb, l1', l2', ?_, hst, ?_⟩
        · simpa [hc, hgt] using hfold
        · rw [← hsp]; simp
        · intro x hx wx hwx
          refine hl x ?_ wx hwx
          rw [List.append_assoc]
          simpa using hx

theorem getMostRecentChild_spec (m : List (Nat × Version α)) (cs : List Nat)
    (hne : cs ≠ []) (hall : ∀ c ∈ cs, mget m c ≠ none) :
    ∃ b wb l1 l2, getMostRecentChild m cs = some b ∧ mget m b = some wb ∧
      cs = l1 ++ b :: l2 ∧
      (∀ c ∈ l1, ∀ wc, mget m c = some wc → wc.lastAccessed < wb.lastAccessed) ∧
      (∀ c ∈ cs, ∀ wc, mget m c = some wc → wc.lastAccessed ≤ wb.lastAccessed) := by
  match cs with
  | [] => exact absurd rfl hne
  | [c] =>
    cases hc : mget m c with
    | none => exact absurd hc (hall c (List.mem_cons_self _ _))
    | some wc =>
      refine ⟨c, wc, [], [], rfl, hc, rfl, by simp, ?_⟩
      intro x hx wx hwx
      simp at hx
      rw [hx, hc] at hwx
      cases hwx
      exact Nat.le_refl _
  | c0 :: c1 :: rest =>
    cases hc0 : mget m c0 with
    | none => exact absurd hc0 (hall c0 (List.mem_cons_self _ _))
    | some v0 =>
      obtain ⟨b, tb, wb, hfold, hb, htb, l1, l2, hsp, hst, hl⟩ :=
        mostRecentFoldSpec m (c1 :: rest) [c0] c0 v0.lastAccessed v0 hc0 rfl
          ⟨[], [], rfl, by simp, by
            intro x hx wx hwx
            simp at hx
            rw [hx, hc0] at hwx
            cases hwx
            exact Nat.le_refl _⟩
      refine ⟨b, wb, l1, l2, ?_, hb, by simpa using hsp, ?_, ?_⟩
      · simp only [getMostRecentChild, hc0]
        rw [hfold]
      · intro x hx wx hwx
        rw [htb]
        exact hst x hx wx hwx
      · intro x hx wx hwx
        rw [htb]
        exact hl x (by simpa using hx) wx hwx

/-- C5: `redo` at a node with children moves to the child with the
largest `lastAccessed`, ties broken in favor of the first-encountered
child (every earlier child in the list is strictly older); concretely, in
the run commit root, commit A, undo, commit B, undo, the following `redo`
returns the node created by the "B" commit (id 2), not "A" (id 1); and
`undo` followed by `redo` returns to the original node whenever it is
strictly the most recently accessed among its siblings (as it is right
after being committed or navigated to, with no intervening branch). -/
theorem claim5_redo_semantics :
    ((redo scnSt).1.map Version.description = some "B" ∧
     (redo scnSt).1.map Version.id = some 2 ∧
     (redo scnSt).2.currentId = some 2 ∧
     (mget scnSt.versions 1).map Version.description = some "A" ∧
     (mget scnSt.versions 2).map Version.description = some "B") ∧
    (∀ (st : VCState α) (cid : Nat) (cur : Version α),
      st.currentId = some cid → mget st.versions cid = some cur →
      cur.children ≠ [] → (∀ c ∈ cur.children, mget st.versions c ≠ none) →
      ∃ b wb l1 l2,
        getMostRecentChild st.versions cur.children = some b ∧
        mget st.versions b = some wb ∧
        cur.children = l1 ++ b :: l2 ∧
        (∀ c ∈ l1, ∀ wc, mget st.versions c = some wc →
          wc.lastAccessed < wb.lastAccessed) ∧
        (∀ c ∈ cur.children, ∀ wc, mget st.versions c = some wc →
          wc.lastAccessed ≤ wb.lastAccessed) ∧
        (redo st).2.currentId = some b ∧
        (redo st).1 = some { wb with lastAccessed := st.clock }) ∧
    (∀ (st : VCState α) (c : Nat) (cur : Version α) (p : Nat) (par : Version α),
      st.currentId = some c → mget st.versions c = some cur →
      cur.parentId = some p → mget st.versions p = some par →
      p ≠ c → p ∉ par.children → c ∈ par.children →
      (∀ s ∈ par.children, mget st.versions s ≠ none) →
      (∀ s ∈ par.children, s ≠ c → ∀ ws, mget st.versions s = some ws →
        ws.lastAccessed < cur.lastAccessed) →
      (redo (undo st).2).2.currentId = some c ∧
      (redo (undo st).2).1.map Version.id = some cur.id) := by
  refine ⟨⟨by decide, by decide, by decide, by decide, by decide⟩, ?_, ?_⟩
  · intro st cid cur hc hcur hne hall
    obtain ⟨b, wb, l1, l2, hmrc, hb, hsp, hst, hl⟩ :=
      getMostRecentChild_spec st.versions cur.children hne hall
    have hcr : canRedo st = true := by
      simp [canRedo, hc, hcur, List.isEmpty_eq_false.mpr hne]
    have hie : cur.children.isEmpty = false := List.isEmpty_eq_false.mpr hne
    refine ⟨b, wb, l1, l2, hmrc, hb, hsp, hst, hl, ?_, ?_⟩
    · simp [redo, hcr, hc, hcur, hie, hmrc, hb]
    · simp [redo, hcr, hc, hcur, hie, hmrc, hb]
  · intro st c cur p par hc hcur hp hpar hpc hpnc hcc hall hmax
    have hcu : canUndo st = true := by
      simp [canUndo, hc, hcur, hp]
    have hundo : (undo st).2 =
        { st with
          currentId := some p
          versions := mset st.versions p { par with lastAccessed := st.clock }
          clock := st.clock + 1 } := by
      simp [undo, hcu, hc, hcur, hp, hpar]
    set st' := (undo st).2 with hst'
    have hver' : st'.versions = mset st.versions p { par with lastAccessed := st.clock } := by
      rw [hundo]
    have hcur' : st'.currentId = some p := by rw [hundo]
    have hgetp : mget st'.versions p = some { par with lastAccessed := st.clock } := by
      rw [hver']
      exact mget_mset_self _ _ _
    have hgetc : mget st'.versions c = some cur := by
      rw [hver', mget_mset_ne st.versions p c _ (fun h => hpc h.symm)]
      exact hcur
    have hne : ({ par with lastAccessed := st.clock } : Version α).children ≠ [] :=
      List.ne_nil_of_mem hcc
    have hall' : ∀ s ∈ ({ par with lastAccessed := st.clock } : Version α).children,
        mget st'.versions s ≠ none := by
      intro s hs
      by_cases hsp : s = p
      · rw [hsp, hgetp]
        exact Option.some_ne_none _
      · rw [hver', mget_mset_ne st.versions p s _ hsp]
        exact hall s hs
    obtain ⟨b, wb, l1, l2, hmrc, hb, hsp2, hst2, hl2⟩ :=
      getMostRecentChild_spec st'.versions
        ({ par with lastAccessed := st.clock } : Version α).children hne hall'
    have hbc : b = c := by
      by_contra hbc
      have hbmem : b ∈ par.children := by
        rw [hsp2]
        simp
      have hbp : b ≠ p := fun h => hpnc (h ▸ hbmem)
      have hbget : mget st.versions b = some wb := by
        rw [hver', mget_mset_ne st.versions p b _ hbp] at hb
        exact hb
      have h1 : wb.lastAccessed < cur.lastAccessed := hmax b hbmem hbc wb hbget
      have h2 : cur.lastAccessed ≤ wb.lastAccessed := hl2 c hcc cur hgetc
      omega
    subst hbc
    have hwb : wb = cur := by
      rw [hgetc] at hb
      cases hb
      rfl
    subst hwb
    have hcr' : canRedo st' = true := by
      simp [canRedo, hcur', hgetp, List.isEmpty_eq_false.mpr hne]
    have hie : ({ par with lastAccessed := st.clock } : Version α).children.isEmpty = false :=
      List.isEmpty_eq_false.mpr hne
    constructor
    · simp [redo, hcr', hcur', hgetp, hie, hmrc, hgetc]
    · simp [redo, hcr', hcur', hgetp, hie, hmrc, hgetc]

theorem claim5_witness :
    ((redo scnSt).2.currentId = some 2) ∧
    (∃ b wb l1 l2,
      getMostRecentChild scnSt.versions
        (⟨0, none, [1, 2], 0, "init", 0, 4, some [], none⟩ : Version Nat).children = some b ∧
      mget scnSt.versions b = some wb ∧
      (⟨0, none, [1, 2], 0, "init", 0, 4, some [], none⟩ : Version Nat).children =
        l1 ++ b :: l2 ∧
      (∀ c ∈ l1, ∀ wc, mget scnSt.versions c = some wc →
        wc.lastAccessed < wb.lastAccessed) ∧
      (∀ c ∈ (⟨0, none, [1, 2], 0, "init", 0, 4, some [], none⟩ : Version Nat).children,
        ∀ wc, mget scnSt.versions c = some wc →
        wc.lastAccessed ≤ wb.lastAccessed) ∧
      (redo scnSt).2.currentId = some b ∧
      (redo scnSt).1 = some { wb with lastAccessed := scnSt.clock }) ∧
    ((redo (undo scnStB).2).2.currentId = some 2 ∧
      (redo (undo scnStB).2).1.map Version.id = some 2) := by
  obtain ⟨hscn, hredo, hur⟩ := claim5_redo_semantics (α := Nat)
  refine ⟨hscn.2.2.1, ?_, ?_⟩
  · exact hredo scnSt 0 ⟨0, none, [1, 2], 0, "init", 0, 4, some [], none⟩
      (by decide) (by decide) (by decide) (by decide)
  · exact hur scnStB 2 ⟨2, some 0, [], 3, "B", 1, 3, some [20], none⟩ 0
      ⟨0, none, [1, 2], 0, "init", 0, 2, some [], none⟩
      (by decide) (by decide) (by decide) (by decide) (by decide) (by decide)
      (by decide) (by decide) (by decide)

/-! ## Map and key lemmas -/

theorem nodup_subset_length_le {c l : List Nat} (hn : c.Nodup) (hs : c ⊆ l) :
    c.length ≤ l.length := by
  have h1 : c.toFinset.card = c.length := List.toFinset_card_of_nodup hn
  have h2 : c.toFinset ⊆ l.toFinset := by
    intro x hx
    simp at hx ⊢
    exact hs hx
  have h3 := Finset.card_le_card h2
  have h4 := l.toFinset_card_le
  omega

theorem mget_mdel_self {κ β : Type} [DecidableEq κ] (m : List (κ × β)) (k : κ) :
    mget (mdel m k) k = none := by
  induction m with
  | nil => rfl
  | cons e rest ih =>
    by_cases hk : e.1 = k
    · rw [mdel, List.filter_cons, if_neg (by simp [hk])]
      rw [mdel] at ih
      exact ih
    · rw [mdel, List.filter_cons, if_pos (by simp [hk])]
      rw [mget, if_neg hk]
      rw [mdel] at ih
      exact ih

theorem mget_mdel_ne {κ β : Type} [DecidableEq κ] (m : List (κ × β)) (k k' : κ)
    (h : k' ≠ k) : mget (mdel m k) k' = mget m k' := by
  induction m with
  | nil => rfl
  | cons e rest ih =>
    by_cases hk : e.1 = k
    · have he' : e.1 ≠ k' := fun hh => h (by rw [← hh, hk])
      rw [mdel, List.filter_cons, if_neg (by simp [hk])]
      rw [mget, if_neg he']
      rw [mdel] at ih
      exact ih
    · rw [mdel, List.filter_cons, if_pos (by simp [hk])]
      rw [mget, mget]
      by_cases he : e.1 = k'
      · rw [if_pos he, if_pos he]
      · rw [if_neg he, if_neg he]
        rw [mdel] at ih
        exact ih

theorem mget_none_iff {κ β : Type} [DecidableEq κ] (m : List (κ × β)) (k : κ) :
    mget m k = none ↔ k ∉ m.map Prod.fst := by
  induction m with
  | nil => simp [mget]
  | cons e rest ih =>
    by_cases hk : e.1 = k
    · rw [mget, if_pos hk]
      simp [hk]
    · rw [mget, if_neg hk]
      simp only [List.map_cons, List.mem_cons]
      rw [ih]
      constructor
      · intro h hh
        rcases hh with hh | hh
        · exact hk (hh.symm)
        · exact h hh
      · intro h
        exact fun hh => h (Or.inr hh)

theorem mget_ne_none_of_mem {κ β : Type} [DecidableEq κ] {m : List (κ × β)} {e : κ × β}
    (h : e ∈ m) : mget m e.1 ≠ none := by
  intro hk
  rw [mget_none_iff] at hk
  exact hk (List.mem_map_of_mem Prod.fst h)

theorem mget_of_mem_nodup {κ β : Type} [DecidableEq κ] {m : List (κ × β)} {k : κ} {v : β}
    (hnd : (m.map Prod.fst).Nodup) (h : (k, v) ∈ m) : mget m k = some v := by
  induction m with
  | nil => cases h
  | cons e rest ih =>
    rcases List.mem_cons.mp h with h | h
    · rw [← h]
      rw [mget, if_pos rfl]
    · have he : e.1 ≠ k := by
        intro hk
        have : k ∈ rest.map Prod.fst := List.mem_map_of_mem Prod.fst h
        simp only [List.map_cons, List.nodup_cons] at hnd
        exact hnd.1 (hk ▸ this)
      rw [mget, if_neg he]
      exact ih (by simp only [List.map_cons, List.nodup_cons] at hnd; exact hnd.2) h

theorem keysOf_mset_of_mem {m : List (Nat × Version α)} {k : Nat} (v : Version α)
    (h : k ∈ keysOf m) : keysOf (mset m k v) = keysOf m := by
  induction m with
  | nil => cases h
  | cons e rest ih =>
    by_cases hk : e.1 = k
    · rw [mset, if_pos hk]
      simp [keysOf, hk]
    · rw [mset, if_neg hk]
      have h' : k ∈ keysOf rest := by
        rcases List.mem_cons.mp h with h | h
        · exact absurd h.symm hk
        · exact h
      simp only [keysOf, List.map_cons]
      rw [show (mset rest k v).map Prod.fst = keysOf (mset rest k v) from rfl, ih h']
      rfl

theorem keysOf_mset_of_not_mem {m : List (Nat × Version α)} {k : Nat} (v : Version α)
    (h : k ∉ keysOf m) : keysOf (mset m k v) = keysOf m ++ [k] := by
  induction m with
  | nil => rfl
  | cons e rest ih =>
    have hk : e.1 ≠ k := by
      intro hk
      exact h (by simp [keysOf, hk])
    rw [mset, if_neg hk]
    have h' : k ∉ keysOf rest := fun hh => h (by simp [keysOf] at hh ⊢; exact Or.inr hh)
    simp only [keysOf, List.map_cons]
    rw [show (mset rest k v).map Prod.fst = keysOf (mset rest k v) from rfl, ih h']
    rfl

theorem keysOf_mdel_sublist (m : List (Nat × Version α)) (k : Nat) :
    List.Sublist (keysOf (mdel m k)) (keysOf m) :=
  List.Sublist.map Prod.fst (List.filter_sublist m)

/-! ## Resolution: fuel monotonicity, determinism, adequacy -/

theorem resolveNC_succ_none {m : List (Nat × Version α)} {f id : Nat}
    (hv : mget m id = none) : resolveNC m (f + 1) id = none := by
  simp [resolveNC, hv]

theorem resolveNC_succ_data {m : List (Nat × Version α)} {f id : Nat} {v : Version α}
    {d : List α} (hv : mget m id = some v) (hd : v.data = some d) :
    resolveNC m (f + 1) id = some d := by
  simp [resolveNC, hv, hd]

theorem resolveNC_succ_delta {m : List (Nat × Version α)} {f id : Nat} {v : Version α}
    {δ : List (DeltaEntry α)} {p : Nat} (hv : mget m id = some v) (hd : v.data = none)
    (hδ : v.delta = some δ) (hp : v.parentId = some p) :
    resolveNC m (f + 1) id = (resolveNC m f p).map (fun pd => applyDelta pd δ) := by
  simp [resolveNC, hv, hd, hδ, hp]

theorem resolveNC_succ_nodelta {m : List (Nat × Version α)} {f id : Nat} {v : Version α}
    (hv : mget m id = some v) (hd : v.data = none) (hδ : v.delta = none) :
    resolveNC m (f + 1) id = none := by
  simp [resolveNC, hv, hd, hδ]

theorem resolveNC_succ_noparent {m : List (Nat × Version α)} {f id : Nat} {v : Version α}
    {δ : List (DeltaEntry α)} (hv : mget m id = some v) (hd : v.data = none)
    (hδ : v.delta = some δ) (hp : v.parentId = none) :
    resolveNC m (f + 1) id = none := by
  simp [resolveNC, hv, hd, hδ, hp]

theorem resolveNC_succ_inv {m : List (Nat × Version α)} {f id : Nat} {L : List α}
    (h : resolveNC m (f + 1) id = some L) :
    ∃ v, mget m id = some v ∧
      (v.data = some L ∨
        (v.data = none ∧ ∃ δ p P, v.delta = some δ ∧ v.parentId = some p ∧
          resolveNC m f p = some P ∧ L = applyDelta P δ)) := by
  cases hv : mget m id with
  | none => rw [resolveNC_succ_none hv] at h; cases h
  | some v =>
    refine ⟨v, rfl, ?_⟩
    cases hd : v.data with
    | some d =>
      rw [resolveNC_succ_data hv hd] at h
      injection h with h2
      exact Or.inl (by rw [h2])
    | none =>
      cases hδ : v.delta with
      | none =>
        rw [resolveNC_succ_nodelta hv hd hδ] at h
        cases h
      | some δ =>
        cases hp : v.parentId with
        | none =>
          rw [resolveNC_succ_noparent hv hd hδ hp] at h
          cases h
        | some p =>
          rw [resolveNC_succ_delta hv hd hδ hp] at h
          cases hres : resolveNC m f p with
          | none => rw [hres] at h; cases h
          | some P =>
            rw [hres] at h
            cases h
            exact Or.inr ⟨rfl, δ, p, P, rfl, rfl, hres, rfl⟩

theorem resolveNC_mono {m : List (Nat × Version α)} :
    ∀ {f f' : Nat} {id : Nat} {L : List α},
      resolveNC m f id = some L → f ≤ f' → resolveNC m f' id = some L := by
  intro f
  induction f with
  | zero => intro f' id L h; cases h
  | succ f ih =>
    intro f' id L h hle
    match f', hle with
    | f' + 1, hle =>
      obtain ⟨v, hv, hcase⟩ := resolveNC_succ_inv h
      rcases hcase with hd | ⟨hd, δ, p, P, hδ, hp, hres, hL⟩
      · exact resolveNC_succ_data hv hd
      · rw [resolveNC_succ_delta hv hd hδ hp,
          ih hres (Nat.le_of_succ_le_succ hle), hL]
        rfl

theorem resolves_det {m : List (Nat × Version α)} {id : Nat} {L L' : List α}
    (h : Resolves m id L) (h' : Resolves m id L') : L = L' := by
  obtain ⟨f, hf⟩ := h
  obtain ⟨f', hf'⟩ := h'
  have h1 := resolveNC_mono hf (Nat.le_max_left f f')
  have h2 := resolveNC_mono hf' (Nat.le_max_right f f')
  rw [h1] at h2
  cases h2
  rfl

theorem resolveNC_chain {m : List (Nat × Version α)} {rnk : Nat → Nat}
    (hrnk : ParentRank m rnk) :
    ∀ {f id : Nat} {L : List α}, resolveNC m f id = some L →
      ∃ c : List Nat, c ≠ [] ∧ c.Nodup ∧ (∀ x ∈ c, mget m x ≠ none) ∧
        (∀ x ∈ c, rnk x ≤ rnk id) ∧ resolveNC m c.length id = some L := by
  intro f
  induction f with
  | zero => intro id L h; cases h
  | succ f ih =>
    intro id L h
    obtain ⟨v, hv, hcase⟩ := resolveNC_succ_inv h
    rcases hcase with hd | ⟨hd, δ, p, P, hδ, hp, hres, hL⟩
    · refine ⟨[id], by simp, by simp, ?_, by simp, ?_⟩
      · intro x hx
        simp at hx
        rw [hx, hv]
        exact Option.some_ne_none _
      · rw [show ([id] : List Nat).length = 0 + 1 from rfl]
        exact resolveNC_succ_data hv hd
    · obtain ⟨c, hcne, hcnd, hcp, hcr, hcres⟩ := ih hres
      have hplt : rnk p < rnk id := hrnk (id, v) (mget_eq_some_mem hv) p hp
      refine ⟨id :: c, by simp, ?_, ?_, ?_, ?_⟩
      · refine List.nodup_cons.mpr ⟨?_, hcnd⟩
        intro hmem
        exact absurd (hcr id hmem) (Nat.not_le_of_lt hplt)
      · intro x hx
        rcases List.mem_cons.mp hx with rfl | hx
        · rw [hv]; exact Option.some_ne_none _
        · exact hcp x hx
      · intro x hx
        rcases List.mem_cons.mp hx with rfl | hx
        · exact Nat.le_refl _
        · exact Nat.le_of_lt (Nat.lt_of_le_of_lt (hcr x hx) hplt)
      · rw [List.length_cons, resolveNC_succ_delta hv hd hδ hp, hcres, hL]
        rfl

theorem resolves_resolveTop {m : List (Nat × Version α)} {rnk : Nat → Nat}
    (hrnk : ParentRank m rnk) {id : Nat} {L : List α}
    (h : Resolves m id L) : resolveTop m id = some L := by
  obtain ⟨f, hf⟩ := h
  obtain ⟨c, _, hcnd, hcp, _, hcres⟩ := resolveNC_chain hrnk hf
  have hsub : c ⊆ keysOf m := by
    intro x hx
    have hxp := hcp x hx
    by_contra hxk
    exact hxp ((mget_none_iff m x).mpr (by simpa [keysOf] using hxk))
  have hlen : c.length ≤ m.length := by
    have := nodup_subset_length_le hcnd hsub
    simpa [keysOf] using this
  exact resolveNC_mono hcres (by omega)

theorem resolveTop_eq_of_resolves {m : List (Nat × Version α)} {rnk : Nat → Nat}
    (hrnk : ParentRank m rnk) {id : Nat} {L : List α} :
    Resolves m id L ↔ resolveTop m id = some L :=
  ⟨fun h => resolves_resolveTop hrnk h, fun h => ⟨m.length + 1, h⟩⟩

/-! ## Resolution transfer between related maps -/

theorem resolveNC_payloadExt {m m' : List (Nat × Version α)} (hext : PayloadExt m m') :
    ∀ {f id : Nat} {L : List α}, resolveNC m f id = some L → resolveNC m' f id = some L := by
  intro f
  induction f with
  | zero => intro id L h; cases h
  | succ f ih =>
    intro id L h
    obtain ⟨v, hv, hcase⟩ := resolveNC_succ_inv h
    obtain ⟨v', hv', hdq, hδq, hpq⟩ := hext id v hv
    rcases hcase with hd | ⟨hd, δ, p, P, hδ, hp, hres, hL⟩
    · exact resolveNC_succ_data hv' (hdq ▸ hd)
    · rw [resolveNC_succ_delta hv' (hdq ▸ hd) (hδq ▸ hδ) (hpq ▸ hp), ih hres, hL]
      rfl

theorem resolveNC_shrink {m m' : List (Nat × Version α)} (hsh : ShrinkMap m' m)
    (hcl : ParentClosed m') :
    ∀ {f id : Nat} {L : List α}, resolveNC m f id = some L → mget m' id ≠ none →
      resolveNC m' f id = some L := by
  intro f
  induction f with
  | zero => intro id L h; cases h
  | succ f ih =>
    intro id L h hid
    cases hv' : mget m' id with
    | none => exact absurd hv' hid
    | some w' =>
      obtain ⟨w, hw, hdq, hδq, hpq⟩ := hsh id w' hv'
      obtain ⟨v, hv, hcase⟩ := resolveNC_succ_inv h
      rw [hw] at hv
      cases hv
      rcases hcase with hd | ⟨hd, δ, p, P, hδ, hp, hres, hL⟩
      · exact resolveNC_succ_data hv' (hdq.symm ▸ hd : w'.data = some L)
      · have hp' : mget m' p ≠ none := hcl id w' p hv' (by rw [hpq]; exact hp)
        rw [resolveNC_succ_delta hv' (by rw [hdq]; exact hd) (by rw [hδq]; exact hδ)
          (by rw [hpq]; exact hp), ih hres hp', hL]
        rfl

theorem resolves_mset_snapshot {m : List (Nat × Version α)} {c : Nat} {v : Version α}
    {L : List α} (hv : mget m c = some v) (hL : Resolves m c L) :
    ∀ {j : Nat} {X : List α}, Resolves m j X →
      Resolves (mset m c { v with data := some L, delta := none }) j X := by
  intro j X hX
  obtain ⟨f, hf⟩ := hX
  induction f using Nat.strong_induction_on generalizing j X with
  | _ f ih =>
    match f, hf with
    | f + 1, hf =>
      by_cases hjc : j = c
      · subst hjc
        have hXL : X = L := resolves_det ⟨f + 1, hf⟩ hL
        subst hXL
        exact ⟨1, resolveNC_succ_data (mget_mset_self m j _) rfl⟩
      · obtain ⟨w, hw, hcase⟩ := resolveNC_succ_inv hf
        have hw' : mget (mset m c { v with data := some L, delta := none }) j = some w := by
          rw [mget_mset_ne _ _ _ _ hjc]
          exact hw
        rcases hcase with hd | ⟨hd, δ, p, P, hδ, hp, hres, hX⟩
        · exact ⟨1, resolveNC_succ_data hw' hd⟩
        · obtain ⟨g, hg⟩ := ih f (Nat.lt_succ_self f) hres
          refine ⟨g + 1, ?_⟩
          rw [resolveNC_succ_delta hw' hd hδ hp, hg, hX]
          rfl

/-! ## Parent chains -/

theorem iterChain_append {m : List (Nat × Version α)} :
    ∀ {n : Nat} {j x : Nat}, iterChain m n j = some x →
      ∀ k, iterChain m (n + k) j = iterChain m k x := by
  intro n
  induction n with
  | zero =>
    intro j x h k
    cases h
    simp [Nat.zero_add]
  | succ n ih =>
    intro j x h k
    rw [iterChain] at h
    cases hpo : parentOf m j with
    | none => rw [hpo] at h; cases h
    | some p =>
      rw [hpo] at h
      have : n + 1 + k = (n + k) + 1 := by omega
      rw [this, iterChain, hpo]
      exact ih h k

theorem iterChain_present {m : List (Nat × Version α)} :
    ∀ {n : Nat} {j x : Nat}, iterChain m n j = some x →
      ∀ i < n, ∃ y, iterChain m i j = some y ∧ mget m y ≠ none := by
  intro n
  induction n with
  | zero => intro j x _ i hi; omega
  | succ n ih =>
    intro j x h i hi
    rw [iterChain] at h
    cases hpo : parentOf m j with
    | none => rw [hpo] at h; cases h
    | some p =>
      rw [hpo] at h
      cases i with
      | zero =>
        refine ⟨j, rfl, ?_⟩
        intro hj
        rw [parentOf, hj] at hpo
        cases hpo
      | succ i =>
        obtain ⟨y, hy, hyp⟩ := ih h i (by omega)
        exact ⟨y, by rw [iterChain, hpo]; exact hy, hyp⟩

theorem iterChain_rank {m : List (Nat × Version α)} {rnk : Nat → Nat}
    (hrnk : ParentRank m rnk) :
    ∀ {n : Nat} {j x : Nat}, iterChain m n j = some x → rnk x + n ≤ rnk j := by
  intro n
  induction n with
  | zero => intro j x h; cases h; omega
  | succ n ih =>
    intro j x h
    rw [iterChain] at h
    cases hpo : parentOf m j with
    | none => rw [hpo] at h; cases h
    | some p =>
      rw [hpo] at h
      have hj : ∃ w, mget m j = some w ∧ w.parentId = some p := by
        rw [parentOf] at hpo
        cases hw : mget m j with
        | none => rw [hw] at hpo; cases hpo
        | some w => rw [hw] at hpo; exact ⟨w, rfl, hpo⟩
      obtain ⟨w, hw, hwp⟩ := hj
      have hlt : rnk p < rnk j := hrnk (j, w) (mget_eq_some_mem hw) p hwp
      have := ih h
      omega

theorem iterChain_le_length {m : List (Nat × Version α)} {rnk : Nat → Nat}
    (hrnk : ParentRank m rnk) {n j x : Nat} (h : iterChain m n j = some x) :
    n ≤ m.length := by
  classical
  set g : Nat → Nat := fun i => (iterChain m i j).getD 0 with hg
  have hgi : ∀ i < n, iterChain m i j = some (g i) ∧ mget m (g i) ≠ none := by
    intro i hi
    obtain ⟨y, hy, hyp⟩ := iterChain_present h i hi
    rw [hg]
    simp only [hy]
    exact ⟨rfl, hyp⟩
  have hnd : ((List.range n).map g).Nodup := by
    rw [List.nodup_map_iff_inj_on (List.nodup_range n)]
    intro i hi i' hi' heq
    simp at hi hi'
    by_contra hne
    rcases Nat.lt_or_ge i i' with hlt | hge
    · obtain ⟨h1, _⟩ := hgi i hi
      obtain ⟨h2, _⟩ := hgi i' hi'
      have h3 := iterChain_append h1 (i' - i)
      rw [show i + (i' - i) = i' from by omega, h2] at h3
      have h4 := iterChain_rank hrnk h3.symm
      have h5 : 1 ≤ i' - i := by omega
      rw [heq] at h4
      omega
    · have hlt : i' < i := by omega
      obtain ⟨h1, _⟩ := hgi i' hi'
      obtain ⟨h2, _⟩ := hgi i hi
      have h3 := iterChain_append h1 (i - i')
      rw [show i' + (i - i') = i from by omega, h2] at h3
      have h4 := iterChain_rank hrnk h3.symm
      rw [heq] at h4
      omega
  have hsub : (List.range n).map g ⊆ keysOf m := by
    intro x hx
    simp at hx
    obtain ⟨i, hi, hgx⟩ := hx
    obtain ⟨_, hpres⟩ := hgi i hi
    rw [hgx] at hpres
    by_contra hxk
    exact hpres ((mget_none_iff m x).mpr (by simpa [keysOf] using hxk))
  have := nodup_subset_length_le hnd hsub
  simpa [keysOf] using this

theorem mem_upChain_iff {m : List (Nat × Version α)} :
    ∀ {f : Nat} {c x : Nat}, x ∈ upChain m f (some c) ↔
      ∃ n < f, iterChain m n c = some x := by
  intro f
  induction f with
  | zero => intro c x; simp [upChain]
  | succ f ih =>
    intro c x
    rw [upChain]
    constructor
    · intro hx
      rcases List.mem_cons.mp hx with rfl | hx
      · exact ⟨0, by omega, rfl⟩
      · cases hpo : parentOf m c with
        | none =>
          rw [show (mget m c).bind Version.parentId = parentOf m c from rfl, hpo] at hx
          simp [upChain] at hx
        | some p =>
          rw [show (mget m c).bind Version.parentId = parentOf m c from rfl, hpo] at hx
          obtain ⟨n, hn, hit⟩ := ih.mp hx
          exact ⟨n + 1, by omega, by rw [iterChain, hpo]; exact hit⟩
    · rintro ⟨n, hn, hit⟩
      cases n with
      | zero => cases hit; exact List.mem_cons_self _ _
      | succ n =>
        rw [iterChain] at hit
        cases hpo : parentOf m c with
        | none => rw [hpo] at hit; cases hit
        | some p =>
          rw [hpo] at hit
          refine List.mem_cons_of_mem _ ?_
          rw [show (mget m c).bind Version.parentId = parentOf m c from rfl, hpo]
          exact ih.mpr ⟨n, by omega, hit⟩

theorem isInCurrentPathAux_iff {m : List (Nat × Version α)} :
    ∀ {f : Nat} {o : Option Nat} {t : Nat},
      isInCurrentPathAux m f o t = true ↔ t ∈ upChain m f o := by
  intro f
  induction f with
  | zero =>
    intro o t
    cases o <;> simp [isInCurrentPathAux, upChain]
  | succ f ih =>
    intro o t
    cases o with
    | none => simp [isInCurrentPathAux, upChain]
    | some c =>
      rw [isInCurrentPathAux, upChain]
      by_cases hct : c = t
      · subst hct
        simp
      · rw [if_neg hct]
        rw [ih]
        constructor
        · intro h
          exact List.mem_cons_of_mem _ h
        · intro h
          rcases List.mem_cons.mp h with h | h
          · exact absurd h.symm hct
          · exact h

theorem upChain_congr {m m' : List (Nat × Version α)} :
    ∀ {f : Nat} {o : Option Nat},
      (∀ x ∈ upChain m f o, mget m' x = mget m x) →
      upChain m' f o = upChain m f o := by
  intro f
  induction f with
  | zero => intro o _; cases o <;> rfl
  | succ f ih =>
    intro o hag
    cases o with
    | none => rfl
    | some c =>
      rw [upChain, upChain]
      have hc : mget m' c = mget m c :=
        hag c (by rw [upChain]; exact List.mem_cons_self _ _)
      rw [hc]
      congr 1
      apply ih
      intro x hx
      apply hag
      rw [upChain]
      exact List.mem_cons_of_mem _ hx

/-! ## Reachability helpers -/

theorem reach_refl (m : List (Nat × Version α)) (j : Nat) : Reach m j j := ⟨0, rfl⟩

theorem reach_trans {m : List (Nat × Version α)} {x y z : Nat}
    (h1 : Reach m x y) (h2 : Reach m y z) : Reach m x z := by
  obtain ⟨n, hn⟩ := h1
  obtain ⟨k, hk⟩ := h2
  exact ⟨n + k, by rw [iterChain_append hn]; exact hk⟩

theorem reach_parent {m : List (Nat × Version α)} {y x : Nat}
    (h : parentOf m y = some x) : Reach m y x :=
  ⟨1, by rw [iterChain, h]; rfl⟩

theorem iterChain_last {m : List (Nat × Version α)} :
    ∀ {n j x : Nat}, iterChain m (n + 1) j = some x →
      ∃ y, iterChain m n j = some y ∧ parentOf m y = some x := by
  intro n
  induction n with
  | zero =>
    intro j x h
    rw [iterChain] at h
    cases hpo : parentOf m j with
    | none => rw [hpo] at h; cases h
    | some p =>
      rw [hpo] at h
      cases h
      exact ⟨j, rfl, hpo⟩
  | succ n ih =>
    intro j x h
    rw [iterChain] at h
    cases hpo : parentOf m j with
    | none => rw [hpo] at h; cases h
    | some p =>
      rw [hpo] at h
      obtain ⟨y, hy, hyp⟩ := ih h
      exact ⟨y, by rw [iterChain, hpo]; exact hy, hyp⟩

/-! ## Rank normalization -/

theorem filter_length_le_of_imp {l : List Nat} {p q : Nat → Bool}
    (himp : ∀ a ∈ l, p a = true → q a = true) :
    (l.filter p).length ≤ (l.filter q).length := by
  induction l with
  | nil => exact Nat.le_refl _
  | cons b l ih =>
    have ih' := ih (fun x hx h => himp x (List.mem_cons_of_mem _ hx) h)
    rw [List.filter_cons, List.filter_cons]
    by_cases hb : p b = true
    · rw [if_pos (by simp [hb]), if_pos (by simp [himp b (List.mem_cons_self _ _) hb])]
      simpa using ih'
    · rw [if_neg (by simpa using hb)]
      by_cases hqb : q b = true
      · rw [if_pos (by simp [hqb])]
        simp only [List.length_cons]
        omega
      · rw [if_neg (by simpa using hqb)]
        exact ih'

theorem filter_length_lt_of_imp {l : List Nat} {p q : Nat → Bool}
    (himp : ∀ a ∈ l, p a = true → q a = true) {a : Nat} (ha : a ∈ l)
    (hqa : q a = true) (hpa : p a = false) :
    (l.filter p).length < (l.filter q).length := by
  induction l with
  | nil => cases ha
  | cons b l ih =>
    rcases List.mem_cons.mp ha with rfl | ha
    · rw [List.filter_cons, List.filter_cons, if_neg (by simp [hpa]),
        if_pos (by simp [hqa])]
      have hle : (l.filter p).length ≤ (l.filter q).length :=
        filter_length_le_of_imp (fun x hx h => himp x (List.mem_cons_of_mem _ hx) h)
      simp only [List.length_cons]
      omega
    · have ihh := ih (fun x hx h => himp x (List.mem_cons_of_mem _ hx) h) ha
      rw [List.filter_cons, List.filter_cons]
      by_cases hb : p b = true
      · rw [if_pos (by simp [hb]), if_pos (by simp [himp b (List.mem_cons_self _ _) hb])]
        simpa using Nat.succ_lt_succ ihh
      · rw [if_neg (by simpa using hb)]
        by_cases hqb : q b = true
        · rw [if_pos (by simp [hqb])]
          simp only [List.length_cons]
          omega
        · rw [if_neg (by simpa using hqb)]
          exact ihh

theorem filter_length_lt_self {l : List Nat} {p : Nat → Bool} {a : Nat}
    (ha : a ∈ l) (hpa : p a = false) : (l.filter p).length < l.length := by
  have h := @filter_length_lt_of_imp l p (fun _ => true)
    (fun _ _ _ => rfl) a ha rfl hpa
  simpa using h

theorem normalize_rank {m : List (Nat × Version α)} {rnk : Nat → Nat}
    (hnd : (keysOf m).Nodup) (hpc : ParentClosed m) (hrnk : ParentRank m rnk) :
    ∃ rnk' : Nat → Nat, ParentRank m rnk' ∧ ∀ e ∈ m, rnk' e.1 < m.length := by
  refine ⟨fun x => ((keysOf m).filter (fun y => decide (rnk y < rnk x))).length, ?_, ?_⟩
  · intro e he p hp
    have hpe : rnk p < rnk e.1 := hrnk e he p hp
    have hpm : p ∈ keysOf m := by
      have hme : mget m e.1 = some e.2 := mget_of_mem_nodup (by simpa [keysOf] using hnd) he
      have hpres : mget m p ≠ none := hpc e.1 e.2 p hme hp
      by_contra hk
      exact hpres ((mget_none_iff m p).mpr (by simpa [keysOf] using hk))
    exact filter_length_lt_of_imp
      (fun a _ h => by
        simp at h ⊢
        omega)
      hpm (by simp [hpe]) (by simp)
  · intro e he
    have hem : e.1 ∈ keysOf m := List.mem_map_of_mem Prod.fst he
    have := @filter_length_lt_self (keysOf m) (fun y => decide (rnk y < rnk e.1)) e.1 hem (by simp)
    simpa [keysOf] using this

/-! ## Characterization of recursive subtree deletion -/

theorem mget_filter (m : List (Nat × Version α)) (P : Nat → Bool) (k : Nat) :
    mget (m.filter (fun e => P e.1)) k = if P k = true then mget m k else none := by
  induction m with
  | nil => simp [mget]
  | cons e rest ih =>
    by_cases hek : e.1 = k
    · subst hek
      by_cases hP : P e.1 = true
      · rw [List.filter_cons, if_pos (by simp [hP]), mget, if_pos rfl, if_pos hP,
          mget, if_pos rfl]
      · rw [List.filter_cons, if_neg (by simpa using hP), ih, if_neg hP, if_neg hP]
    · rw [List.filter_cons]
      by_cases hP : P e.1 = true
      · rw [if_pos (by simp [hP]), mget, if_neg hek, ih]
        by_cases hk : P k = true
        · rw [if_pos hk, if_pos hk, mget, if_neg hek]
        · rw [if_neg hk, if_neg hk]
      · rw [if_neg (by simpa using hP), ih]
        by_cases hk : P k = true
        · rw [if_pos hk, if_pos hk, mget, if_neg hek]
        · rw [if_neg hk, if_neg hk]

theorem filter_and (m : List (Nat × Version α)) (p q : Nat × Version α → Bool) :
    (m.filter p).filter q = m.filter (fun e => p e && q e) := by
  induction m with
  | nil => rfl
  | cons e rest ih =>
    rw [List.filter_cons]
    by_cases hP : p e = true
    · rw [if_pos (by simp [hP]), List.filter_cons]
      by_cases hQ : q e = true
      · rw [if_pos (by simp [hQ]), List.filter_cons, if_pos (by simp [hP, hQ]), ih]
      · rw [if_neg (by simpa using hQ), List.filter_cons, if_neg (by simp [hP, hQ]), ih]
    · rw [if_neg (by simpa using hP), List.filter_cons, if_neg (by simp [hP]), ih]

theorem delVCAux_absent {st : VCState α} {id : Nat} (h : mget st.versions id = none) :
    ∀ fuel, delVCAux fuel st id = st := by
  intro fuel
  cases fuel with
  | zero => rfl
  | succ fuel => simp [delVCAux, h]

theorem reach_via_children {mG : List (Nat × Version α)}
    (hcs : ∀ e ∈ mG, ∀ c ∈ e.2.children, parentOf mG c = some e.1)
    {id : Nat} {v : Version α} (hv : mget mG id = some v)
    (hcbAt : ∀ y w, mget mG y = some w → w.parentId = some id → y ∈ v.children)
    (j : Nat) :
    Reach mG j id ↔ (j = id ∨ ∃ c ∈ v.children, Reach mG j c) := by
  constructor
  · rintro ⟨n, hn⟩
    cases n with
    | zero =>
      rw [iterChain] at hn
      injection hn with h
      exact Or.inl h
    | succ n =>
      obtain ⟨y, hy, hyp⟩ := iterChain_last hn
      obtain ⟨w, hw, hwp⟩ : ∃ w, mget mG y = some w ∧ w.parentId = some id := by
        rw [parentOf] at hyp
        cases hw : mget mG y with
        | none => rw [hw] at hyp; cases hyp
        | some w => rw [hw] at hyp; exact ⟨w, rfl, hyp⟩
      exact Or.inr ⟨y, hcbAt y w hw hwp, ⟨n, hy⟩⟩
  · rintro (rfl | ⟨c, hc, hrc⟩)
    · exact reach_refl _ _
    · exact reach_trans hrc (reach_parent (hcs (id, v) (mget_eq_some_mem hv) c hc))

theorem delVC_char {mG : List (Nat × Version α)} {rnk : Nat → Nat} {B : Nat}
    (hrnk : ParentRank mG rnk) (hnd : (keysOf mG).Nodup)
    (hcs : ∀ e ∈ mG, ∀ c ∈ e.2.children, parentOf mG c = some e.1)
    (hB : ∀ e ∈ mG, rnk e.1 < B) :
    ∀ (fuel : Nat) (stI : VCState α) (id : Nat) (D : Nat → Prop) (P : Nat → Bool),
      (∀ x u y w, Reach mG x id → mget mG x = some u → mget mG y = some w →
        w.parentId = some x → y ∈ u.children) →
      stI.versions = mG.filter (fun e => P e.1) →
      (∀ j, mget stI.versions j = none ↔ (mget mG j = none ∨ D j)) →
      (∀ x y, D y → Reach mG x y → mget mG x ≠ none → D x) →
      B ≤ fuel + rnk id →
      mget stI.versions id ≠ none →
      (∃ Q : Nat → Bool, (delVCAux fuel stI id).versions = mG.filter (fun e => Q e.1)) ∧
      (∀ j, mget (delVCAux fuel stI id).versions j = none ↔
        (mget mG j = none ∨ D j ∨ Reach mG j id)) ∧
      (delVCAux fuel stI id).rootId = stI.rootId ∧
      (delVCAux fuel stI id).currentId = stI.currentId ∧
      (delVCAux fuel stI id).maxVersions = stI.maxVersions ∧
      (delVCAux fuel stI id).nextId = stI.nextId ∧
      (delVCAux fuel stI id).clock = stI.clock ∧
      ((delVCAux fuel stI id).cache = stI.cache ∨ (delVCAux fuel stI id).cache = []) := by
  intro fuel
  induction fuel with
  | zero =>
    intro stI id D P hcbr hfil hiff hdown harith hpres
    exfalso
    rw [hfil, mget_filter] at hpres
    by_cases hP : P id = true
    · rw [if_pos hP] at hpres
      cases hw : mget mG id with
      | none => exact hpres hw
      | some w =>
        have hlt : rnk id < B := hB (id, w) (mget_eq_some_mem hw)
        omega
    · rw [if_neg hP] at hpres
      exact hpres rfl
  | succ fuel ih =>
    intro stI id D P hcbr hfil hiff hdown harith hpres
    cases hv : mget stI.versions id with
    | none => exact absurd hv hpres
    | some v =>
      have hPid : P id = true := by
        by_contra hP
        rw [hfil, mget_filter, if_neg hP] at hv
        cases hv
      have hvG : mget mG id = some v := by
        rw [hfil, mget_filter, if_pos hPid] at hv
        exact hv
      have hidG : (id, v) ∈ mG := mget_eq_some_mem hvG
      have hchild : ∀ c ∈ v.children, mget mG c ≠ none ∧ B ≤ fuel + rnk c ∧
          (∀ x u y w, Reach mG x c → mget mG x = some u → mget mG y = some w →
            w.parentId = some x → y ∈ u.children) := by
        intro c hc
        have hpo := hcs (id, v) hidG c hc
        obtain ⟨w, hw, hwp⟩ : ∃ w, mget mG c = some w ∧ w.parentId = some id := by
          rw [parentOf] at hpo
          cases hw : mget mG c with
          | none => rw [hw] at hpo; cases hpo
          | some w => rw [hw] at hpo; exact ⟨w, rfl, hpo⟩
        refine ⟨by rw [hw]; exact Option.some_ne_none _, ?_, ?_⟩
        · have hlt : rnk id < rnk c := hrnk (c, w) (mget_eq_some_mem hw) id hwp
          omega
        · intro x u y w' hrx hx hy hwp'
          exact hcbr x u y w' (reach_trans hrx (reach_parent hpo)) hx hy hwp'
      have hfold : ∀ (cs : List Nat),
          (∀ c ∈ cs, mget mG c ≠ none ∧ B ≤ fuel + rnk c ∧
            (∀ x u y w, Reach mG x c → mget mG x = some u → mget mG y = some w →
              w.parentId = some x → y ∈ u.children)) →
          ∀ (stJ : VCState α) (DJ : Nat → Prop) (PJ : Nat → Bool),
          stJ.versions = mG.filter (fun e => PJ e.1) →
          (∀ j, mget stJ.versions j = none ↔ (mget mG j = none ∨ DJ j)) →
          (∀ x y, DJ y → Reach mG x y → mget mG x ≠ none → DJ x) →
          (∃ Q : Nat → Bool,
            (cs.foldl (delVCAux fuel) stJ).versions = mG.filter (fun e => Q e.1)) ∧
          (∀ j, mget (cs.foldl (delVCAux fuel) stJ).versions j = none ↔
            (mget mG j = none ∨ DJ j ∨ ∃ c ∈ cs, Reach mG j c)) ∧
          (cs.foldl (delVCAux fuel) stJ).rootId = stJ.rootId ∧
          (cs.foldl (delVCAux fuel) stJ).currentId = stJ.currentId ∧
          (cs.foldl (delVCAux fuel) stJ).maxVersions = stJ.maxVersions ∧
          (cs.foldl (delVCAux fuel) stJ).nextId = stJ.nextId ∧
          (cs.foldl (delVCAux fuel) stJ).clock = stJ.clock ∧
          ((cs.foldl (delVCAux fuel) stJ).cache = stJ.cache ∨
            (cs.foldl (delVCAux fuel) stJ).cache = []) := by
        intro cs
        induction cs with
        | nil =>
          intro hcs' stJ DJ PJ hfilJ hiffJ hdownJ
          refine ⟨⟨PJ, hfilJ⟩, ?_, rfl, rfl, rfl, rfl, rfl, Or.inl rfl⟩
          intro j
          simp only [List.foldl_nil]
          rw [hiffJ j]
          simp
        | cons c cs' ihcs =>
          intro hcs' stJ DJ PJ hfilJ hiffJ hdownJ
          simp only [List.foldl_cons]
          obtain ⟨hcG, hcarith, hcbc⟩ := hcs' c (List.mem_cons_self _ _)
          by_cases hcJ : mget stJ.versions c = none
          · rw [delVCAux_absent hcJ]
            obtain ⟨hQ, hiff2, f1, f2, f3, f4, f5, f6⟩ :=
              ihcs (fun x hx => hcs' x (List.mem_cons_of_mem _ hx)) stJ DJ PJ
                hfilJ hiffJ hdownJ
            refine ⟨hQ, ?_, f1, f2, f3, f4, f5, f6⟩
            intro j
            rw [hiff2 j]
            have hDc : DJ c := by
              rcases (hiffJ c).mp hcJ with h | h
              · exact absurd h hcG
              · exact h
            constructor
            · rintro (h | h | ⟨x, hx, hr⟩)
              · exact Or.inl h
              · exact Or.inr (Or.inl h)
              · exact Or.inr (Or.inr ⟨x, List.mem_cons_of_mem _ hx, hr⟩)
            · rintro (h | h | ⟨x, hx, hr⟩)
              · exact Or.inl h
              · exact Or.inr (Or.inl h)
              · rcases List.mem_cons.mp hx with rfl | hx
                · by_cases hjG : mget mG j = none
                  · exact Or.inl hjG
                  · exact Or.inr (Or.inl (hdownJ j x hDc hr hjG))
                · exact Or.inr (Or.inr ⟨x, hx, hr⟩)
          · obtain ⟨⟨Q1, hQ1⟩, hiff1, g1, g2, g3, g4, g5, g6⟩ :=
              ih stJ c DJ PJ hcbc hfilJ hiffJ hdownJ hcarith hcJ
            have hdown' : ∀ x y, (DJ y ∨ Reach mG y c) → Reach mG x y →
                mget mG x ≠ none → (DJ x ∨ Reach mG x c) := by
              rintro x y (hy | hy) hr hx
              · exact Or.inl (hdownJ x y hy hr hx)
              · exact Or.inr (reach_trans hr hy)
            obtain ⟨hQ2, hiff2, f1, f2, f3, f4, f5, f6⟩ :=
              ihcs (fun x hx => hcs' x (List.mem_cons_of_mem _ hx))
                (delVCAux fuel stJ c) (fun j => DJ j ∨ Reach mG j c) Q1 hQ1
                (by intro j; rw [hiff1 j]) hdown'
            refine ⟨hQ2, ?_, f1.trans g1, f2.trans g2, f3.trans g3, f4.trans g4,
              f5.trans g5, ?_⟩
            · intro j
              rw [hiff2 j]
              constructor
              · rintro (h | h | ⟨x, hx, hr⟩)
                · exact Or.inl h
                · rcases h with h | h
                  · exact Or.inr (Or.inl h)
                  · exact Or.inr (Or.inr ⟨c, List.mem_cons_self _ _, h⟩)
                · exact Or.inr (Or.inr ⟨x, List.mem_cons_of_mem _ hx, hr⟩)
              · rintro (h | h | ⟨x, hx, hr⟩)
                · exact Or.inl h
                · exact Or.inr (Or.inl (Or.inl h))
                · rcases List.mem_cons.mp hx with rfl | hx
                  · exact Or.inr (Or.inl (Or.inr hr))
                  · exact Or.inr (Or.inr ⟨x, hx, hr⟩)
            · rcases f6 with h | h
              · rcases g6 with h2 | h2
                · exact Or.inl (h.trans h2)
                · exact Or.inr (h ▸ h2)
              · exact Or.inr h
      obtain ⟨⟨Q1, hQ1⟩, hiff1, f1, f2, f3, f4, f5, _⟩ :=
        hfold v.children hchild stI D P hfil hiff hdown
      have hres : delVCAux (fuel + 1) stI id =
          { v.children.foldl (delVCAux fuel) stI with
            versions := mdel (v.children.foldl (delVCAux fuel) stI).versions id
            cache := [] } := by
        simp [delVCAux, hv]
      rw [hres]
      refine ⟨⟨fun k => Q1 k && decide (k ≠ id), ?_⟩, ?_, f1, f2, f3, f4, f5, Or.inr rfl⟩
      · show mdel (v.children.foldl (delVCAux fuel) stI).versions id = _
        rw [hQ1]
        show ((mG.filter (fun e => Q1 e.1)).filter fun e => decide (e.1 ≠ id)) = _
        rw [filter_and]
      · intro j
        show mget (mdel (v.children.foldl (delVCAux fuel) stI).versions id) j = none ↔ _
        by_cases hj : j = id
        · subst hj
          rw [mget_mdel_self]
          simp only [true_iff]
          exact Or.inr (Or.inr (reach_refl _ _))
        · rw [mget_mdel_ne _ _ _ hj, hiff1 j,
            reach_via_children hcs hvG
              (fun y w hy hwp => hcbr id v y w (reach_refl _ _) hvG hy hwp) j]
          constructor
          · rintro (h | h | ⟨x, hx, hr⟩)
            · exact Or.inl h
            · exact Or.inr (Or.inl h)
            · exact Or.inr (Or.inr (Or.inr ⟨x, hx, hr⟩))
          · rintro (h | h | (h | ⟨x, hx, hr⟩))
            · exact Or.inl h
            · exact Or.inr (Or.inl h)
            · exact absurd h hj
            · exact Or.inr (Or.inr ⟨x, hx, hr⟩)

/-! ## Pruning: helper lemmas -/

theorem mset_preserve {κ β : Type} [DecidableEq κ] {m : List (κ × β)} {k : κ} {v : β}
    (h : mget m k = some v) : mset m k v = m := by
  induction m with
  | nil => simp [mget] at h
  | cons e rest ih =>
    rw [mget] at h
    rw [mset]
    by_cases hek : e.1 = k
    · rw [if_pos hek] at h ⊢
      injection h with h
      rw [← hek, ← h]
    · rw [if_neg hek] at h ⊢
      rw [ih h]

theorem pruneLoop_cons (toRemove : Nat) (v : Version α) (rest : List (Version α))
    (st : VCState α) (removed : Nat) :
    pruneLoop toRemove (v :: rest) st removed =
      if toRemove ≤ removed then st
      else if isInCurrentPath st v.id then pruneLoop toRemove rest st removed
      else if st.rootId = some v.id then pruneLoop toRemove rest st removed
      else pruneLoop toRemove rest (pruneStep st v) (removed + 1) := rfl

theorem iterChain_congr {m m' : List (Nat × Version α)}
    (h : ∀ x, parentOf m' x = parentOf m x) :
    ∀ (n j : Nat), iterChain m' n j = iterChain m n j := by
  intro n
  induction n with
  | zero => intro j; rfl
  | succ n ih =>
    intro j
    rw [iterChain, iterChain, h j]
    cases parentOf m j with
    | none => rfl
    | some p => exact ih p

theorem reach_congr {m m' : List (Nat × Version α)}
    (h : ∀ x, parentOf m' x = parentOf m x) (j id : Nat) :
    Reach m' j id ↔ Reach m j id := by
  unfold Reach
  constructor
  · rintro ⟨n, hn⟩
    exact ⟨n, by rw [← iterChain_congr h]; exact hn⟩
  · rintro ⟨n, hn⟩
    exact ⟨n, by rw [iterChain_congr h]; exact hn⟩

theorem parentOf_mset_children {m : List (Nat × Version α)} {pid : Nat}
    {parent parent' : Version α} (hp : mget m pid = some parent)
    (hpar : parent'.parentId = parent.parentId) (x : Nat) :
    parentOf (mset m pid parent') x = parentOf m x := by
  unfold parentOf
  by_cases hx : x = pid
  · subst hx
    rw [mget_mset_self, hp]
    simp [hpar]
  · rw [mget_mset_ne _ _ _ _ hx]

theorem mget_none_iff_keys {m m' : List (Nat × Version α)}
    (h : keysOf m' = keysOf m) (k : Nat) :
    (mget m' k = none ↔ mget m k = none) := by
  rw [mget_none_iff, mget_none_iff]
  show k ∉ keysOf m' ↔ k ∉ keysOf m
  rw [h]

theorem iterChain_lift {m m' : List (Nat × Version α)}
    (hag : ∀ j w', mget m' j = some w' →
      ∃ w, mget m j = some w ∧ w'.parentId = w.parentId) :
    ∀ {n j x : Nat}, iterChain m' n j = some x → iterChain m n j = some x := by
  intro n
  induction n with
  | zero => intro j x h; exact h
  | succ n ih =>
    intro j x h
    rw [iterChain] at h
    cases hpo : parentOf m' j with
    | none => rw [hpo] at h; cases h
    | some p =>
      rw [hpo] at h
      obtain ⟨w', hw', hwp'⟩ : ∃ w', mget m' j = some w' ∧ w'.parentId = some p := by
        rw [parentOf] at hpo
        cases hw : mget m' j with
        | none => rw [hw] at hpo; cases hpo
        | some w => rw [hw] at hpo; exact ⟨w, rfl, hpo⟩
      obtain ⟨w, hw, hpq⟩ := hag j w' hw'
      have hpo2 : parentOf m j = some p := by
        rw [parentOf, hw]
        simp only [Option.some_bind]
        rw [← hpq, hwp']
      rw [iterChain, hpo2]
      exact ih h

theorem iterChain_transfer {m m' : List (Nat × Version α)}
    (hag : ∀ j w', mget m' j = some w' →
      ∃ w, mget m j = some w ∧ w'.parentId = w.parentId) :
    ∀ {n j x : Nat}, iterChain m n j = some x →
      (∀ i < n, ∀ y, iterChain m i j = some y → mget m' y ≠ none) →
      iterChain m' n j = some x := by
  intro n
  induction n with
  | zero => intro j x h _; exact h
  | succ n ih =>
    intro j x h hlive
    rw [iterChain] at h
    cases hpo : parentOf m j with
    | none => rw [hpo] at h; cases h
    | some p =>
      rw [hpo] at h
      have hjl : mget m' j ≠ none := hlive 0 (by omega) j rfl
      obtain ⟨w', hw'⟩ : ∃ w', mget m' j = some w' := by
        cases hw : mget m' j with
        | none => exact absurd hw hjl
        | some w => exact ⟨w, rfl⟩
      obtain ⟨w, hw, hpq⟩ := hag j w' hw'
      have hwp : w.parentId = some p := by
        rw [parentOf, hw] at hpo
        exact hpo
      have hpo' : parentOf m' j = some p := by
        rw [parentOf, hw']
        simp only [Option.some_bind]
        rw [hpq, hwp]
      rw [iterChain, hpo']
      refine ih h ?_
      intro i hi y hy
      refine hlive (i + 1) (by omega) y ?_
      rw [iterChain, hpo]
      exact hy

theorem isInCurrentPath_iff_reach {st : VCState α} {rnk : Nat → Nat}
    (hrnk : ParentRank st.versions rnk) {cur : Nat} (hcur : st.currentId = some cur)
    (x : Nat) :
    isInCurrentPath st x = true ↔ Reach st.versions cur x := by
  rw [isInCurrentPath, hcur, isInCurrentPathAux_iff, mem_upChain_iff]
  constructor
  · rintro ⟨n, _, hn⟩
    exact ⟨n, hn⟩
  · rintro ⟨n, hn⟩
    exact ⟨n, by have := iterChain_le_length hrnk hn; omega, hn⟩

theorem isInCurrentPath_none {st : VCState α} (h : st.currentId = none) (x : Nat) :
    isInCurrentPath st x = false := by
  rw [isInCurrentPath, h]
  rfl

theorem pruneDetach_char {st : VCState α} (hI : Inv st) {cid pid : Nat}
    {w parent parent' : Version α} (hw : mget st.versions cid = some w)
    (hwpid : w.parentId = some pid) (hpar : mget st.versions pid = some parent)
    (hpc' : parent' =
      { parent with children := parent.children.filter (fun i => decide (i ≠ cid)) })
    (hpath : isInCurrentPath st cid = false) (hroot : st.rootId ≠ some cid) :
    ∀ res, res = deleteVersionAndChildren
      { st with versions := mset st.versions pid parent' } cid →
    Inv res ∧
    (∀ j, mget res.versions j = none ↔
      (mget st.versions j = none ∨ Reach st.versions j cid)) ∧
    res.rootId = st.rootId ∧ res.currentId = st.currentId ∧
    res.maxVersions = st.maxVersions ∧ res.nextId = st.nextId ∧ res.clock = st.clock ∧
    (∀ j w', mget res.versions j = some w' →
      ∃ w0, mget st.versions j = some w0 ∧ w'.data = w0.data ∧ w'.delta = w0.delta ∧
        w'.parentId = w0.parentId ∧ w'.lastAccessed = w0.lastAccessed ∧ w'.id = w0.id) ∧
    res.cache = [] := by
  intro res hres
  obtain ⟨rnk0, hrnk0⟩ := hI.acyclic
  have hpid' : parent'.parentId = parent.parentId := by rw [hpc']
  have hid' : parent'.id = parent.id := by rw [hpc']
  have hdata' : parent'.data = parent.data := by rw [hpc']
  have hdelta' : parent'.delta = parent.delta := by rw [hpc']
  have hla' : parent'.lastAccessed = parent.lastAccessed := by rw [hpc']
  have hch' : parent'.children = parent.children.filter (fun i => decide (i ≠ cid)) := by
    rw [hpc']
  have hcidpid : cid ≠ pid := by
    intro h
    subst h
    exact absurd (hrnk0 (cid, w) (mget_eq_some_mem hw) cid hwpid) (lt_irrefl _)
  have hm1 : ∀ x, mget (mset st.versions pid parent') x =
      if x = pid then some parent' else mget st.versions x := by
    intro x
    by_cases hx : x = pid
    · rw [hx, mget_mset_self, if_pos rfl]
    · rw [mget_mset_ne _ _ _ _ hx, if_neg hx]
  have hkeys1 : keysOf (mset st.versions pid parent') = keysOf st.versions :=
    keysOf_mset_of_mem parent' (List.mem_map_of_mem Prod.fst (mget_eq_some_mem hpar))
  have hnd1 : (keysOf (mset st.versions pid parent')).Nodup := by
    rw [hkeys1]
    exact hI.nodupKeys
  have hpo1 : ∀ x, parentOf (mset st.versions pid parent') x = parentOf st.versions x :=
    parentOf_mset_children hpar hpid'
  have hrnk1 : ParentRank (mset st.versions pid parent') rnk0 := by
    intro e he p hp
    rcases mem_mset he with rfl | he'
    · exact hrnk0 (pid, parent) (mget_eq_some_mem hpar) p (by rw [← hpid']; exact hp)
    · exact hrnk0 e he' p hp
  have hpc1 : ParentClosed (mset st.versions pid parent') := by
    intro j wj p hj hp
    rw [hm1] at hj
    intro hcon
    rw [mget_none_iff_keys hkeys1 p] at hcon
    by_cases hjp : j = pid
    · rw [if_pos hjp] at hj
      injection hj with hj
      exact hI.parentMem (pid, parent) (mget_eq_some_mem hpar) p
        (by rw [← hpid', hj]; exact hp) hcon
    · rw [if_neg hjp] at hj
      exact hI.parentMem (j, wj) (mget_eq_some_mem hj) p hp hcon
  obtain ⟨rnk, hrnk, hrnkB⟩ := normalize_rank hnd1 hpc1 hrnk1
  have hw1 : mget (mset st.versions pid parent') cid = some w := by
    rw [hm1, if_neg hcidpid]
    exact hw
  have hcs1 : ∀ e ∈ mset st.versions pid parent', ∀ c ∈ e.2.children,
      parentOf (mset st.versions pid parent') c = some e.1 := by
    intro e he c hc
    rw [hpo1]
    rcases mem_mset he with rfl | he'
    · rw [hch'] at hc
      exact hI.chBack (pid, parent) (mget_eq_some_mem hpar) c (List.mem_of_mem_filter hc)
    · exact hI.chBack e he' c hc
  have hcbr : ∀ x u y wy, Reach (mset st.versions pid parent') x cid →
      mget (mset st.versions pid parent') x = some u →
      mget (mset st.versions pid parent') y = some wy →
      wy.parentId = some x → y ∈ u.children := by
    intro x u y wy hrx hx hy hyp
    have hxpid : x ≠ pid := by
      intro hxe
      obtain ⟨n, hn⟩ := hrx
      rw [hxe] at hn
      have h1 := iterChain_rank hrnk1 hn
      have h2 : rnk0 pid < rnk0 cid := hrnk0 (cid, w) (mget_eq_some_mem hw) pid hwpid
      omega
    rw [hm1, if_neg hxpid] at hx
    by_cases hypid : y = pid
    · rw [hm1, if_pos hypid] at hy
      injection hy with hy
      subst hy
      have hpp : parent.parentId = some x := by rw [← hpid']; exact hyp
      rw [hypid]
      exact hI.chFull (pid, parent) (mget_eq_some_mem hpar) (x, u) (mget_eq_some_mem hx) hpp
    · rw [hm1, if_neg hypid] at hy
      exact hI.chFull (y, wy) (mget_eq_some_mem hy) (x, u) (mget_eq_some_mem hx) hyp
  have hchar := delVC_char hrnk hnd1 hcs1 hrnkB
    ((mset st.versions pid parent').length + 1)
    { st with versions := mset st.versions pid parent' } cid (fun _ => False)
    (fun _ => true) hcbr (by simp) (by intro j; simp)
    (fun x y hy _ _ => hy.elim) (by omega)
    (show mget (mset st.versions pid parent') cid ≠ none by
      rw [hw1]; exact Option.some_ne_none _)
  rw [show deleteVersionAndChildren { st with versions := mset st.versions pid parent' } cid
      = delVCAux ((mset st.versions pid parent').length + 1)
        { st with versions := mset st.versions pid parent' } cid from rfl] at hres
  obtain ⟨⟨Q, hQ⟩, hdead1, hrt, hcur, hmax, hnext, hclk, _⟩ := hchar
  have hcache : res.cache = [] := by
    rw [hres]
    simp only [delVCAux]
    rw [show mget ({ st with versions := mset st.versions pid parent' } :
        VCState α).versions cid = some w from hw1]
  rw [← hres] at hQ hdead1 hrt hcur hmax hnext hclk
  have hdead : ∀ j, mget res.versions j = none ↔
      (mget st.versions j = none ∨ Reach st.versions j cid) := by
    intro j
    rw [hdead1 j, mget_none_iff_keys hkeys1 j, reach_congr hpo1 j cid]
    simp
  have hsurv : ∀ j w', mget res.versions j = some w' →
      (j = pid ∧ w' = parent') ∨ (j ≠ pid ∧ mget st.versions j = some w') := by
    intro j w' hj
    rw [hQ, mget_filter] at hj
    by_cases hQj : Q j = true
    · rw [if_pos hQj, hm1] at hj
      by_cases hjp : j = pid
      · rw [if_pos hjp] at hj
        injection hj with hj
        exact Or.inl ⟨hjp, hj.symm⟩
      · rw [if_neg hjp] at hj
        exact Or.inr ⟨hjp, hj⟩
    · rw [if_neg hQj] at hj
      cases hj
  have hndres : (keysOf res.versions).Nodup := by
    rw [hQ]
    exact List.Nodup.sublist (List.Sublist.map Prod.fst (List.filter_sublist _)) hnd1
  have hmemres : ∀ e ∈ res.versions, mget res.versions e.1 = some e.2 :=
    fun e he => mget_of_mem_nodup hndres he
  have hciddead : mget res.versions cid = none :=
    (hdead cid).mpr (Or.inr (reach_refl _ _))
  have hsurvPar : ∀ j w', mget res.versions j = some w' →
      ∃ w0, mget st.versions j = some w0 ∧ w'.parentId = w0.parentId := by
    intro j w' hj
    rcases hsurv j w' hj with ⟨rfl, rfl⟩ | ⟨_, hst⟩
    · exact ⟨parent, hpar, hpid'⟩
    · exact ⟨w', hst, rfl⟩
  have hpay : ∀ j w', mget res.versions j = some w' →
      ∃ w0, mget st.versions j = some w0 ∧ w'.data = w0.data ∧ w'.delta = w0.delta ∧
        w'.parentId = w0.parentId ∧ w'.lastAccessed = w0.lastAccessed ∧ w'.id = w0.id := by
    intro j w' hj
    rcases hsurv j w' hj with ⟨rfl, rfl⟩ | ⟨_, hst⟩
    · exact ⟨parent, hpar, hdata', hdelta', hpid', hla', hid'⟩
    · exact ⟨w', hst, rfl, rfl, rfl, rfl, rfl⟩
  have hrootlive : ∀ r, st.rootId = some r → mget res.versions r ≠ none := by
    intro r hr hcon
    rcases (hdead r).mp hcon with h | h
    · exact hI.rootMem r hr h
    · obtain ⟨n, hn⟩ := h
      cases n with
      | zero =>
        rw [iterChain] at hn
        injection hn with hn
        exact hroot (hn ▸ hr)
      | succ n =>
        obtain ⟨wr, hwr⟩ : ∃ wr, mget st.versions r = some wr := by
          cases hx : mget st.versions r with
          | none => exact absurd hx (hI.rootMem r hr)
          | some wr => exact ⟨wr, rfl⟩
        have hwrp : wr.parentId = none :=
          (hI.parentRootIff (r, wr) (mget_eq_some_mem hwr)).mpr hr
        have hpor : parentOf st.versions r = none := by
          rw [parentOf, hwr]
          simp [hwrp]
        rw [iterChain] at hn
        rw [hpor] at hn
        cases hn
  have hcurlive : ∀ cur, st.currentId = some cur → mget res.versions cur ≠ none := by
    intro cur hc hcon
    rcases (hdead cur).mp hcon with h | h
    · exact hI.currMem cur hc h
    · rw [← isInCurrentPath_iff_reach hrnk0 hc cid] at h
      rw [hpath] at h
      cases h
  refine ⟨⟨hndres, ?_, ?_, ?_, ?_, ?_, ?_, ?_, ?_, ?_, ?_, ?_, ?_⟩,
    hdead, hrt, hcur, hmax, hnext, hclk, hpay, hcache⟩
  · -- keyMatch
    intro e he
    have hge := hmemres e he
    rcases hsurv e.1 e.2 hge with ⟨hepid, hev⟩ | ⟨_, hst⟩
    · rw [hev, hid', hepid]
      exact hI.keyMatch (pid, parent) (mget_eq_some_mem hpar)
    · exact hI.keyMatch (e.1, e.2) (mget_eq_some_mem hst)
  · -- keysLt
    intro e he
    rw [hnext]
    have hge := hmemres e he
    rcases hsurv e.1 e.2 hge with ⟨hepid, _⟩ | ⟨_, hst⟩
    · rw [hepid]
      exact hI.keysLt (pid, parent) (mget_eq_some_mem hpar)
    · exact hI.keysLt (e.1, e.2) (mget_eq_some_mem hst)
  · -- rootNone
    constructor
    · intro hr
      rw [hrt] at hr
      have hemp := hI.rootNone.mp hr
      rw [hemp] at hw
      cases hw
    · intro hemp
      cases hr : st.rootId with
      | none => rw [hrt]; exact hr
      | some r =>
        exact absurd (by rw [hemp]; rfl) (hrootlive r hr)
  · -- currNone
    constructor
    · intro hc
      rw [hcur] at hc
      have hemp := hI.currNone.mp hc
      rw [hemp] at hw
      cases hw
    · intro hemp
      cases hc : st.currentId with
      | none => rw [hcur]; exact hc
      | some cur =>
        exact absurd (by rw [hemp]; rfl) (hcurlive cur hc)
  · -- rootMem
    intro r hr
    rw [hrt] at hr
    exact hrootlive r hr
  · -- currMem
    intro cur hc
    rw [hcur] at hc
    exact hcurlive cur hc
  · -- parentRootIff
    intro e he
    have hge := hmemres e he
    obtain ⟨w0, hw0, hpeq⟩ := hsurvPar e.1 e.2 hge
    rw [hrt, hpeq]
    exact hI.parentRootIff (e.1, w0) (mget_eq_some_mem hw0)
  · -- parentMem
    intro e he p hp
    have hge := hmemres e he
    obtain ⟨w0, hw0, hpeq⟩ := hsurvPar e.1 e.2 hge
    have hplive : mget st.versions p ≠ none :=
      hI.parentMem (e.1, w0) (mget_eq_some_mem hw0) p (by rw [← hpeq]; exact hp)
    intro hcon
    rcases (hdead p).mp hcon with h | h
    · exact hplive h
    · have hre : Reach st.versions e.1 cid :=
        reach_trans (reach_parent (show parentOf st.versions e.1 = some p by
          rw [parentOf, hw0]
          simp only [Option.some_bind]
          rw [← hpeq]
          exact hp)) h
      have hde := (hdead e.1).mpr (Or.inr hre)
      rw [hge] at hde
      cases hde
  · -- childNodup
    intro e he
    have hge := hmemres e he
    rcases hsurv e.1 e.2 hge with ⟨_, hev⟩ | ⟨_, hst⟩
    · rw [hev, hch']
      exact List.Nodup.filter _ (hI.childNodup (pid, parent) (mget_eq_some_mem hpar))
    · exact hI.childNodup (e.1, e.2) (mget_eq_some_mem hst)
  · -- chBack
    intro e he c hc
    have hge := hmemres e he
    have hkey : parentOf st.versions c = some e.1 ∧ c ≠ cid := by
      rcases hsurv e.1 e.2 hge with ⟨hepid, hev⟩ | ⟨hepid, hst⟩
      · rw [hev, hch'] at hc
        refine ⟨?_, ?_⟩
        · rw [hepid]
          exact hI.chBack (pid, parent) (mget_eq_some_mem hpar) c (List.mem_of_mem_filter hc)
        · have := List.of_mem_filter hc
          simpa using this
      · have hpo := hI.chBack (e.1, e.2) (mget_eq_some_mem hst) c hc
        refine ⟨hpo, ?_⟩
        intro hce
        rw [hce] at hpo
        have hpoc : parentOf st.versions cid = some pid := by
          rw [parentOf, hw]
          simp [hwpid]
        rw [hpo] at hpoc
        injection hpoc with hpoc
        exact hepid hpoc
    obtain ⟨hpoc, hcne⟩ := hkey
    obtain ⟨wc, hwc, hwcp⟩ : ∃ wc, mget st.versions c = some wc ∧ wc.parentId = some e.1 := by
      rw [parentOf] at hpoc
      cases hx : mget st.versions c with
      | none => rw [hx] at hpoc; cases hpoc
      | some wc => rw [hx] at hpoc; exact ⟨wc, rfl, hpoc⟩
    have hclive : mget res.versions c ≠ none := by
      intro hcon
      rcases (hdead c).mp hcon with h | h
      · rw [hwc] at h
        cases h
      · obtain ⟨n, hn⟩ := h
        cases n with
        | zero =>
          rw [iterChain] at hn
          injection hn with hn
          exact hcne hn
        | succ n =>
          rw [iterChain] at hn
          rw [show parentOf st.versions c = some e.1 from by
            rw [parentOf, hwc]; simp [hwcp]] at hn
          have hde := (hdead e.1).mpr (Or.inr ⟨n, hn⟩)
          rw [hge] at hde
          cases hde
    obtain ⟨wc', hwc'⟩ : ∃ wc', mget res.versions c = some wc' := by
      cases hx : mget res.versions c with
      | none => exact absurd hx hclive
      | some z => exact ⟨z, rfl⟩
    obtain ⟨w0, hw0, hpeq⟩ := hsurvPar c wc' hwc'
    rw [parentOf, hwc']
    simp only [Option.some_bind]
    rw [hpeq]
    rw [hw0] at hwc
    injection hwc with hwc
    rw [hwc]
    exact hwcp
  · -- chFull
    intro ce hce pe hpe hpp
    have hgc := hmemres ce hce
    have hgp := hmemres pe hpe
    obtain ⟨u1, hu1, hpeq1⟩ := hsurvPar ce.1 ce.2 hgc
    have hu1p : u1.parentId = some pe.1 := by rw [← hpeq1]; exact hpp
    have hfullst : ∀ u2, mget st.versions pe.1 = some u2 → ce.1 ∈ u2.children := by
      intro u2 hu2
      exact hI.chFull (ce.1, u1) (mget_eq_some_mem hu1) (pe.1, u2) (mget_eq_some_mem hu2) hu1p
    rcases hsurv pe.1 pe.2 hgp with ⟨hppid, hpv⟩ | ⟨_, hst⟩
    · rw [hpv, hch', List.mem_filter]
      constructor
      · exact hfullst parent (by rw [hppid]; exact hpar)
      · simp only [decide_eq_true_eq]
        rintro rfl
        rw [hciddead] at hgc
        cases hgc
    · exact hfullst pe.2 hst
  · -- acyclic
    refine ⟨rnk0, ?_⟩
    intro e he p hp
    rw [hQ] at he
    exact hrnk1 e (List.mem_of_mem_filter he) p hp

theorem pruneStep_char {st : VCState α} (hI : Inv st) {v : Version α}
    (hcand : ∀ w, mget st.versions v.id = some w → w.parentId = v.parentId)
    (hpath : isInCurrentPath st v.id = false)
    (hroot : st.rootId ≠ some v.id) :
    Inv (pruneStep st v) ∧
    (∀ j, mget (pruneStep st v).versions j = none ↔
      (mget st.versions j = none ∨ Reach st.versions j v.id)) ∧
    (pruneStep st v).rootId = st.rootId ∧
    (pruneStep st v).currentId = st.currentId ∧
    (pruneStep st v).maxVersions = st.maxVersions ∧
    (pruneStep st v).nextId = st.nextId ∧
    (pruneStep st v).clock = st.clock ∧
    (∀ j w', mget (pruneStep st v).versions j = some w' →
      ∃ w0, mget st.versions j = some w0 ∧ w'.data = w0.data ∧ w'.delta = w0.delta ∧
        w'.parentId = w0.parentId ∧ w'.lastAccessed = w0.lastAccessed ∧ w'.id = w0.id) ∧
    (pruneStep st v = st ∨ (pruneStep st v).cache = []) := by
  by_cases hlv : mget st.versions v.id = none
  · -- stale candidate: the whole step is the identity
    have hdeadimp : ∀ j, Reach st.versions j v.id → mget st.versions j = none := by
      intro j hr
      obtain ⟨n, hn⟩ := hr
      cases n with
      | zero =>
        rw [iterChain] at hn
        injection hn with hn
        rw [hn]
        exact hlv
      | succ n =>
        obtain ⟨y, hy, hyp⟩ := iterChain_last hn
        obtain ⟨wy, hwy, hwyp⟩ : ∃ wy, mget st.versions y = some wy ∧
            wy.parentId = some v.id := by
          rw [parentOf] at hyp
          cases hx : mget st.versions y with
          | none => rw [hx] at hyp; cases hyp
          | some wy => rw [hx] at hyp; exact ⟨wy, rfl, hyp⟩
        exact absurd hlv (hI.parentMem (y, wy) (mget_eq_some_mem hwy) v.id hwyp)
    have hstep : pruneStep st v = st := by
      cases hvp : v.parentId with
      | none =>
        simp only [pruneStep, hvp]
        exact delVCAux_absent hlv _
      | some pid =>
        cases hpar : mget st.versions pid with
        | none =>
          simp only [pruneStep, hvp, hpar]
          exact delVCAux_absent hlv _
        | some parent =>
          have hfix : parent.children.filter (fun i => decide (i ≠ v.id)) =
              parent.children := by
            apply List.filter_eq_self.mpr
            intro a ha
            have hpo := hI.chBack (pid, parent) (mget_eq_some_mem hpar) a ha
            simp only [decide_eq_true_eq]
            rintro rfl
            rw [parentOf, hlv] at hpo
            cases hpo
          have hself : ({ parent with
              children := parent.children.filter (fun i => decide (i ≠ v.id)) } : Version α)
              = parent := by
            rw [hfix]
          simp only [pruneStep, hvp, hpar, hself, mset_preserve hpar]
          exact delVCAux_absent hlv _
    rw [hstep]
    refine ⟨hI, ?_, rfl, rfl, rfl, rfl, rfl, ?_, Or.inl rfl⟩
    · intro j
      constructor
      · exact Or.inl
      · rintro (h | h)
        · exact h
        · exact hdeadimp j h
    · intro j w' hw'
      exact ⟨w', hw', rfl, rfl, rfl, rfl, rfl⟩
  · obtain ⟨w, hw⟩ : ∃ w, mget st.versions v.id = some w := by
      cases hx : mget st.versions v.id with
      | none => exact absurd hx hlv
      | some w => exact ⟨w, rfl⟩
    have hwp : w.parentId = v.parentId := hcand w hw
    cases hvp : v.parentId with
    | none =>
      exfalso
      refine hroot ((hI.parentRootIff (v.id, w) (mget_eq_some_mem hw)).mp ?_)
      rw [hwp, hvp]
    | some pid =>
      have hwpid : w.parentId = some pid := by rw [hwp, hvp]
      obtain ⟨parent, hpar⟩ : ∃ parent, mget st.versions pid = some parent := by
        cases hx : mget st.versions pid with
        | none =>
          exact absurd hx (hI.parentMem (v.id, w) (mget_eq_some_mem hw) pid hwpid)
        | some parent => exact ⟨parent, rfl⟩
      have hstep : pruneStep st v = deleteVersionAndChildren
          { st with versions := (mset st.versions pid
              { parent with
                children := parent.children.filter (fun i => decide (i ≠ v.id)) }) }
          v.id := by
        simp only [pruneStep, hvp, hpar]
      obtain ⟨c1, c2, c3, c4, c5, c6, c7, c8, c9⟩ :=
        pruneDetach_char hI hw hwpid hpar rfl hpath hroot (pruneStep st v) hstep
      exact ⟨c1, c2, c3, c4, c5, c6, c7, c8, Or.inr c9⟩

theorem isInCurrentPath_transfer {st0 stI : VCState α} (hI0 : Inv st0) (hII : Inv stI)
    (hcur : stI.currentId = st0.currentId)
    (hpay : ∀ j w', mget stI.versions j = some w' →
      ∃ w0, mget st0.versions j = some w0 ∧ w'.parentId = w0.parentId)
    (hlive : ∀ cur x, st0.currentId = some cur → Reach st0.versions cur x →
      mget stI.versions x ≠ none) :
    ∀ x, isInCurrentPath stI x = isInCurrentPath st0 x := by
  intro x
  cases hc : st0.currentId with
  | none =>
    rw [isInCurrentPath_none (by rw [hcur]; exact hc) x, isInCurrentPath_none hc x]
  | some cur =>
    obtain ⟨rnk0, hrnk0⟩ := hI0.acyclic
    obtain ⟨rnkI, hrnkI⟩ := hII.acyclic
    have h1 := isInCurrentPath_iff_reach hrnkI (by rw [hcur]; exact hc) x
    have h2 := isInCurrentPath_iff_reach hrnk0 hc x
    have hiff : Reach stI.versions cur x ↔ Reach st0.versions cur x := by
      constructor
      · rintro ⟨n, hn⟩
        exact ⟨n, iterChain_lift hpay hn⟩
      · rintro ⟨n, hn⟩
        refine ⟨n, iterChain_transfer hpay hn ?_⟩
        intro i _ y hy
        exact hlive cur y hc ⟨i, hy⟩
    by_cases hx : isInCurrentPath st0 x = true
    · rw [hx]
      exact h1.mpr (hiff.mpr (h2.mp hx))
    · have hx' : isInCurrentPath st0 x = false := by
        cases hxx : isInCurrentPath st0 x
        · rfl
        · exact absurd hxx hx
      rw [hx']
      by_cases hy : isInCurrentPath stI x = true
      · exact absurd (h2.mpr (hiff.mp (h1.mp hy))) hx
      · cases hyy : isInCurrentPath stI x
        · rfl
        · exact absurd hyy hy

theorem survivor_count_bound {st0 stI : VCState α} {S : List Nat}
    (hndI : (keysOf stI.versions).Nodup) (hndS : S.Nodup)
    (hS : ∀ s ∈ S, mget stI.versions s = none ∧ mget st0.versions s ≠ none)
    (hsub : ∀ j, mget stI.versions j ≠ none → mget st0.versions j ≠ none) :
    stI.versions.length + S.length ≤ st0.versions.length := by
  have hkm : ∀ (m : List (Nat × Version α)) (a : Nat),
      a ∈ keysOf m ↔ mget m a ≠ none := by
    intro m a
    constructor
    · intro ha hno
      exact ((mget_none_iff m a).mp hno) ha
    · intro hno
      by_contra hnm
      exact hno ((mget_none_iff m a).mpr hnm)
  have hnd : (keysOf stI.versions ++ S).Nodup := by
    rw [List.nodup_append]
    refine ⟨hndI, hndS, ?_⟩
    intro a ha hb
    exact ((hkm _ a).mp ha) (hS a hb).1
  have hsubset : (keysOf stI.versions ++ S) ⊆ keysOf st0.versions := by
    intro a ha
    rcases List.mem_append.mp ha with h | h
    · exact (hkm _ a).mpr (hsub a ((hkm _ a).mp h))
    · exact (hkm _ a).mpr (hS a h).2
  have hle := nodup_subset_length_le hnd hsubset
  simp only [List.length_append] at hle
  have hk1 : (keysOf stI.versions).length = stI.versions.length := by
    simp [keysOf]
  have hk0 : (keysOf st0.versions).length = st0.versions.length := by
    simp [keysOf]
  omega

theorem pruneLoop_master {st0 : VCState α} (hI0 : Inv st0) :
    ∀ (cs : List (Version α)) (toRemove : Nat) (stI : VCState α) (removed : Nat)
      (S : List Nat),
      Inv stI →
      (∀ v ∈ cs, mget st0.versions v.id = some v) →
      (cs.map (fun v => v.id)).Nodup →
      (∀ v ∈ cs, v.id ∉ S) →
      stI.rootId = st0.rootId →
      stI.currentId = st0.currentId →
      stI.maxVersions = st0.maxVersions →
      stI.nextId = st0.nextId →
      stI.clock = st0.clock →
      (∀ j w', mget stI.versions j = some w' →
        ∃ w0, mget st0.versions j = some w0 ∧ w'.data = w0.data ∧ w'.delta = w0.delta ∧
          w'.parentId = w0.parentId ∧ w'.lastAccessed = w0.lastAccessed ∧ w'.id = w0.id) →
      (∀ cur x, st0.currentId = some cur → Reach st0.versions cur x →
        mget stI.versions x ≠ none) →
      S.Nodup →
      S.length = removed →
      (∀ s ∈ S, mget stI.versions s = none ∧ mget st0.versions s ≠ none) →
      Inv (pruneLoop toRemove cs stI removed) ∧
      (pruneLoop toRemove cs stI removed).rootId = st0.rootId ∧
      (pruneLoop toRemove cs stI removed).currentId = st0.currentId ∧
      (pruneLoop toRemove cs stI removed).maxVersions = st0.maxVersions ∧
      (pruneLoop toRemove cs stI removed).nextId = st0.nextId ∧
      (pruneLoop toRemove cs stI removed).clock = st0.clock ∧
      (∀ j w', mget (pruneLoop toRemove cs stI removed).versions j = some w' →
        ∃ w0, mget st0.versions j = some w0 ∧ w'.data = w0.data ∧ w'.delta = w0.delta ∧
          w'.parentId = w0.parentId ∧ w'.lastAccessed = w0.lastAccessed ∧ w'.id = w0.id) ∧
      (∀ cur x, st0.currentId = some cur → Reach st0.versions cur x →
        mget (pruneLoop toRemove cs stI removed).versions x ≠ none) ∧
      ((pruneLoop toRemove cs stI removed).cache = stI.cache ∨
        (pruneLoop toRemove cs stI removed).cache = []) ∧
      (toRemove ≤ removed + (cs.filter (fun c =>
          !(isInCurrentPath st0 c.id || decide (st0.rootId = some c.id)))).length →
        (pruneLoop toRemove cs stI removed).versions.length + toRemove ≤
          st0.versions.length) := by
  intro cs
  induction cs with
  | nil =>
    intro toRemove stI removed S hII hcands hndc hdisj hr hc hm hn hk hpay hlive hndS hSlen hS
    refine ⟨hII, hr, hc, hm, hn, hk, ?_, ?_, Or.inl rfl, ?_⟩
    · intro j w' hj
      exact hpay j w' hj
    · intro cur x hcur hre
      exact hlive cur x hcur hre
    · intro hcnt
      simp only [List.filter_nil, List.length_nil] at hcnt
      have hb := survivor_count_bound hII.nodupKeys hndS hS
        (fun j hj => by
          cases hx : mget stI.versions j with
          | none => exact absurd hx hj
          | some w' =>
            obtain ⟨w0, hw0, _⟩ := hpay j w' hx
            rw [hw0]
            exact Option.some_ne_none _)
      show stI.versions.length + toRemove ≤ st0.versions.length
      omega
  | cons v cs' ih =>
    intro toRemove stI removed S hII hcands hndc hdisj hr hc hm hn hk hpay hlive hndS hSlen hS
    rw [pruneLoop_cons]
    by_cases hstop : toRemove ≤ removed
    · rw [if_pos hstop]
      refine ⟨hII, hr, hc, hm, hn, hk, ?_, ?_, Or.inl rfl, ?_⟩
      · intro j w' hj
        exact hpay j w' hj
      · intro cur x hcur hre
        exact hlive cur x hcur hre
      · intro _
        have hb := survivor_count_bound hII.nodupKeys hndS hS
          (fun j hj => by
            cases hx : mget stI.versions j with
            | none => exact absurd hx hj
            | some w' =>
              obtain ⟨w0, hw0, _⟩ := hpay j w' hx
              rw [hw0]
              exact Option.some_ne_none _)
        omega
    · rw [if_neg hstop]
      have hpatheq : ∀ x, isInCurrentPath stI x = isInCurrentPath st0 x :=
        isInCurrentPath_transfer hI0 hII hc
          (fun j w' hj => by
            obtain ⟨w0, hw0, _, _, hp, _, _⟩ := hpay j w' hj
            exact ⟨w0, hw0, hp⟩)
          hlive
      have hndc' : (cs'.map (fun c => c.id)).Nodup := by
        rw [List.map_cons] at hndc
        exact hndc.of_cons
      have hheadnotin : v.id ∉ cs'.map (fun c => c.id) := by
        rw [List.map_cons] at hndc
        exact (List.nodup_cons.mp hndc).1
      by_cases hin : isInCurrentPath stI v.id = true
      · rw [if_pos hin]
        obtain ⟨g1, g2, g3, g4, g5, g6, g7, g8, g9, g10⟩ :=
          ih toRemove stI removed S hII
            (fun c hc' => hcands c (List.mem_cons_of_mem _ hc'))
            hndc' (fun c hc' => hdisj c (List.mem_cons_of_mem _ hc'))
            hr hc hm hn hk hpay hlive hndS hSlen hS
        refine ⟨g1, g2, g3, g4, g5, g6, g7, g8, g9, ?_⟩
        intro hcnt
        apply g10
        have hne : (!(isInCurrentPath st0 v.id || decide (st0.rootId = some v.id)))
            = false := by
          rw [← hpatheq v.id, hin]
          rfl
        rw [List.filter_cons, if_neg (by simp [hne])] at hcnt
        exact hcnt
      · rw [if_neg hin]
        by_cases hrt : stI.rootId = some v.id
        · rw [if_pos hrt]
          obtain ⟨g1, g2, g3, g4, g5, g6, g7, g8, g9, g10⟩ :=
            ih toRemove stI removed S hII
              (fun c hc' => hcands c (List.mem_cons_of_mem _ hc'))
              hndc' (fun c hc' => hdisj c (List.mem_cons_of_mem _ hc'))
              hr hc hm hn hk hpay hlive hndS hSlen hS
          refine ⟨g1, g2, g3, g4, g5, g6, g7, g8, g9, ?_⟩
          intro hcnt
          apply g10
          have hrt0 : st0.rootId = some v.id := by rw [← hr]; exact hrt
          have hne : (!(isInCurrentPath st0 v.id || decide (st0.rootId = some v.id)))
              = false := by
            simp [hrt0]
          rw [List.filter_cons, if_neg (by simp [hne])] at hcnt
          exact hcnt
        · rw [if_neg hrt]
          have hvid0 : mget st0.versions v.id = some v := hcands v (List.mem_cons_self _ _)
          have hcand : ∀ w, mget stI.versions v.id = some w → w.parentId = v.parentId := by
            intro w hw
            obtain ⟨w0, hw0, _, _, hp, _, _⟩ := hpay v.id w hw
            rw [hw0] at hvid0
            injection hvid0 with hvv
            rw [hp, hvv]
          have hvid0' : mget st0.versions v.id = some v := hcands v (List.mem_cons_self _ _)
          have hinF : isInCurrentPath stI v.id = false := by
            cases hxx : isInCurrentPath stI v.id
            · rfl
            · exact absurd hxx hin
          obtain ⟨s1, s2, s3, s4, s5, s6, s7, s8, s9⟩ := pruneStep_char hII hcand hinF hrt
          have hreachCur : ∀ cur x, st0.currentId = some cur → Reach st0.versions cur x →
              Reach stI.versions cur x := by
            intro cur x hcur hre
            obtain ⟨n, hn⟩ := hre
            refine ⟨n, iterChain_transfer
              (fun j w' hj => by
                obtain ⟨w0, hw0, _, _, hp, _, _⟩ := hpay j w' hj
                exact ⟨w0, hw0, hp⟩) hn ?_⟩
            intro i _ y hy
            exact hlive cur y hcur ⟨i, hy⟩
          have hlive2 : ∀ cur x, st0.currentId = some cur → Reach st0.versions cur x →
              mget (pruneStep stI v).versions x ≠ none := by
            intro cur x hcur hre hcon
            rcases (s2 x).mp hcon with h | h
            · exact hlive cur x hcur hre h
            · have hreach : Reach stI.versions cur v.id :=
                reach_trans (hreachCur cur x hcur hre) h
              obtain ⟨rnkI, hrnkI⟩ := hII.acyclic
              have := (isInCurrentPath_iff_reach hrnkI
                (by rw [hc]; exact hcur) v.id).mpr hreach
              rw [hinF] at this
              cases this
          obtain ⟨g1, g2, g3, g4, g5, g6, g7, g8, g9, g10⟩ :=
            ih toRemove (pruneStep stI v) (removed + 1) (v.id :: S) s1
              (fun c hc' => hcands c (List.mem_cons_of_mem _ hc'))
              hndc'
              (fun c hc' hmem => by
                rcases List.mem_cons.mp hmem with hh | hh
                · exact hheadnotin (hh ▸ List.mem_map_of_mem (fun c => c.id) hc')
                · exact hdisj c (List.mem_cons_of_mem _ hc') hh)
              (s3.trans hr) (s4.trans hc) (s5.trans hm) (s6.trans hn) (s7.trans hk)
              (fun j w' hj => by
                obtain ⟨w1, hw1, d1, d2, d3, d4, d5⟩ := s8 j w' hj
                obtain ⟨w0, hw0, e1, e2, e3, e4, e5⟩ := hpay j w1 hw1
                exact ⟨w0, hw0, d1.trans e1, d2.trans e2, d3.trans e3,
                  d4.trans e4, d5.trans e5⟩)
              hlive2
              (List.nodup_cons.mpr ⟨hdisj v (List.mem_cons_self _ _), hndS⟩)
              (by simp [hSlen])
              (fun s hs => by
                rcases List.mem_cons.mp hs with hvs | hs'
                · rw [hvs]
                  refine ⟨(s2 v.id).mpr (Or.inr (reach_refl _ _)), ?_⟩
                  rw [hvid0']
                  exact Option.some_ne_none _
                · exact ⟨(s2 s).mpr (Or.inl (hS s hs').1), (hS s hs').2⟩)
          refine ⟨g1, g2, g3, g4, g5, g6, g7, g8, ?_, ?_⟩
          · rcases g9 with h | h
            · rcases s9 with h2 | h2
              · rw [h, h2]
                exact Or.inl rfl
              · rw [h, h2]
                exact Or.inr rfl
            · exact Or.inr h
          · intro hcnt
            apply g10
            have hrt0 : ¬ st0.rootId = some v.id := by rw [← hr]; exact hrt
            have hyes : (!(isInCurrentPath st0 v.id || decide (st0.rootId = some v.id)))
                = true := by
              rw [← hpatheq v.id, hinF]
              simp [hrt0]
            rw [List.filter_cons, if_pos (by simp [hyes])] at hcnt
            simp only [List.length_cons] at hcnt
            omega

theorem length_filter_map {γ δ : Type} (l : List γ) (f : γ → δ) (q : δ → Bool) :
    ((l.map f).filter q).length = (l.filter (fun e => q (f e))).length := by
  induction l with
  | nil => rfl
  | cons a l ih =>
    rw [List.map_cons, List.filter_cons, List.filter_cons]
    by_cases h : q (f a) = true
    · rw [if_pos h, if_pos h]
      simp only [List.length_cons]
      omega
    · rw [if_neg h, if_neg h]
      exact ih

theorem rankedVersions_mem {st : VCState α} (hI : Inv st) :
    ∀ v ∈ rankedVersions st, mget st.versions v.id = some v := by
  intro v hv
  have hv' : v ∈ st.versions.map Prod.snd :=
    (List.perm_insertionSort _ _).mem_iff.mp hv
  obtain ⟨e, he, hev⟩ := List.mem_map.mp hv'
  have hkey : e.2.id = e.1 := hI.keyMatch e he
  have hmem : (v.id, v) ∈ st.versions := by
    rw [← hev, hkey]
    exact he
  exact mget_of_mem_nodup hI.nodupKeys hmem

theorem rankedVersions_nodup {st : VCState α} (hI : Inv st) :
    ((rankedVersions st).map (fun c => c.id)).Nodup := by
  have hperm : List.Perm ((rankedVersions st).map (fun c => c.id))
      ((st.versions.map Prod.snd).map (fun c => c.id)) :=
    List.Perm.map _ (List.perm_insertionSort _ _)
  rw [List.Perm.nodup_iff hperm, List.map_map]
  have heq : st.versions.map ((fun c => c.id) ∘ Prod.snd) = keysOf st.versions := by
    apply List.map_congr_left
    intro e he
    exact hI.keyMatch e he
  rw [heq]
  exact hI.nodupKeys

theorem rankedVersions_elig_count {st : VCState α} (hI : Inv st) :
    ((rankedVersions st).filter (fun c =>
      !(isInCurrentPath st c.id || decide (st.rootId = some c.id)))).length =
    eligibleCount st := by
  have hperm : List.Perm
      ((rankedVersions st).filter (fun c =>
        !(isInCurrentPath st c.id || decide (st.rootId = some c.id))))
      ((st.versions.map Prod.snd).filter (fun c =>
        !(isInCurrentPath st c.id || decide (st.rootId = some c.id)))) :=
    List.Perm.filter _ (List.perm_insertionSort _ _)
  rw [hperm.length_eq, length_filter_map]
  unfold eligibleCount
  rw [show keysOf st.versions = st.versions.map Prod.fst from rfl, length_filter_map]
  have hcongr : List.filter
      (fun e => !(isInCurrentPath st (Prod.snd e).id ||
        decide (st.rootId = some (Prod.snd e).id))) st.versions =
      List.filter (fun e => !(isInCurrentPath st (Prod.fst e) ||
        decide (st.rootId = some (Prod.fst e)))) st.versions := by
    apply List.filter_congr
    intro e he
    rw [hI.keyMatch e he]
  rw [hcongr]

theorem iterChain_live {st : VCState α} (hI : Inv st) :
    ∀ cur x, st.currentId = some cur → Reach st.versions cur x →
      mget st.versions x ≠ none := by
  intro cur x hcur hre
  obtain ⟨n, hn⟩ := hre
  cases n with
  | zero =>
    rw [iterChain] at hn
    injection hn with hn
    rw [← hn]
    exact hI.currMem cur hcur
  | succ n =>
    obtain ⟨y, _, hyp⟩ := iterChain_last hn
    obtain ⟨wy, hwy, hwyp⟩ : ∃ wy, mget st.versions y = some wy ∧
        wy.parentId = some x := by
      rw [parentOf] at hyp
      cases hx : mget st.versions y with
      | none => rw [hx] at hyp; cases hyp
      | some wy => rw [hx] at hyp; exact ⟨wy, rfl, hyp⟩
    exact hI.parentMem (y, wy) (mget_eq_some_mem hwy) x hwyp

theorem pruneOldVersions_char {st : VCState α} (hI : Inv st) (fr : Nat) :
    Inv (pruneOldVersions st fr) ∧
    (pruneOldVersions st fr).rootId = st.rootId ∧
    (pruneOldVersions st fr).currentId = st.currentId ∧
    (pruneOldVersions st fr).maxVersions = st.maxVersions ∧
    (pruneOldVersions st fr).nextId = st.nextId ∧
    (pruneOldVersions st fr).clock = st.clock ∧
    (∀ j w', mget (pruneOldVersions st fr).versions j = some w' →
      ∃ w0, mget st.versions j = some w0 ∧ w'.data = w0.data ∧ w'.delta = w0.delta ∧
        w'.parentId = w0.parentId ∧ w'.lastAccessed = w0.lastAccessed ∧ w'.id = w0.id) ∧
    (∀ cur x, st.currentId = some cur → Reach st.versions cur x →
      mget (pruneOldVersions st fr).versions x ≠ none) ∧
    ((pruneOldVersions st fr).cache = st.cache ∨ (pruneOldVersions st fr).cache = []) ∧
    (st.versions.length -
        (if 0 < fr then st.versions.length - fr else st.maxVersions) ≤
          eligibleCount st →
      (pruneOldVersions st fr).versions.length ≤
        (if 0 < fr then st.versions.length - fr else st.maxVersions)) := by
  have hdef : pruneOldVersions st fr =
      if st.versions.length ≤
          (if 0 < fr then st.versions.length - fr else st.maxVersions) then st
      else pruneLoop
        (st.versions.length - (if 0 < fr then st.versions.length - fr else st.maxVersions))
        (rankedVersions st) st 0 := rfl
  by_cases hsz : st.versions.length ≤
      (if 0 < fr then st.versions.length - fr else st.maxVersions)
  · rw [hdef, if_pos hsz]
    refine ⟨hI, rfl, rfl, rfl, rfl, rfl, ?_, ?_, Or.inl rfl, ?_⟩
    · intro j w' hj
      exact ⟨w', hj, rfl, rfl, rfl, rfl, rfl⟩
    · intro cur x hcur hre
      exact iterChain_live hI cur x hcur hre
    · intro _
      exact hsz
  · rw [hdef, if_neg hsz]
    obtain ⟨g1, g2, g3, g4, g5, g6, g7, g8, g9, g10⟩ :=
      pruneLoop_master hI (rankedVersions st)
        (st.versions.length - (if 0 < fr then st.versions.length - fr else st.maxVersions))
        st 0 [] hI (rankedVersions_mem hI) (rankedVersions_nodup hI)
        (fun c _ hmem => List.not_mem_nil _ hmem)
        rfl rfl rfl rfl rfl
        (fun j w' hj => ⟨w', hj, rfl, rfl, rfl, rfl, rfl⟩)
        (iterChain_live hI)
        List.nodup_nil rfl
        (fun s hs => absurd hs (List.not_mem_nil _))
    refine ⟨g1, g2, g3, g4, g5, g6, g7, g8, g9, ?_⟩
    intro hcnt
    have hcnt' := g10 (by rw [rankedVersions_elig_count hI]; omega)
    omega

/-! ## resolveData agrees with pure resolution -/

theorem resolveDataAux_sound {st : VCState α} (hck : CacheOK st) :
    ∀ (fuel id : Nat) (L : List α),
      (resolveDataAux fuel st id).1 = some L → Resolves st.versions id L := by
  intro fuel
  induction fuel with
  | zero =>
    intro id L h
    simp [resolveDataAux] at h
  | succ fuel ih =>
    intro id L h
    cases hv : mget st.versions id with
    | none => simp [resolveDataAux, hv] at h
    | some v =>
      cases hc : mget st.cache id with
      | some r =>
        simp only [resolveDataAux, hv, hc] at h
        injection h with h
        rw [← h]
        exact hck (id, r) (mget_eq_some_mem hc)
      | none =>
        cases hd : v.data with
        | some d =>
          simp only [resolveDataAux, hv, hc, hd, cachePut] at h
          injection h with h
          exact ⟨1, by rw [resolveNC_succ_data hv hd, h]⟩
        | none =>
          cases hδ : v.delta with
          | none => simp [resolveDataAux, hv, hc, hd, hδ] at h
          | some δ =>
            cases hp : v.parentId with
            | none => simp [resolveDataAux, hv, hc, hd, hδ, hp] at h
            | some p =>
              simp only [resolveDataAux, hv, hc, hd, hδ, hp] at h
              cases hr : (resolveDataAux fuel st p).1 with
              | none =>
                rw [hr] at h
                simp at h
              | some pd =>
                rw [hr] at h
                simp only [cachePut] at h
                injection h with h
                obtain ⟨f0, hf0⟩ := ih p pd hr
                refine ⟨f0 + 1, ?_⟩
                rw [resolveNC_succ_delta hv hd hδ hp, hf0]
                simp [h]

theorem resolveDataAux_complete {st : VCState α} (hck : CacheOK st) :
    ∀ (fuel id : Nat) (L : List α),
      resolveNC st.versions fuel id = some L →
      (resolveDataAux fuel st id).1 = some L := by
  intro fuel
  induction fuel with
  | zero =>
    intro id L h
    cases h
  | succ fuel ih =>
    intro id L h
    obtain ⟨v, hv, hcase⟩ := resolveNC_succ_inv h
    cases hc : mget st.cache id with
    | some r =>
      have hres : Resolves st.versions id r := hck (id, r) (mget_eq_some_mem hc)
      have hrL : r = L := resolves_det hres ⟨fuel + 1, h⟩
      simp only [resolveDataAux, hv, hc]
      rw [hrL]
    | none =>
      rcases hcase with hd | ⟨hd, δ, p, P, hδ, hp, hres, hL⟩
      · rw [resolveNC_succ_data hv hd] at h
        injection h with h
        simp [resolveDataAux, hv, hc, hd, cachePut, h]
      · have hihp := ih p P hres
        simp only [resolveDataAux, hv, hc, hd, hδ, hp]
        rw [hihp]
        simp [cachePut, hL]

theorem resolveData_sound {st : VCState α} (hck : CacheOK st) {id : Nat} {L : List α}
    (h : (resolveData st id).1 = some L) : Resolves st.versions id L :=
  resolveDataAux_sound hck _ id L h

theorem resolveData_complete {st : VCState α} {rnk : Nat → Nat}
    (hrnk : ParentRank st.versions rnk) (hck : CacheOK st) {id : Nat} {L : List α}
    (h : Resolves st.versions id L) : (resolveData st id).1 = some L :=
  resolveDataAux_complete hck _ id L (resolves_resolveTop hrnk h)

/-! ## Effect of a commit -/

theorem createVersion_eq (sz : α → Nat) (st : VCState α) (data : List α)
    (descr : String) :
    createVersion sz st data descr =
      ((createVersionNoPrune sz st data descr).1,
       if (createVersionNoPrune sz st data descr).2.maxVersions <
           (createVersionNoPrune sz st data descr).2.versions.length then
         pruneOldVersions (createVersionNoPrune sz st data descr).2 0
       else (createVersionNoPrune sz st data descr).2) := rfl

theorem mset_length {m : List (Nat × Version α)} {k : Nat} (v : Version α) :
    (mset m k v).length = if k ∈ keysOf m then m.length else m.length + 1 := by
  by_cases h : k ∈ keysOf m
  · rw [if_pos h]
    have h1 : (keysOf (mset m k v)).length = (keysOf m).length := by
      rw [keysOf_mset_of_mem v h]
    simpa [keysOf] using h1
  · rw [if_neg h]
    have h1 : (keysOf (mset m k v)).length = (keysOf m).length + 1 := by
      rw [keysOf_mset_of_not_mem v h]
      simp
    simpa [keysOf] using h1

theorem singleton_inv {st' : VCState α} {N : Nat} {nv : Version α}
    (hv : st'.versions = [(N, nv)]) (hr : st'.rootId = some N)
    (hc : st'.currentId = some N) (hn : N < st'.nextId)
    (hid : nv.id = N) (hp : nv.parentId = none) (hch : nv.children = []) :
    Inv st' := by
  have hmem : ∀ e ∈ st'.versions, e = (N, nv) := by
    intro e he
    rw [hv] at he
    simpa using he
  have hget : mget st'.versions N = some nv := by
    rw [hv]
    simp [mget]
  constructor
  · rw [hv]
    simp [keysOf]
  · intro e he
    rw [hmem e he, hid]
  · intro e he
    rw [hmem e he]
    exact hn
  · constructor
    · intro h
      rw [hr] at h
      cases h
    · intro h
      rw [h] at hget
      simp [mget] at hget
  · constructor
    · intro h
      rw [hc] at h
      cases h
    · intro h
      rw [h] at hget
      simp [mget] at hget
  · intro r hrr
    rw [hr] at hrr
    injection hrr with hrr
    rw [← hrr, hget]
    exact Option.some_ne_none _
  · intro c hcc
    rw [hc] at hcc
    injection hcc with hcc
    rw [← hcc, hget]
    exact Option.some_ne_none _
  · intro e he
    rw [hmem e he]
    constructor
    · intro _
      rw [hr]
    · intro _
      exact hp
  · intro e he p hpe
    rw [hmem e he] at hpe
    rw [hp] at hpe
    cases hpe
  · intro e he
    rw [hmem e he, hch]
    exact List.nodup_nil
  · intro e he c hcc
    rw [hmem e he, hch] at hcc
    cases hcc
  · intro ce hce pe hpe hpp
    rw [hmem ce hce, hp] at hpp
    cases hpp
  · refine ⟨fun _ => 0, ?_⟩
    intro e he p hpe
    rw [hmem e he, hp] at hpe
    cases hpe

theorem insertAt_char {st : VCState α} (hI : Inv st) {cid : Nat}
    {parent0 nv : Version α}
    (hpar : mget st.versions cid = some parent0)
    (hnvid : nv.id = st.nextId) (hnvp : nv.parentId = some cid)
    (hnvch : nv.children = []) :
    ∀ st3 : VCState α, st3.versions = mset (mset st.versions cid
        { parent0 with children := parent0.children ++ [st.nextId] }) st.nextId nv →
      st3.rootId = st.rootId → st3.currentId = some st.nextId →
      st3.nextId = st.nextId + 1 →
      Inv st3 ∧
      st3.versions.length = st.versions.length + 1 ∧
      mget st3.versions st.nextId = some nv ∧
      PayloadExt st.versions st3.versions ∧
      (∀ j w', mget st3.versions j = some w' →
        j = st.nextId ∨ ∃ w0, mget st.versions j = some w0) := by
  intro st3 hv3 hr3 hc3 hn3
  obtain ⟨rnk, hrnk⟩ := hI.acyclic
  have hcidlt : cid < st.nextId := hI.keysLt (cid, parent0) (mget_eq_some_mem hpar)
  have hcidne : cid ≠ st.nextId := by omega
  have hfresh : mget st.versions st.nextId = none := by
    cases hx : mget st.versions st.nextId with
    | none => rfl
    | some w =>
      exact absurd (hI.keysLt (st.nextId, w) (mget_eq_some_mem hx)) (lt_irrefl _)
  have hNk : st.nextId ∉ keysOf st.versions := by
    intro hk
    exact ((mget_none_iff _ _).mp hfresh) hk
  have hcidk : cid ∈ keysOf st.versions :=
    List.mem_map_of_mem Prod.fst (mget_eq_some_mem hpar)
  have hget : ∀ x, mget st3.versions x =
      if x = st.nextId then some nv
      else if x = cid then
        some { parent0 with children := parent0.children ++ [st.nextId] }
      else mget st.versions x := by
    intro x
    rw [hv3]
    by_cases hxN : x = st.nextId
    · rw [hxN, if_pos rfl, mget_mset_self]
    · rw [if_neg hxN, mget_mset_ne _ _ _ _ hxN]
      by_cases hxc : x = cid
      · rw [hxc, if_pos rfl, mget_mset_self]
      · rw [if_neg hxc, mget_mset_ne _ _ _ _ hxc]
  have hkeys : keysOf st3.versions = keysOf st.versions ++ [st.nextId] := by
    rw [hv3]
    rw [keysOf_mset_of_not_mem nv (by
      rw [keysOf_mset_of_mem _ hcidk]
      exact hNk)]
    rw [keysOf_mset_of_mem _ hcidk]
  have hnd3 : (keysOf st3.versions).Nodup := by
    rw [hkeys, List.nodup_append]
    refine ⟨hI.nodupKeys, List.nodup_singleton _, ?_⟩
    intro a ha hb
    rw [List.mem_singleton] at hb
    rw [hb] at ha
    exact hNk ha
  have hsurv : ∀ j w', mget st3.versions j = some w' →
      (j = st.nextId ∧ w' = nv) ∨
      (j = cid ∧ w' = { parent0 with children := parent0.children ++ [st.nextId] }) ∨
      (j ≠ st.nextId ∧ j ≠ cid ∧ mget st.versions j = some w') := by
    intro j w' hj
    rw [hget] at hj
    by_cases hjN : j = st.nextId
    · rw [if_pos hjN] at hj
      injection hj with hj
      exact Or.inl ⟨hjN, hj.symm⟩
    · rw [if_neg hjN] at hj
      by_cases hjc : j = cid
      · rw [if_pos hjc] at hj
        injection hj with hj
        exact Or.inr (Or.inl ⟨hjc, hj.symm⟩)
      · rw [if_neg hjc] at hj
        exact Or.inr (Or.inr ⟨hjN, hjc, hj⟩)
  have hmem3 : ∀ e ∈ st3.versions, mget st3.versions e.1 = some e.2 :=
    fun e he => mget_of_mem_nodup hnd3 he
  have hchold : ∀ e ∈ st.versions, ∀ c ∈ e.2.children, c ≠ st.nextId := by
    intro e he c hc hcN
    have hpo := hI.chBack e he c hc
    rw [hcN, parentOf, hfresh] at hpo
    cases hpo
  have hpo3 : ∀ x, x ≠ st.nextId →
      parentOf st3.versions x = parentOf st.versions x := by
    intro x hx
    rw [parentOf, parentOf, hget, if_neg hx]
    by_cases hxc : x = cid
    · rw [if_pos hxc, hxc, hpar]
      rfl
    · rw [if_neg hxc]
  have hInv : Inv st3 := by
    constructor
    · exact hnd3
    · intro e he
      rcases hsurv e.1 e.2 (hmem3 e he) with ⟨h1, h2⟩ | ⟨h1, h2⟩ | ⟨_, _, h3⟩
      · rw [h2, hnvid, h1]
      · rw [h2]
        show parent0.id = e.1
        rw [h1]
        exact hI.keyMatch (cid, parent0) (mget_eq_some_mem hpar)
      · exact hI.keyMatch (e.1, e.2) (mget_eq_some_mem h3)
    · intro e he
      rw [hn3]
      rcases hsurv e.1 e.2 (hmem3 e he) with ⟨h1, _⟩ | ⟨h1, _⟩ | ⟨_, _, h3⟩
      · rw [h1]
        omega
      · rw [h1]
        omega
      · have := hI.keysLt (e.1, e.2) (mget_eq_some_mem h3)
        omega
    · constructor
      · intro h
        rw [hr3] at h
        have hemp := hI.rootNone.mp h
        rw [hemp] at hpar
        simp [mget] at hpar
      · intro h
        have h2 : mget st3.versions st.nextId = some nv := by
          rw [hget]
          simp
        rw [h] at h2
        simp [mget] at h2
    · constructor
      · intro h
        rw [hc3] at h
        cases h
      · intro h
        have h2 : mget st3.versions st.nextId = some nv := by
          rw [hget]
          simp
        rw [h] at h2
        simp [mget] at h2
    · intro r hrr
      rw [hr3] at hrr
      have hrm := hI.rootMem r hrr
      rw [hget]
      by_cases hrN : r = st.nextId
      · rw [if_pos hrN]
        exact Option.some_ne_none _
      · rw [if_neg hrN]
        by_cases hrc : r = cid
        · rw [if_pos hrc]
          exact Option.some_ne_none _
        · rw [if_neg hrc]
          exact hrm
    · intro c hcc
      rw [hc3] at hcc
      injection hcc with hcc
      rw [← hcc, hget]
      simp
    · intro e he
      rw [hr3]
      rcases hsurv e.1 e.2 (hmem3 e he) with ⟨h1, h2⟩ | ⟨h1, h2⟩ | ⟨_, _, h3⟩
      · constructor
        · intro hcontra
          rw [h2, hnvp] at hcontra
          cases hcontra
        · intro hcontra
          exfalso
          rw [h1] at hcontra
          exact (hI.rootMem st.nextId hcontra) hfresh
      · constructor
        · intro hpe
          rw [h2] at hpe
          have hpe0 : parent0.parentId = none := hpe
          rw [h1]
          exact (hI.parentRootIff (cid, parent0) (mget_eq_some_mem hpar)).mp hpe0
        · intro hre
          rw [h2]
          show parent0.parentId = none
          rw [h1] at hre
          exact (hI.parentRootIff (cid, parent0) (mget_eq_some_mem hpar)).mpr hre
      · exact hI.parentRootIff (e.1, e.2) (mget_eq_some_mem h3)
    · intro e he p hp
      rcases hsurv e.1 e.2 (hmem3 e he) with ⟨h1, h2⟩ | ⟨h1, h2⟩ | ⟨hne1, hne2, h3⟩
      · rw [h2, hnvp] at hp
        injection hp with hp
        rw [← hp, hget, if_neg hcidne, if_pos rfl]
        exact Option.some_ne_none _
      · rw [h2] at hp
        have hp0 : parent0.parentId = some p := hp
        have hmem := hI.parentMem (cid, parent0) (mget_eq_some_mem hpar) p hp0
        rw [hget]
        by_cases hpN : p = st.nextId
        · rw [hpN] at hmem
          exact absurd hfresh hmem
        · rw [if_neg hpN]
          by_cases hpc : p = cid
          · rw [if_pos hpc]
            exact Option.some_ne_none _
          · rw [if_neg hpc]
            exact hmem
      · have hmem := hI.parentMem (e.1, e.2) (mget_eq_some_mem h3) p hp
        rw [hget]
        by_cases hpN : p = st.nextId
        · rw [hpN] at hmem
          exact absurd hfresh hmem
        · rw [if_neg hpN]
          by_cases hpc : p = cid
          · rw [if_pos hpc]
            exact Option.some_ne_none _
          · rw [if_neg hpc]
            exact hmem
    · intro e he
      rcases hsurv e.1 e.2 (hmem3 e he) with ⟨_, h2⟩ | ⟨_, h2⟩ | ⟨_, _, h3⟩
      · rw [h2, hnvch]
        exact List.nodup_nil
      · rw [h2]
        show (parent0.children ++ [st.nextId]).Nodup
        refine List.Nodup.append
          (hI.childNodup (cid, parent0) (mget_eq_some_mem hpar))
          (List.nodup_singleton _) ?_
        intro a ha hb
        rw [List.mem_singleton] at hb
        exact hchold (cid, parent0) (mget_eq_some_mem hpar) a ha hb
      · exact hI.childNodup (e.1, e.2) (mget_eq_some_mem h3)
    · intro e he c hc
      rcases hsurv e.1 e.2 (hmem3 e he) with ⟨h1, h2⟩ | ⟨h1, h2⟩ | ⟨hne1, hne2, h3⟩
      · rw [h2, hnvch] at hc
        cases hc
      · rw [h2] at hc
        have hc' : c ∈ parent0.children ++ [st.nextId] := hc
        rcases List.mem_append.mp hc' with hco | hcn
        · have hpo := hI.chBack (cid, parent0) (mget_eq_some_mem hpar) c hco
          have hcne : c ≠ st.nextId :=
            hchold (cid, parent0) (mget_eq_some_mem hpar) c hco
          rw [hpo3 c hcne, h1]
          exact hpo
        · rw [List.mem_singleton] at hcn
          rw [hcn, parentOf, hget, if_pos rfl]
          simp only [Option.some_bind]
          rw [h1]
          exact hnvp
      · have hpo := hI.chBack (e.1, e.2) (mget_eq_some_mem h3) c hc
        have hcne : c ≠ st.nextId := hchold (e.1, e.2) (mget_eq_some_mem h3) c hc
        rw [hpo3 c hcne]
        exact hpo
    · intro ce hce pe hpe hpp
      rcases hsurv ce.1 ce.2 (hmem3 ce hce) with ⟨h1, h2⟩ | hrest
      · rw [h2, hnvp] at hpp
        injection hpp with hpp
        rcases hsurv pe.1 pe.2 (hmem3 pe hpe) with ⟨g1, _⟩ | ⟨g1, g2⟩ | ⟨_, gne2, _⟩
        · exfalso
          rw [← hpp] at g1
          exact hcidne g1
        · rw [g2]
          show ce.1 ∈ parent0.children ++ [st.nextId]
          rw [h1]
          exact List.mem_append_right _ (List.mem_singleton_self _)
        · exact absurd hpp.symm gne2
      · obtain ⟨u, hu, hup⟩ : ∃ u, mget st.versions ce.1 = some u ∧
            ce.2.parentId = u.parentId := by
          rcases hrest with ⟨h1, h2⟩ | ⟨_, _, h3⟩
          · refine ⟨parent0, by rw [h1]; exact hpar, ?_⟩
            rw [h2]
          · exact ⟨ce.2, h3, rfl⟩
        have hpp' : u.parentId = some pe.1 := by
          rw [← hup]
          exact hpp
        have hpeN : pe.1 ≠ st.nextId := by
          intro hh
          have := hI.parentMem (ce.1, u) (mget_eq_some_mem hu) pe.1 hpp'
          rw [hh] at this
          exact this hfresh
        rcases hsurv pe.1 pe.2 (hmem3 pe hpe) with ⟨g1, _⟩ | ⟨g1, g2⟩ | ⟨_, _, g3⟩
        · exact absurd g1 hpeN
        · rw [g2]
          show ce.1 ∈ parent0.children ++ [st.nextId]
          refine List.mem_append_left _ ?_
          exact hI.chFull (ce.1, u) (mget_eq_some_mem hu) (cid, parent0)
            (mget_eq_some_mem hpar) (by rw [hpp', g1])
        · exact hI.chFull (ce.1, u) (mget_eq_some_mem hu) (pe.1, pe.2)
            (mget_eq_some_mem g3) hpp'
    · refine ⟨fun x => if x = st.nextId then rnk cid + 1 else rnk x, ?_⟩
      intro e he p hp
      show (if p = st.nextId then rnk cid + 1 else rnk p) <
        (if e.1 = st.nextId then rnk cid + 1 else rnk e.1)
      rcases hsurv e.1 e.2 (hmem3 e he) with ⟨h1, h2⟩ | ⟨h1, h2⟩ | ⟨hne1, hne2, h3⟩
      · rw [h2, hnvp] at hp
        injection hp with hp
        rw [h1, ← hp, if_neg hcidne, if_pos rfl]
        omega
      · rw [h2] at hp
        have hp0 : parent0.parentId = some p := hp
        have hrnklt := hrnk (cid, parent0) (mget_eq_some_mem hpar) p hp0
        have hpN : p ≠ st.nextId := by
          intro hh
          have := hI.parentMem (cid, parent0) (mget_eq_some_mem hpar) p hp0
          rw [hh] at this
          exact this hfresh
        rw [h1, if_neg hpN, if_neg hcidne]
        exact hrnklt
      · have hrnklt := hrnk (e.1, e.2) (mget_eq_some_mem h3) p hp
        have hpN : p ≠ st.nextId := by
          intro hh
          have := hI.parentMem (e.1, e.2) (mget_eq_some_mem h3) p hp
          rw [hh] at this
          exact this hfresh
        rw [if_neg hpN, if_neg hne1]
        exact hrnklt
  refine ⟨hInv, ?_, ?_, ?_, ?_⟩
  · rw [hv3, mset_length, keysOf_mset_of_mem _ hcidk, if_neg hNk,
      mset_length, if_pos hcidk]
  · rw [hget]
    simp
  · intro k v hk
    by_cases hkN : k = st.nextId
    · rw [hkN, hfresh] at hk
      cases hk
    · by_cases hkc : k = cid
      · refine ⟨{ parent0 with children := parent0.children ++ [st.nextId] }, ?_, ?_⟩
        · rw [hget, if_neg hkN, if_pos hkc]
        · rw [hkc, hpar] at hk
          injection hk with hk
          rw [← hk]
          exact ⟨rfl, rfl, rfl⟩
      · refine ⟨v, ?_, ⟨rfl, rfl, rfl⟩⟩
        rw [hget, if_neg hkN, if_neg hkc]
        exact hk
  · intro j w' hj
    rcases hsurv j w' hj with ⟨h1, _⟩ | ⟨h1, _⟩ | ⟨_, _, h3⟩
    · exact Or.inl h1
    · exact Or.inr ⟨parent0, by rw [h1]; exact hpar⟩
    · exact Or.inr ⟨w', h3⟩

theorem createGlue {st : VCState α} (hI : Inv st) {cid : Nat} {parent0 : Version α}
    (hpar : mget st.versions cid = some parent0)
    (out : Version α × VCState α)
    (hnvid : out.1.id = st.nextId) (hnvp : out.1.parentId = some cid)
    (hnvch : out.1.children = [])
    (hv3 : out.2.versions = mset (mset st.versions cid
      { parent0 with children := parent0.children ++ [st.nextId] }) st.nextId out.1)
    (hr3 : out.2.rootId = st.rootId) (hc3 : out.2.currentId = some st.nextId)
    (hm3 : out.2.maxVersions = st.maxVersions) (hn3 : out.2.nextId = st.nextId + 1)
    (hk3 : out.2.cache = []) :
    Inv out.2 ∧ out.1.id = st.nextId ∧ out.2.currentId = some st.nextId ∧
    out.2.maxVersions = st.maxVersions ∧ out.2.nextId = st.nextId + 1 ∧
    out.2.cache = [] ∧ out.2.versions.length = st.versions.length + 1 ∧
    mget out.2.versions st.nextId = some out.1 ∧
    PayloadExt st.versions out.2.versions ∧
    (∀ j w', mget out.2.versions j = some w' →
      j = st.nextId ∨ ∃ w0, mget st.versions j = some w0) ∧
    (st.currentId ≠ none → out.2.rootId = st.rootId) := by
  obtain ⟨c1, c2, c3, c4, c5⟩ :=
    insertAt_char hI hpar hnvid hnvp hnvch out.2 hv3 hr3 hc3 hn3
  exact ⟨c1, hnvid, hc3, hm3, hn3, hk3, c2, c3, c4, c5, fun _ => hr3⟩

theorem createVersionNoPrune_char (sz : α → Nat) {st : VCState α} (hI : Inv st)
    (data : List α) (descr : String) :
    Inv (createVersionNoPrune sz st data descr).2 ∧
    (createVersionNoPrune sz st data descr).1.id = st.nextId ∧
    (createVersionNoPrune sz st data descr).2.currentId = some st.nextId ∧
    (createVersionNoPrune sz st data descr).2.maxVersions = st.maxVersions ∧
    (createVersionNoPrune sz st data descr).2.nextId = st.nextId + 1 ∧
    (createVersionNoPrune sz st data descr).2.cache = [] ∧
    (createVersionNoPrune sz st data descr).2.versions.length =
      st.versions.length + 1 ∧
    mget (createVersionNoPrune sz st data descr).2.versions st.nextId =
      some (createVersionNoPrune sz st data descr).1 ∧
    PayloadExt st.versions (createVersionNoPrune sz st data descr).2.versions ∧
    (∀ j w', mget (createVersionNoPrune sz st data descr).2.versions j = some w' →
      j = st.nextId ∨ ∃ w0, mget st.versions j = some w0) ∧
    (st.currentId ≠ none →
      (createVersionNoPrune sz st data descr).2.rootId = st.rootId) ∧
    (CacheOK st →
      Resolves (createVersionNoPrune sz st data descr).2.versions st.nextId data) := by
  cases hcur : st.currentId with
  | none =>
    have hemp : st.versions = [] := hI.currNone.mp hcur
    have hred : createVersionNoPrune sz st data descr =
        ({ id := st.nextId, parentId := none, children := [],
           timestamp := st.clock, description := descr, wordCount := data.length,
           lastAccessed := st.clock, data := some data, delta := none },
         { versions := mset st.versions st.nextId
             { id := st.nextId, parentId := none, children := [],
               timestamp := st.clock, description := descr, wordCount := data.length,
               lastAccessed := st.clock, data := some data, delta := none }
           rootId := some st.nextId
           currentId := some st.nextId
           maxVersions := st.maxVersions
           nextId := st.nextId + 1
           clock := st.clock + 1
           cache := [] }) := by
      simp only [createVersionNoPrune, hcur]
    rw [hred]
    have hmg : mget (mset st.versions st.nextId
        ({ id := st.nextId, parentId := none, children := [],
           timestamp := st.clock, description := descr, wordCount := data.length,
           lastAccessed := st.clock, data := some data, delta := none } : Version α))
        st.nextId = some
        { id := st.nextId, parentId := none, children := [],
          timestamp := st.clock, description := descr, wordCount := data.length,
          lastAccessed := st.clock, data := some data, delta := none } :=
      mget_mset_self _ _ _
    refine ⟨?_, rfl, rfl, rfl, rfl, rfl, ?_, hmg, ?_, ?_, ?_, ?_⟩
    · exact singleton_inv (by show mset st.versions _ _ = _; rw [hemp]; rfl)
        rfl rfl (by show st.nextId < st.nextId + 1; omega) rfl rfl rfl
    · show (mset st.versions st.nextId _).length = st.versions.length + 1
      rw [hemp]
      rfl
    · intro k v hk
      rw [hemp] at hk
      simp [mget] at hk
    · intro j w' hj
      by_cases hjN : j = st.nextId
      · exact Or.inl hjN
      · exfalso
        rw [hemp] at hj
        simp only [mset, mget] at hj
        rw [if_neg (fun h => hjN h.symm)] at hj
        cases hj
    · intro h
      exact absurd rfl h
    · intro _
      exact ⟨1, resolveNC_succ_data hmg rfl⟩
  | some cid =>
    obtain ⟨parent0, hpar⟩ : ∃ p0, mget st.versions cid = some p0 := by
      cases hx : mget st.versions cid with
      | none => exact absurd hx (hI.currMem cid hcur)
      | some p0 => exact ⟨p0, rfl⟩
    obtain ⟨fv1, fv2, fv3, fv4, fv5, fv6, _⟩ :=
      resolveDataAux_frame (st.versions.length + 1) st cid
    have hv1 : (resolveData st cid).2.versions = st.versions := fv1
    have hr1 : (resolveData st cid).2.rootId = st.rootId := fv2
    have hm1 : (resolveData st cid).2.maxVersions = st.maxVersions := fv4
    have hn1 : (resolveData st cid).2.nextId = st.nextId := fv5
    have hk1 : (resolveData st cid).2.clock = st.clock := fv6
    cases hrr : (resolveData st cid).1 with
    | none =>
      have hred : createVersionNoPrune sz st data descr =
          ({ id := st.nextId, parentId := some cid, children := [],
             timestamp := st.clock, description := descr, wordCount := data.length,
             lastAccessed := st.clock, data := some data, delta := none },
           { versions := mset (mset st.versions cid
               { parent0 with children := parent0.children ++ [st.nextId] }) st.nextId
               { id := st.nextId, parentId := some cid, children := [],
                 timestamp := st.clock, description := descr,
                 wordCount := data.length, lastAccessed := st.clock,
                 data := some data, delta := none }
             rootId := (resolveData st cid).2.rootId
             currentId := some st.nextId
             maxVersions := (resolveData st cid).2.maxVersions
             nextId := (resolveData st cid).2.nextId + 1
             clock := (resolveData st cid).2.clock + 1
             cache := [] }) := by
        simp only [createVersionNoPrune, hcur, hrr, hv1, hpar]
      obtain ⟨g1, g2, g3, g4, g5, g6, g7, g8, g9, g10, g11⟩ :=
        createGlue hI hpar (createVersionNoPrune sz st data descr)
          (by rw [hred]) (by rw [hred]) (by rw [hred]) (by rw [hred])
          (by rw [hred]; exact hr1) (by rw [hred]) (by rw [hred]; exact hm1)
          (by rw [hred, hn1]) (by rw [hred])
      refine ⟨g1, g2, g3, g4, g5, g6, g7, g8, g9, g10, fun _ => g11 (by simp [hcur]), ?_⟩
      intro _
      have g8s : mget (createVersionNoPrune sz st data descr).2.versions st.nextId =
          some ({ id := st.nextId, parentId := some cid, children := [],
                  timestamp := st.clock, description := descr,
                  wordCount := data.length, lastAccessed := st.clock,
                  data := some data, delta := none } : Version α) := by
        rw [hred] at g8 ⊢
        exact g8
      exact ⟨1, resolveNC_succ_data g8s rfl⟩
    | some parentData =>
      by_cases hif : deltaDepth st.versions (some cid) < 9 ∧
          10 * jsonLenDelta sz (computeDelta parentData data) <
            6 * jsonLenList sz data
      · have hred : createVersionNoPrune sz st data descr =
            ({ id := st.nextId, parentId := some cid, children := [],
               timestamp := st.clock, description := descr, wordCount := data.length,
               lastAccessed := st.clock, data := none,
               delta := some (computeDelta parentData data) },
             { versions := mset (mset st.versions cid
                 { parent0 with children := parent0.children ++ [st.nextId] }) st.nextId
                 { id := st.nextId, parentId := some cid, children := [],
                   timestamp := st.clock, description := descr,
                   wordCount := data.length, lastAccessed := st.clock,
                   data := none, delta := some (computeDelta parentData data) }
               rootId := (resolveData st cid).2.rootId
               currentId := some st.nextId
               maxVersions := (resolveData st cid).2.maxVersions
               nextId := (resolveData st cid).2.nextId + 1
               clock := (resolveData st cid).2.clock + 1
               cache := [] }) := by
          simp only [createVersionNoPrune, hcur, hrr, hv1, hpar, if_pos hif]
        obtain ⟨g1, g2, g3, g4, g5, g6, g7, g8, g9, g10, g11⟩ :=
          createGlue hI hpar (createVersionNoPrune sz st data descr)
            (by rw [hred]) (by rw [hred]) (by rw [hred]) (by rw [hred])
            (by rw [hred]; exact hr1) (by rw [hred]) (by rw [hred]; exact hm1)
            (by rw [hred, hn1]) (by rw [hred])
        refine ⟨g1, g2, g3, g4, g5, g6, g7, g8, g9, g10, fun _ => g11 (by simp [hcur]), ?_⟩
        intro hck
        obtain ⟨f0, hf0⟩ := resolveData_sound hck hrr
        have hpe : resolveNC (createVersionNoPrune sz st data descr).2.versions f0 cid
            = some parentData := resolveNC_payloadExt g9 hf0
        have g8d : mget (createVersionNoPrune sz st data descr).2.versions st.nextId =
            some ({ id := st.nextId, parentId := some cid, children := [],
                    timestamp := st.clock, description := descr,
                    wordCount := data.length, lastAccessed := st.clock,
                    data := none,
                    delta := some (computeDelta parentData data) } : Version α) := by
          rw [hred] at g8 ⊢
          exact g8
        have hrt : applyDelta parentData (computeDelta parentData data) = data :=
          computeDeltaGo_roundtrip data (buildFp parentData) (buildFp_ok parentData).1
        refine ⟨f0 + 1, ?_⟩
        rw [resolveNC_succ_delta g8d rfl rfl rfl, hpe]
        simp [hrt]
      · have hred : createVersionNoPrune sz st data descr =
            ({ id := st.nextId, parentId := some cid, children := [],
               timestamp := st.clock, description := descr, wordCount := data.length,
               lastAccessed := st.clock, data := some data, delta := none },
             { versions := mset (mset st.versions cid
                 { parent0 with children := parent0.children ++ [st.nextId] }) st.nextId
                 { id := st.nextId, parentId := some cid, children := [],
                   timestamp := st.clock, description := descr,
                   wordCount := data.length, lastAccessed := st.clock,
                   data := some data, delta := none }
               rootId := (resolveData st cid).2.rootId
               currentId := some st.nextId
               maxVersions := (resolveData st cid).2.maxVersions
               nextId := (resolveData st cid).2.nextId + 1
               clock := (resolveData st cid).2.clock + 1
               cache := [] }) := by
          simp only [createVersionNoPrune, hcur, hrr, hv1, hpar, if_neg hif]
        obtain ⟨g1, g2, g3, g4, g5, g6, g7, g8, g9, g10, g11⟩ :=
          createGlue hI hpar (createVersionNoPrune sz st data descr)
            (by rw [hred]) (by rw [hred]) (by rw [hred]) (by rw [hred])
            (by rw [hred]; exact hr1) (by rw [hred]) (by rw [hred]; exact hm1)
            (by rw [hred, hn1]) (by rw [hred])
        refine ⟨g1, g2, g3, g4, g5, g6, g7, g8, g9, g10, fun _ => g11 (by simp [hcur]), ?_⟩
        intro _
        have g8s : mget (createVersionNoPrune sz st data descr).2.versions st.nextId =
            some ({ id := st.nextId, parentId := some cid, children := [],
                    timestamp := st.clock, description := descr,
                    wordCount := data.length, lastAccessed := st.clock,
                    data := some data, delta := none } : Version α) := by
          rw [hred] at g8 ⊢
          exact g8
        exact ⟨1, resolveNC_succ_data g8s rfl⟩

theorem resolves_present {m : List (Nat × Version α)} {id : Nat} {L : List α}
    (h : Resolves m id L) : mget m id ≠ none := by
  obtain ⟨f, hf⟩ := h
  cases f with
  | zero => cases hf
  | succ f =>
    obtain ⟨v, hv, _⟩ := resolveNC_succ_inv hf
    rw [hv]
    exact Option.some_ne_none _

theorem createVersion_char (sz : α → Nat) {st : VCState α} (hI : Inv st)
    (data : List α) (descr : String) :
    Inv (createVersion sz st data descr).2 ∧
    (createVersion sz st data descr).1.id = st.nextId ∧
    (createVersion sz st data descr).2.currentId = some st.nextId ∧
    (createVersion sz st data descr).2.maxVersions = st.maxVersions ∧
    (createVersion sz st data descr).2.nextId = st.nextId + 1 ∧
    (createVersion sz st data descr).2.cache = [] ∧
    mget (createVersion sz st data descr).2.versions st.nextId ≠ none ∧
    (∀ j w', mget (createVersion sz st data descr).2.versions j = some w' →
      j = st.nextId ∨ ∃ w0, mget st.versions j = some w0) ∧
    (CacheOK st →
      Resolves (createVersion sz st data descr).2.versions st.nextId data) ∧
    (∀ j L, mget (createVersion sz st data descr).2.versions j ≠ none →
      Resolves st.versions j L →
      Resolves (createVersion sz st data descr).2.versions j L) ∧
    (st.currentId ≠ none → (createVersion sz st data descr).2.rootId = st.rootId) ∧
    (Good st → Good (createVersion sz st data descr).2) := by
  obtain ⟨c1, c2, c3, c4, c5, c6, c7, c8, c9, c10, c11, c12⟩ :=
    createVersionNoPrune_char sz hI data descr
  rw [createVersion_eq]
  by_cases hcap : (createVersionNoPrune sz st data descr).2.maxVersions <
      (createVersionNoPrune sz st data descr).2.versions.length
  · rw [if_pos hcap]
    dsimp only
    obtain ⟨p1, p2, p3, p4, p5, p6, p7, p8, p9, p10⟩ := pruneOldVersions_char c1 0
    have hsh : ShrinkMap (pruneOldVersions (createVersionNoPrune sz st data descr).2
        0).versions (createVersionNoPrune sz st data descr).2.versions := by
      intro j w' hj
      obtain ⟨w0, hw0, d1, d2, d3, _, _⟩ := p7 j w' hj
      exact ⟨w0, hw0, d1, d2, d3⟩
    have hcl : ParentClosed (pruneOldVersions (createVersionNoPrune sz st data descr).2
        0).versions := by
      intro j w p hj hp
      exact p1.parentMem (j, w) (mget_eq_some_mem hj) p hp
    have htrans : ∀ j L,
        mget (pruneOldVersions (createVersionNoPrune sz st data descr).2 0).versions j
          ≠ none →
        Resolves (createVersionNoPrune sz st data descr).2.versions j L →
        Resolves (pruneOldVersions (createVersionNoPrune sz st data descr).2 0).versions
          j L := by
      intro j L hpres h
      obtain ⟨f, hf⟩ := h
      exact ⟨f, resolveNC_shrink hsh hcl hf hpres⟩
    have hnewlive : mget (pruneOldVersions
        (createVersionNoPrune sz st data descr).2 0).versions st.nextId ≠ none :=
      p8 st.nextId st.nextId c3 (reach_refl _ _)
    refine ⟨p1, c2, p3.trans c3, p4.trans c4, p5.trans c5, ?_, hnewlive, ?_, ?_, ?_,
      ?_, ?_⟩
    · rcases p9 with h | h
      · rw [h]
        exact c6
      · exact h
    · intro j w' hj
      obtain ⟨w0, hw0, _⟩ := p7 j w' hj
      exact c10 j w0 hw0
    · intro hck
      exact htrans _ _ hnewlive (c12 hck)
    · intro j L hpres hres
      have hst3 : Resolves (createVersionNoPrune sz st data descr).2.versions j L := by
        obtain ⟨f, hf⟩ := hres
        exact ⟨f, resolveNC_payloadExt c9 hf⟩
      exact htrans j L hpres hst3
    · intro h
      exact p2.trans (c11 h)
    · rintro ⟨_, hck0, hall⟩
      refine ⟨p1, ?_, ?_⟩
      · intro e he
        exfalso
        rcases p9 with h | h
        · rw [h, c6] at he
          cases he
        · rw [h] at he
          cases he
      · intro e he
        have hj := mget_of_mem_nodup p1.nodupKeys he
        obtain ⟨w0, hw0, _⟩ := p7 e.1 e.2 hj
        have hjpres : mget (pruneOldVersions
            (createVersionNoPrune sz st data descr).2 0).versions e.1 ≠ none := by
          rw [hj]
          exact Option.some_ne_none _
        rcases c10 e.1 w0 hw0 with hnew | ⟨wOrig, hwOrig⟩
        · refine ⟨data, ?_⟩
          rw [hnew]
          exact htrans _ _ hnewlive (c12 hck0)
        · obtain ⟨L, hL⟩ := hall (e.1, wOrig) (mget_eq_some_mem hwOrig)
          refine ⟨L, htrans e.1 L hjpres ?_⟩
          obtain ⟨f, hf⟩ := hL
          exact ⟨f, resolveNC_payloadExt c9 hf⟩
  · rw [if_neg hcap]
    dsimp only
    refine ⟨c1, c2, c3, c4, c5, c6, ?_, c10, c12, ?_, c11, ?_⟩
    · rw [c8]
      exact Option.some_ne_none _
    · intro j L hpres hres
      obtain ⟨f, hf⟩ := hres
      exact ⟨f, resolveNC_payloadExt c9 hf⟩
    · rintro ⟨_, hck0, hall⟩
      refine ⟨c1, ?_, ?_⟩
      · intro e he
        rw [c6] at he
        cases he
      · intro e he
        have hj := mget_of_mem_nodup c1.nodupKeys he
        rcases c10 e.1 e.2 hj with hnew | ⟨wOrig, hwOrig⟩
        · refine ⟨data, ?_⟩
          rw [hnew]
          exact c12 hck0
        · obtain ⟨L, hL⟩ := hall (e.1, wOrig) (mget_eq_some_mem hwOrig)
          obtain ⟨f, hf⟩ := hL
          exact ⟨L, f, resolveNC_payloadExt c9 hf⟩

/-! ## Invariant preservation by the navigation operations -/

theorem touch_inv {st : VCState α} (hI : Inv st) {t : Nat} {v : Version α}
    (hv : mget st.versions t = some v) :
    ∀ st' : VCState α,
      st'.versions = mset st.versions t { v with lastAccessed := st.clock } →
      st'.rootId = st.rootId → st'.currentId = some t →
      st'.nextId = st.nextId →
      Inv st' := by
  intro st' hv' hr' hc' hn'
  have htk : t ∈ keysOf st.versions :=
    List.mem_map_of_mem Prod.fst (mget_eq_some_mem hv)
  have hkeys : keysOf st'.versions = keysOf st.versions := by
    rw [hv']
    exact keysOf_mset_of_mem _ htk
  have hget : ∀ x, mget st'.versions x =
      if x = t then some { v with lastAccessed := st.clock }
      else mget st.versions x := by
    intro x
    rw [hv']
    by_cases hx : x = t
    · rw [hx, if_pos rfl, mget_mset_self]
    · rw [if_neg hx, mget_mset_ne _ _ _ _ hx]
  have hnd' : (keysOf st'.versions).Nodup := by
    rw [hkeys]
    exact hI.nodupKeys
  have hsurv : ∀ j w', mget st'.versions j = some w' →
      ∃ w0, mget st.versions j = some w0 ∧ w'.id = w0.id ∧
        w'.parentId = w0.parentId ∧ w'.children = w0.children := by
    intro j w' hj
    rw [hget] at hj
    by_cases hjt : j = t
    · rw [if_pos hjt] at hj
      injection hj with hj
      refine ⟨v, by rw [hjt]; exact hv, ?_, ?_, ?_⟩ <;> rw [← hj]
    · rw [if_neg hjt] at hj
      exact ⟨w', hj, rfl, rfl, rfl⟩
  have hmem' : ∀ e ∈ st'.versions, mget st'.versions e.1 = some e.2 :=
    fun e he => mget_of_mem_nodup hnd' he
  have hpo' : ∀ x, parentOf st'.versions x = parentOf st.versions x := by
    intro x
    rw [hv']
    exact parentOf_mset_children hv
      (show ({ v with lastAccessed := st.clock } : Version α).parentId = v.parentId
        from rfl) x
  have hpres : ∀ x, mget st'.versions x = none ↔ mget st.versions x = none :=
    mget_none_iff_keys hkeys
  constructor
  · exact hnd'
  · intro e he
    obtain ⟨w0, hw0, h1, _, _⟩ := hsurv e.1 e.2 (hmem' e he)
    rw [h1]
    exact hI.keyMatch (e.1, w0) (mget_eq_some_mem hw0)
  · intro e he
    rw [hn']
    obtain ⟨w0, hw0, _⟩ := hsurv e.1 e.2 (hmem' e he)
    exact hI.keysLt (e.1, w0) (mget_eq_some_mem hw0)
  · constructor
    · intro h
      rw [hr'] at h
      have hemp := hI.rootNone.mp h
      rw [hemp] at hv
      simp [mget] at hv
    · intro h
      have h2 : mget st'.versions t ≠ none := by
        rw [hget, if_pos rfl]
        exact Option.some_ne_none _
      rw [h] at h2
      exact absurd rfl h2
  · constructor
    · intro h
      rw [hc'] at h
      cases h
    · intro h
      have h2 : mget st'.versions t ≠ none := by
        rw [hget, if_pos rfl]
        exact Option.some_ne_none _
      rw [h] at h2
      exact absurd rfl h2
  · intro r hrr
    rw [hr'] at hrr
    rw [Ne, hpres r]
    exact hI.rootMem r hrr
  · intro c hcc
    rw [hc'] at hcc
    injection hcc with hcc
    rw [← hcc, Ne, hpres t]
    rw [hv]
    exact Option.some_ne_none _
  · intro e he
    obtain ⟨w0, hw0, _, h2, _⟩ := hsurv e.1 e.2 (hmem' e he)
    rw [h2, hr']
    exact hI.parentRootIff (e.1, w0) (mget_eq_some_mem hw0)
  · intro e he p hp
    obtain ⟨w0, hw0, _, h2, _⟩ := hsurv e.1 e.2 (hmem' e he)
    rw [Ne, hpres p]
    exact hI.parentMem (e.1, w0) (mget_eq_some_mem hw0) p (by rw [← h2]; exact hp)
  · intro e he
    obtain ⟨w0, hw0, _, _, h3⟩ := hsurv e.1 e.2 (hmem' e he)
    rw [h3]
    exact hI.childNodup (e.1, w0) (mget_eq_some_mem hw0)
  · intro e he c hc
    obtain ⟨w0, hw0, _, _, h3⟩ := hsurv e.1 e.2 (hmem' e he)
    rw [h3] at hc
    rw [hpo' c]
    exact hI.chBack (e.1, w0) (mget_eq_some_mem hw0) c hc
  · intro ce hce pe hpe hpp
    obtain ⟨u1, hu1, _, h2, _⟩ := hsurv ce.1 ce.2 (hmem' ce hce)
    obtain ⟨u2, hu2, _, _, h3⟩ := hsurv pe.1 pe.2 (hmem' pe hpe)
    rw [h3]
    exact hI.chFull (ce.1, u1) (mget_eq_some_mem hu1) (pe.1, u2)
      (mget_eq_some_mem hu2) (by rw [← h2]; exact hpp)
  · obtain ⟨rnk, hrnk⟩ := hI.acyclic
    refine ⟨rnk, ?_⟩
    intro e he p hp
    obtain ⟨w0, hw0, h1, h2, _⟩ := hsurv e.1 e.2 (hmem' e he)
    exact hrnk (e.1, w0) (mget_eq_some_mem hw0) p (by rw [← h2]; exact hp)

theorem goToVersion_inv {st : VCState α} (hI : Inv st) (id : Nat) :
    Inv (goToVersion st id).2 := by
  cases hv : mget st.versions id with
  | none =>
    have : (goToVersion st id).2 = st := by
      simp [goToVersion, hv]
    rw [this]
    exact hI
  | some v =>
    have hred : (goToVersion st id).2 =
        { st with versions := mset st.versions id { v with lastAccessed := st.clock }
                  currentId := some id
                  clock := st.clock + 1 } := by
      simp [goToVersion, hv]
    rw [hred]
    exact touch_inv hI hv _ rfl rfl rfl rfl

theorem undo_inv {st : VCState α} (hI : Inv st) : Inv (undo st).2 := by
  cases hc : st.currentId with
  | none =>
    have hred : undo st = (none, st) := by
      simp [undo, canUndo, hc]
    rw [hred]
    exact hI
  | some cid =>
    cases hcur : mget st.versions cid with
    | none =>
      have hred : undo st = (none, st) := by
        simp [undo, canUndo, hc, hcur]
      rw [hred]
      exact hI
    | some cur =>
      cases hp : cur.parentId with
      | none =>
        have hred : undo st = (none, st) := by
          simp [undo, canUndo, hc, hcur, hp]
        rw [hred]
        exact hI
      | some pid =>
        have hpv : mget st.versions pid ≠ none :=
          hI.parentMem (cid, cur) (mget_eq_some_mem hcur) pid hp
        cases hpar : mget st.versions pid with
        | none => exact absurd hpar hpv
        | some p =>
          have hred : (undo st).2 = { st with
              versions := mset st.versions pid { p with lastAccessed := st.clock }
              currentId := some pid
              clock := st.clock + 1 } := by
            simp [undo, canUndo, hc, hcur, hp, hpar]
          rw [hred]
          exact touch_inv hI hpar _ rfl rfl rfl rfl

theorem redo_inv {st : VCState α} (hI : Inv st) : Inv (redo st).2 := by
  cases hc : st.currentId with
  | none =>
    have hred : redo st = (none, st) := by
      simp [redo, canRedo, hc]
    rw [hred]
    exact hI
  | some cid =>
    cases hcur : mget st.versions cid with
    | none =>
      have hred : redo st = (none, st) := by
        simp [redo, canRedo, hc, hcur]
      rw [hred]
      exact hI
    | some cur =>
      cases hch : cur.children with
      | nil =>
        have hred : redo st = (none, st) := by
          simp [redo, canRedo, hc, hcur, hch]
        rw [hred]
        exact hI
      | cons c0 rest =>
        have hempF : cur.children.isEmpty = false := by
          rw [hch]
          rfl
        have hne : cur.children ≠ [] := by
          rw [hch]
          simp
        have hall : ∀ c ∈ cur.children, mget st.versions c ≠ none := by
          intro c hcc
          have hpo := hI.chBack (cid, cur) (mget_eq_some_mem hcur) c hcc
          intro hno
          rw [parentOf, hno] at hpo
          cases hpo
        obtain ⟨b, wb, l1, l2, hb, hwb, _, _, _⟩ :=
          getMostRecentChild_spec st.versions cur.children hne hall
        have hred : (redo st).2 = { st with
            versions := mset st.versions b { wb with lastAccessed := st.clock }
            currentId := some b
            clock := st.clock + 1 } := by
          simp [redo, canRedo, hc, hcur, hempF, hb, hwb]
        rw [hred]
        exact touch_inv hI hwb _ rfl rfl rfl rfl

/-! ## C1: commits round-trip through storage -/

theorem commit_step_tracks (sz : α → Nat) {st : VCState α} {g : Nat → List α}
    (hG : Good st) (hT : TracksGhost st g) (d : List α) (descr : String) :
    Good (createVersion sz st d descr).2 ∧
    TracksGhost (createVersion sz st d descr).2
      (fun j => if j = st.nextId then d else g j) := by
  obtain ⟨c1, c2, c3, c4, c5, c6, c7, c8, c9, c10, c11, c12⟩ :=
    createVersion_char sz hG.inv d descr
  refine ⟨c12 hG, ?_⟩
  intro e he
  have hG' := c12 hG
  have hj := mget_of_mem_nodup hG'.inv.nodupKeys he
  obtain ⟨rnk', hrnk'⟩ := hG'.inv.acyclic
  by_cases hjN : e.1 = st.nextId
  · have hres : Resolves (createVersion sz st d descr).2.versions st.nextId d :=
      c9 hG.cacheOK
    have hrt := resolves_resolveTop hrnk' hres
    rw [hjN]
    simp only [if_pos rfl]
    exact hrt
  · rcases c8 e.1 e.2 hj with h | ⟨w0, hw0⟩
    · exact absurd h hjN
    · have hTj : resolveTop st.versions e.1 = some (g e.1) :=
        hT (e.1, w0) (mget_eq_some_mem hw0)
      have hResSt : Resolves st.versions e.1 (g e.1) :=
        ⟨st.versions.length + 1, hTj⟩
      have hpres : mget (createVersion sz st d descr).2.versions e.1 ≠ none := by
        rw [hj]
        exact Option.some_ne_none _
      have hres' := c10 e.1 (g e.1) hpres hResSt
      have hrt := resolves_resolveTop hrnk' hres'
      simp only [if_neg hjN]
      exact hrt

theorem commitMany_tracks (sz : α → Nat) :
    ∀ (cs : List (List α × String)) (st : VCState α) (g : Nat → List α),
      Good st → TracksGhost st g →
      Good (commitMany sz st cs) ∧
      TracksGhost (commitMany sz st cs) (ghostMany sz st g cs) := by
  intro cs
  induction cs with
  | nil =>
    intro st g hG hT
    exact ⟨hG, hT⟩
  | cons c cs ih =>
    intro st g hG hT
    obtain ⟨hG', hT'⟩ := commit_step_tracks sz hG hT c.1 c.2
    exact ih (createVersion sz st c.1 c.2).2 _ hG' hT'

theorem invOneNode : Inv oneNodeSt :=
  ⟨by decide, by decide, by decide, by decide, by decide, by decide, by decide,
   by decide, by decide, by decide, by decide, by decide,
   ⟨fun _ => 0, by unfold ParentRank; decide⟩⟩

theorem goodOneNode : Good oneNodeSt := by
  refine ⟨invOneNode, ?_, ?_⟩
  · intro e he
    simp [oneNodeSt] at he
  · intro e he
    rw [show oneNodeSt.versions =
      [(0, ⟨0, none, [], 0, "init", 0, 0, some [], none⟩)] from rfl] at he
    rcases List.mem_singleton.mp he with rfl
    exact ⟨[], 1, by decide⟩

theorem tracksOneNode : TracksGhost oneNodeSt (fun _ => ([] : List Nat)) := by
  unfold TracksGhost
  decide

/-- C1: from any good state whose present nodes each resolve to the
collection recorded at their creation (ledger `g`), after an arbitrary
sequence of `createVersion` calls every node still present resolves --
through the actual `resolveData` method -- to exactly the collection that
was passed to `createVersion` when that node was created (the ledger
extended by one entry per commit), whether the node was stored as a full
snapshot or as a delta against its parent. -/
theorem claim1_commit_roundtrip (sz : α → Nat) {st : VCState α} {g : Nat → List α}
    (hG : Good st) (hT : TracksGhost st g) (cs : List (List α × String)) :
    ∀ e ∈ (commitMany sz st cs).versions,
      (resolveData (commitMany sz st cs) e.1).1 =
        some (ghostMany sz st g cs e.1) := by
  obtain ⟨hG', hT'⟩ := commitMany_tracks sz cs st g hG hT
  intro e he
  obtain ⟨rnk, hrnk⟩ := hG'.inv.acyclic
  exact resolveData_complete hrnk hG'.cacheOK ⟨_, hT' e he⟩

theorem claim1_witness :
    (resolveData (commitMany szNat oneNodeSt [([5], "w")]) 1).1 =
      some (ghostMany szNat oneNodeSt (fun _ => []) [([5], "w")] 1) := by
  cases hmg : mget (commitMany szNat oneNodeSt [([5], "w")]).versions 1 with
  | none => exact absurd hmg (by decide)
  | some w =>
    exact claim1_commit_roundtrip szNat goodOneNode tracksOneNode [([5], "w")]
      (1, w) (mget_eq_some_mem hmg)

/-! ## C7: eviction safety -/

theorem commitMany_good (sz : α → Nat) :
    ∀ (cs : List (List α × String)) (st : VCState α), Good st →
      Good (commitMany sz st cs) := by
  intro cs
  induction cs with
  | nil =>
    intro st h
    exact h
  | cons c cs ih =>
    intro st hG
    obtain ⟨_, _, _, _, _, _, _, _, _, _, _, c12⟩ :=
      createVersion_char sz hG.inv c.1 c.2
    exact ih _ (c12 hG)

/-- C7: after any number of commits (each of which runs the capacity prune
when over the cap), the root and every node on the current path are still
present and `resolveData` still succeeds on them; and whenever the prune a
commit triggers can see at least as many eligible (non-root,
non-current-path) nodes as the overflow, the resulting node count is at or
below the capacity. -/
theorem claim7_eviction_safety (sz : α → Nat) {st : VCState α} (hG : Good st)
    (cs : List (List α × String)) :
    (∀ r, (commitMany sz st cs).rootId = some r →
      mget (commitMany sz st cs).versions r ≠ none ∧
      ∃ L, (resolveData (commitMany sz st cs) r).1 = some L) ∧
    (∀ x, isInCurrentPath (commitMany sz st cs) x = true →
      mget (commitMany sz st cs).versions x ≠ none ∧
      ∃ L, (resolveData (commitMany sz st cs) x).1 = some L) ∧
    (∀ (s : VCState α) (d : List α) (ds : String), Good s →
      (createVersionNoPrune sz s d ds).2.maxVersions <
        (createVersionNoPrune sz s d ds).2.versions.length →
      (createVersionNoPrune sz s d ds).2.versions.length -
        (createVersionNoPrune sz s d ds).2.maxVersions ≤
        eligibleCount (createVersionNoPrune sz s d ds).2 →
      (createVersion sz s d ds).2.versions.length ≤ s.maxVersions) := by
  have hGF := commitMany_good sz cs st hG
  obtain ⟨rnkF, hrnkF⟩ := hGF.inv.acyclic
  refine ⟨?_, ?_, ?_⟩
  · intro r hr
    have hpres := hGF.inv.rootMem r hr
    obtain ⟨w, hw⟩ : ∃ w, mget (commitMany sz st cs).versions r = some w := by
      cases hx : mget (commitMany sz st cs).versions r with
      | none => exact absurd hx hpres
      | some w => exact ⟨w, rfl⟩
    obtain ⟨L, hL⟩ := hGF.allRes (r, w) (mget_eq_some_mem hw)
    exact ⟨hpres, L, resolveData_complete hrnkF hGF.cacheOK hL⟩
  · intro x hx
    cases hc : (commitMany sz st cs).currentId with
    | none =>
      rw [isInCurrentPath_none hc x] at hx
      cases hx
    | some cur =>
      have hre := (isInCurrentPath_iff_reach hrnkF hc x).mp hx
      have hpres := iterChain_live hGF.inv cur x hc hre
      obtain ⟨w, hw⟩ : ∃ w, mget (commitMany sz st cs).versions x = some w := by
        cases hx2 : mget (commitMany sz st cs).versions x with
        | none => exact absurd hx2 hpres
        | some w => exact ⟨w, rfl⟩
      obtain ⟨L, hL⟩ := hGF.allRes (x, w) (mget_eq_some_mem hw)
      exact ⟨hpres, L, resolveData_complete hrnkF hGF.cacheOK hL⟩
  · intro s d ds hGs hover helig
    obtain ⟨c1, _, _, c4, _, _, _, _, _, _, _, _⟩ :=
      createVersionNoPrune_char sz hGs.inv d ds
    rw [createVersion_eq, if_pos hover]
    dsimp only
    obtain ⟨_, _, _, _, _, _, _, _, _, p10⟩ := pruneOldVersions_char c1 0
    have hcnt := p10 (by simpa using helig)
    rw [c4] at hcnt
    simpa using hcnt

theorem claim7_witness :
    mget (commitMany szNat oneNodeSt [([5], "w")]).versions 0 ≠ none ∧
    (∃ L, (resolveData (commitMany szNat oneNodeSt [([5], "w")]) 1).1 = some L) := by
  obtain ⟨h1, h2, _⟩ := claim7_eviction_safety szNat goodOneNode [([5], "w")]
  exact ⟨(h1 0 (by decide)).1, (h2 1 (by decide)).2⟩

/-! ## C6: delete-and-reparent -/

theorem payload_update_inv {st : VCState α} (hI : Inv st) {t : Nat} {v v' : Version α}
    (hv : mget st.versions t = some v) (hid : v'.id = v.id)
    (hp : v'.parentId = v.parentId) (hch : v'.children = v.children) :
    ∀ st' : VCState α, st'.versions = mset st.versions t v' →
      st'.rootId = st.rootId → st'.currentId = st.currentId →
      st'.nextId = st.nextId → Inv st' := by
  intro st' hv' hr' hc' hn'
  have htk : t ∈ keysOf st.versions :=
    List.mem_map_of_mem Prod.fst (mget_eq_some_mem hv)
  have hkeys : keysOf st'.versions = keysOf st.versions := by
    rw [hv']
    exact keysOf_mset_of_mem _ htk
  have hget : ∀ x, mget st'.versions x =
      if x = t then some v' else mget st.versions x := by
    intro x
    rw [hv']
    by_cases hx : x = t
    · rw [hx, if_pos rfl, mget_mset_self]
    · rw [if_neg hx, mget_mset_ne _ _ _ _ hx]
  have hnd' : (keysOf st'.versions).Nodup := by
    rw [hkeys]
    exact hI.nodupKeys
  have hsurv : ∀ j w', mget st'.versions j = some w' →
      ∃ w0, mget st.versions j = some w0 ∧ w'.id = w0.id ∧
        w'.parentId = w0.parentId ∧ w'.children = w0.children := by
    intro j w' hj
    rw [hget] at hj
    by_cases hjt : j = t
    · rw [if_pos hjt] at hj
      injection hj with hj
      rw [← hj]
      exact ⟨v, by rw [hjt]; exact hv, hid, hp, hch⟩
    · rw [if_neg hjt] at hj
      exact ⟨w', hj, rfl, rfl, rfl⟩
  have hmem' : ∀ e ∈ st'.versions, mget st'.versions e.1 = some e.2 :=
    fun e he => mget_of_mem_nodup hnd' he
  have hpo' : ∀ x, parentOf st'.versions x = parentOf st.versions x := by
    intro x
    rw [hv']
    exact parentOf_mset_children hv hp x
  have hpres : ∀ x, mget st'.versions x = none ↔ mget st.versions x = none :=
    mget_none_iff_keys hkeys
  have hne' : st'.versions ≠ [] := by
    intro h
    have h2 : mget st'.versions t ≠ none := by
      rw [hget, if_pos rfl]
      exact Option.some_ne_none _
    rw [h] at h2
    exact h2 rfl
  constructor
  · exact hnd'
  · intro e he
    obtain ⟨w0, hw0, h1, _, _⟩ := hsurv e.1 e.2 (hmem' e he)
    rw [h1]
    exact hI.keyMatch (e.1, w0) (mget_eq_some_mem hw0)
  · intro e he
    rw [hn']
    obtain ⟨w0, hw0, _⟩ := hsurv e.1 e.2 (hmem' e he)
    exact hI.keysLt (e.1, w0) (mget_eq_some_mem hw0)
  · constructor
    · intro h
      rw [hr'] at h
      have hemp := hI.rootNone.mp h
      rw [hemp] at hv
      simp [mget] at hv
    · intro h
      exact absurd h hne'
  · constructor
    · intro h
      rw [hc'] at h
      have hemp := hI.currNone.mp h
      rw [hemp] at hv
      simp [mget] at hv
    · intro h
      exact absurd h hne'
  · intro r hrr
    rw [hr'] at hrr
    rw [Ne, hpres r]
    exact hI.rootMem r hrr
  · intro c hcc
    rw [hc'] at hcc
    rw [Ne, hpres c]
    exact hI.currMem c hcc
  · intro e he
    obtain ⟨w0, hw0, _, h2, _⟩ := hsurv e.1 e.2 (hmem' e he)
    rw [h2, hr']
    exact hI.parentRootIff (e.1, w0) (mget_eq_some_mem hw0)
  · intro e he p hpe
    obtain ⟨w0, hw0, _, h2, _⟩ := hsurv e.1 e.2 (hmem' e he)
    rw [Ne, hpres p]
    exact hI.parentMem (e.1, w0) (mget_eq_some_mem hw0) p (by rw [← h2]; exact hpe)
  · intro e he
    obtain ⟨w0, hw0, _, _, h3⟩ := hsurv e.1 e.2 (hmem' e he)
    rw [h3]
    exact hI.childNodup (e.1, w0) (mget_eq_some_mem hw0)
  · intro e he c hc
    obtain ⟨w0, hw0, _, _, h3⟩ := hsurv e.1 e.2 (hmem' e he)
    rw [h3] at hc
    rw [hpo' c]
    exact hI.chBack (e.1, w0) (mget_eq_some_mem hw0) c hc
  · intro ce hce pe hpe hpp
    obtain ⟨u1, hu1, _, h2, _⟩ := hsurv ce.1 ce.2 (hmem' ce hce)
    obtain ⟨u2, hu2, _, _, h3⟩ := hsurv pe.1 pe.2 (hmem' pe hpe)
    rw [h3]
    exact hI.chFull (ce.1, u1) (mget_eq_some_mem hu1) (pe.1, u2)
      (mget_eq_some_mem hu2) (by rw [← h2]; exact hpp)
  · obtain ⟨rnk, hrnk⟩ := hI.acyclic
    refine ⟨rnk, ?_⟩
    intro e he p hpe
    obtain ⟨w0, hw0, _, h2, _⟩ := hsurv e.1 e.2 (hmem' e he)
    exact hrnk (e.1, w0) (mget_eq_some_mem hw0) p (by rw [← h2]; exact hpe)

theorem cachePut_cacheOK {st : VCState α} (hck : CacheOK st) {id : Nat} {r : List α}
    (hres : Resolves st.versions id r) : CacheOK (cachePut st id r).2 := by
  intro e he
  show Resolves st.versions e.1 e.2
  have he' : e ∈ st.cache ++ [(id, r)] := by
    show e ∈ _
    by_cases h : 5 < (st.cache ++ [(id, r)]).length
    · have : (cachePut st id r).2.cache = (st.cache ++ [(id, r)]).tail := by
        show (if 5 < (st.cache ++ [(id, r)]).length then _ else _) = _
        rw [if_pos h]
      rw [this] at he
      exact List.Sublist.mem he (List.tail_sublist _)
    · have : (cachePut st id r).2.cache = st.cache ++ [(id, r)] := by
        show (if 5 < (st.cache ++ [(id, r)]).length then _ else _) = _
        rw [if_neg h]
      rw [this] at he
      exact he
  rcases List.mem_append.mp he' with h | h
  · exact hck e h
  · rw [List.mem_singleton] at h
    rw [h]
    exact hres

theorem resolveDataAux_cacheOK {st : VCState α} (hck : CacheOK st) :
    ∀ (fuel id : Nat), CacheOK (resolveDataAux fuel st id).2 := by
  intro fuel
  induction fuel with
  | zero =>
    intro id
    exact hck
  | succ fuel ih =>
    intro id
    cases hv : mget st.versions id with
    | none =>
      simp only [resolveDataAux, hv]
      exact hck
    | some v =>
      cases hc : mget st.cache id with
      | some r =>
        simp only [resolveDataAux, hv, hc]
        exact hck
      | none =>
        cases hd : v.data with
        | some d =>
          simp only [resolveDataAux, hv, hc, hd]
          exact cachePut_cacheOK hck ⟨1, resolveNC_succ_data hv hd⟩
        | none =>
          cases hδ : v.delta with
          | none =>
            simp only [resolveDataAux, hv, hc, hd, hδ]
            exact hck
          | some δ =>
            cases hp : v.parentId with
            | none =>
              simp only [resolveDataAux, hv, hc, hd, hδ, hp]
              exact hck
            | some p =>
              simp only [resolveDataAux, hv, hc, hd, hδ, hp]
              cases hr : (resolveDataAux fuel st p).1 with
              | none =>
                simp only [hr]
                exact ih p
              | some pd =>
                simp only [hr]
                have hckpr : CacheOK (resolveDataAux fuel st p).2 := ih p
                obtain ⟨f0, hf0⟩ := resolveDataAux_sound hck fuel p pd hr
                have hframe := (resolveDataAux_frame fuel st p).1
                have hrespr : Resolves (resolveDataAux fuel st p).2.versions id
                    (applyDelta pd δ) := by
                  rw [hframe]
                  refine ⟨f0 + 1, ?_⟩
                  rw [resolveNC_succ_delta hv hd hδ hp, hf0]
                  rfl
                have hckpr' : CacheOK (resolveDataAux fuel st p).2 := hckpr
                have := cachePut_cacheOK hckpr' hrespr
                exact this

theorem convertChildren_char :
    ∀ (cs : List Nat) (st : VCState α), Good st → cs.Nodup →
      (∀ c ∈ cs, mget st.versions c ≠ none) →
      Good (convertChildren st cs) ∧
      (convertChildren st cs).rootId = st.rootId ∧
      (convertChildren st cs).currentId = st.currentId ∧
      (convertChildren st cs).maxVersions = st.maxVersions ∧
      (convertChildren st cs).nextId = st.nextId ∧
      (convertChildren st cs).clock = st.clock ∧
      (∀ j, mget (convertChildren st cs).versions j = none ↔
        mget st.versions j = none) ∧
      (∀ j w', mget (convertChildren st cs).versions j = some w' →
        ∃ w0, mget st.versions j = some w0 ∧ w'.id = w0.id ∧
          w'.parentId = w0.parentId ∧ w'.children = w0.children) ∧
      (∀ j, j ∉ cs → mget (convertChildren st cs).versions j = mget st.versions j) ∧
      (∀ j X, Resolves st.versions j X →
        Resolves (convertChildren st cs).versions j X) ∧
      (∀ c ∈ cs, ∀ w', mget (convertChildren st cs).versions c = some w' →
        ∃ L, w'.data = some L ∧ Resolves st.versions c L) := by
  intro cs
  induction cs with
  | nil =>
    intro st hG _ _
    refine ⟨hG, rfl, rfl, rfl, rfl, rfl, fun j => Iff.rfl, ?_, fun j _ => rfl,
      fun j X h => h, ?_⟩
    · intro j w' hj
      exact ⟨w', hj, rfl, rfl, rfl⟩
    · intro c hc
      cases hc
  | cons c rest ih =>
    intro st hG hnd hpres
    obtain ⟨child, hchild⟩ : ∃ ch, mget st.versions c = some ch := by
      cases hx : mget st.versions c with
      | none => exact absurd hx (hpres c (List.mem_cons_self _ _))
      | some ch => exact ⟨ch, rfl⟩
    have hcrest : c ∉ rest := (List.nodup_cons.mp hnd).1
    have hndrest : rest.Nodup := (List.nodup_cons.mp hnd).2
    by_cases hcond : child.delta.isSome = true ∧ child.data = none
    · obtain ⟨L0, hL0⟩ := hG.allRes (c, child) (mget_eq_some_mem hchild)
      obtain ⟨rnk, hrnk⟩ := hG.inv.acyclic
      have hrd : (resolveData st c).1 = some L0 :=
        resolveData_complete hrnk hG.cacheOK hL0
      obtain ⟨fr1, fr2, fr3, fr4, fr5, fr6, _⟩ :=
        resolveDataAux_frame (st.versions.length + 1) st c
      have hv1 : (resolveData st c).2.versions = st.versions := fr1
      have hstep : convertChildren st (c :: rest) =
          convertChildren { (resolveData st c).2 with
            versions := mset (resolveData st c).2.versions c
              { child with data := some L0, delta := none } } rest := by
        simp only [convertChildren, hchild, if_pos hcond, hrd]
      have hvstep : ({ (resolveData st c).2 with
          versions := mset (resolveData st c).2.versions c
            { child with data := some L0, delta := none } } : VCState α).versions =
          mset st.versions c { child with data := some L0, delta := none } := by
        show mset (resolveData st c).2.versions c _ = _
        rw [hv1]
      have hck : keysOf (mset st.versions c
          { child with data := some L0, delta := none }) = keysOf st.versions :=
        keysOf_mset_of_mem _ (List.mem_map_of_mem Prod.fst (mget_eq_some_mem hchild))
      have hGstep : Good { (resolveData st c).2 with
          versions := mset (resolveData st c).2.versions c
            { child with data := some L0, delta := none } } := by
        refine ⟨?_, ?_, ?_⟩
        · exact payload_update_inv hG.inv hchild
            (show ({ child with data := some L0, delta := none } : Version α).id
              = child.id from rfl)
            (show ({ child with data := some L0, delta := none } : Version α).parentId
              = child.parentId from rfl)
            (show ({ child with data := some L0, delta := none } : Version α).children
              = child.children from rfl)
            _ hvstep fr2 fr3 fr5
        · intro e he
          have h1 := resolveDataAux_cacheOK hG.cacheOK (st.versions.length + 1) c e he
          rw [fr1] at h1
          show Resolves _ e.1 e.2
          rw [hvstep]
          exact resolves_mset_snapshot hchild hL0 h1
        · intro e he
          have hmem := mget_ne_none_of_mem he
          rw [hvstep] at hmem
          have hepres : mget st.versions e.1 ≠ none := by
            intro hno
            exact hmem ((mget_none_iff_keys hck e.1).mpr hno)
          obtain ⟨w0, hw0⟩ : ∃ w, mget st.versions e.1 = some w := by
            cases hx : mget st.versions e.1 with
            | none => exact absurd hx hepres
            | some w => exact ⟨w, rfl⟩
          obtain ⟨X, hX⟩ := hG.allRes (e.1, w0) (mget_eq_some_mem hw0)
          refine ⟨X, ?_⟩
          show Resolves _ e.1 X
          rw [hvstep]
          exact resolves_mset_snapshot hchild hL0 hX
      obtain ⟨g1, g2, g3, g4, g5, g6, g7, g8, g9, g10, g11⟩ :=
        ih _ hGstep hndrest (by
          intro c' hc' hno
          rw [hvstep] at hno
          exact hpres c' (List.mem_cons_of_mem _ hc')
            ((mget_none_iff_keys hck c').mp hno))
      rw [hstep]
      have hks : ∀ j, mget ({ (resolveData st c).2 with
          versions := mset (resolveData st c).2.versions c
            { child with data := some L0, delta := none } } : VCState α).versions j
            = none ↔ mget st.versions j = none := by
        intro j
        rw [hvstep]
        exact mget_none_iff_keys hck j
      refine ⟨g1, g2.trans fr2, g3.trans fr3, g4.trans fr4, g5.trans fr5,
        g6.trans fr6, ?_, ?_, ?_, ?_, ?_⟩
      · intro j
        exact (g7 j).trans (hks j)
      · intro j w' hj
        obtain ⟨w1, hw1, e1, e2, e3⟩ := g8 j w' hj
        rw [hvstep] at hw1
        by_cases hjc : j = c
        · rw [hjc, mget_mset_self] at hw1
          injection hw1 with hw1
          refine ⟨child, by rw [hjc]; exact hchild, ?_, ?_, ?_⟩
          · rw [e1, ← hw1]
          · rw [e2, ← hw1]
          · rw [e3, ← hw1]
        · rw [mget_mset_ne _ _ _ _ hjc] at hw1
          exact ⟨w1, hw1, e1, e2, e3⟩
      · intro j hj
        have hj1 : j ∉ rest := fun h => hj (List.mem_cons_of_mem _ h)
        have hj2 : j ≠ c := fun h => hj (h ▸ List.mem_cons_self _ _)
        rw [g9 j hj1, hvstep, mget_mset_ne _ _ _ _ hj2]
      · intro j X hX
        refine g10 j X ?_
        show Resolves _ j X
        rw [hvstep]
        exact resolves_mset_snapshot hchild hL0 hX
      · intro c' hc' w' hw'
        rcases List.mem_cons.mp hc' with rfl | hcr
        · have hoff := g9 c' hcrest
          rw [hoff, hvstep, mget_mset_self] at hw'
          injection hw' with hw'
          refine ⟨L0, ?_, hL0⟩
          rw [← hw']
        · obtain ⟨L, hdata, hres⟩ := g11 c' hcr w' hw'
          have hc'pres : mget st.versions c' ≠ none :=
            hpres c' (List.mem_cons_of_mem _ hcr)
          obtain ⟨wc', hwc'⟩ : ∃ w, mget st.versions c' = some w := by
            cases hx : mget st.versions c' with
            | none => exact absurd hx hc'pres
            | some w => exact ⟨w, rfl⟩
          obtain ⟨X, hX⟩ := hG.allRes (c', wc') (mget_eq_some_mem hwc')
          have hXstep : Resolves ({ (resolveData st c).2 with
              versions := mset (resolveData st c).2.versions c
                { child with data := some L0, delta := none } } : VCState α).versions
              c' X := by
            rw [hvstep]
            exact resolves_mset_snapshot hchild hL0 hX
          have hXL : X = L := resolves_det hXstep hres
          exact ⟨L, hdata, hXL ▸ hX⟩
    · have hstep : convertChildren st (c :: rest) = convertChildren st rest := by
        simp only [convertChildren, hchild, if_neg hcond]
      rw [hstep]
      obtain ⟨g1, g2, g3, g4, g5, g6, g7, g8, g9, g10, g11⟩ :=
        ih st hG hndrest (fun c' hc' => hpres c' (List.mem_cons_of_mem _ hc'))
      refine ⟨g1, g2, g3, g4, g5, g6, g7, g8, ?_, g10, ?_⟩
      · intro j hj
        exact g9 j (fun h => hj (List.mem_cons_of_mem _ h))
      · intro c' hc' w' hw'
        rcases List.mem_cons.mp hc' with rfl | hcr
        · have hoff := g9 c' hcrest
          rw [hoff, hchild] at hw'
          injection hw' with hw'
          cases hdata : child.data with
          | some d0 =>
            refine ⟨d0, ?_, ⟨1, resolveNC_succ_data hchild hdata⟩⟩
            rw [← hw', hdata]
          | none =>
            cases hdelta : child.delta with
            | some δ =>
              exact absurd ⟨by rw [hdelta]; rfl, hdata⟩ hcond
            | none =>
              exfalso
              obtain ⟨X, f, hf⟩ := hG.allRes (c', child) (mget_eq_some_mem hchild)
              cases f with
              | zero => cases hf
              | succ f =>
                rw [resolveNC_succ_nodelta hchild hdata hdelta] at hf
                cases hf
        · exact g11 c' hcr w' hw'

theorem convertChildren_shape :
    ∀ (cs : List Nat) (st : VCState α),
      (convertChildren st cs).rootId = st.rootId ∧
      (convertChildren st cs).currentId = st.currentId ∧
      (convertChildren st cs).maxVersions = st.maxVersions ∧
      (convertChildren st cs).nextId = st.nextId ∧
      (∀ j, mget (convertChildren st cs).versions j = none ↔
        mget st.versions j = none) ∧
      (∀ j w', mget (convertChildren st cs).versions j = some w' →
        ∃ w0, mget st.versions j = some w0 ∧ w'.id = w0.id ∧
          w'.parentId = w0.parentId ∧ w'.children = w0.children) ∧
      (∀ j, j ∉ cs → mget (convertChildren st cs).versions j = mget st.versions j) ∧
      keysOf (convertChildren st cs).versions = keysOf st.versions := by
  intro cs
  induction cs with
  | nil =>
    intro st
    exact ⟨rfl, rfl, rfl, rfl, fun j => Iff.rfl,
      fun j w' hj => ⟨w', hj, rfl, rfl, rfl⟩, fun j _ => rfl, rfl⟩
  | cons c rest ih =>
    intro st
    cases hchild : mget st.versions c with
    | none =>
      have hstep : convertChildren st (c :: rest) = convertChildren st rest := by
        simp only [convertChildren, hchild]
      rw [hstep]
      obtain ⟨g1, g2, g3, g4, g5, g6, g7, g8⟩ := ih st
      exact ⟨g1, g2, g3, g4, g5, g6,
        fun j hj => g7 j (fun h => hj (List.mem_cons_of_mem _ h)), g8⟩
    | some child =>
      by_cases hcond : child.delta.isSome = true ∧ child.data = none
      · obtain ⟨fr1, fr2, fr3, fr4, fr5, fr6, _⟩ :=
          resolveDataAux_frame (st.versions.length + 1) st c
        have hv1 : (resolveData st c).2.versions = st.versions := fr1
        cases hrr : (resolveData st c).1 with
        | none =>
          have hstep : convertChildren st (c :: rest) =
              convertChildren (resolveData st c).2 rest := by
            simp only [convertChildren, hchild, if_pos hcond, hrr]
          rw [hstep]
          obtain ⟨g1, g2, g3, g4, g5, g6, g7, g8⟩ := ih (resolveData st c).2
          rw [hv1] at g5 g6 g7 g8
          exact ⟨g1.trans fr2, g2.trans fr3, g3.trans fr4, g4.trans fr5, g5, g6,
            fun j hj => g7 j (fun h => hj (List.mem_cons_of_mem _ h)), g8⟩
        | some L0 =>
          have hstep : convertChildren st (c :: rest) =
              convertChildren { (resolveData st c).2 with
                versions := mset (resolveData st c).2.versions c
                  { child with data := some L0, delta := none } } rest := by
            simp only [convertChildren, hchild, if_pos hcond, hrr]
          have hvstep : ({ (resolveData st c).2 with
              versions := mset (resolveData st c).2.versions c
                { child with data := some L0, delta := none } } : VCState α).versions =
              mset st.versions c { child with data := some L0, delta := none } := by
            show mset (resolveData st c).2.versions c _ = _
            rw [hv1]
          have hck : keysOf (mset st.versions c
              { child with data := some L0, delta := none }) = keysOf st.versions :=
            keysOf_mset_of_mem _ (List.mem_map_of_mem Prod.fst (mget_eq_some_mem hchild))
          rw [hstep]
          obtain ⟨g1, g2, g3, g4, g5, g6, g7, g8⟩ := ih _
          refine ⟨g1.trans fr2, g2.trans fr3, g3.trans fr4, g4.trans fr5,
            ?_, ?_, ?_, ?_⟩
          · intro j
            refine (g5 j).trans ?_
            rw [hvstep]
            exact mget_none_iff_keys hck j
          · intro j w' hj
            obtain ⟨w1, hw1, e1, e2, e3⟩ := g6 j w' hj
            rw [hvstep] at hw1
            by_cases hjc : j = c
            · rw [hjc, mget_mset_self] at hw1
              injection hw1 with hw1
              refine ⟨child, by rw [hjc]; exact hchild, ?_, ?_, ?_⟩
              · rw [e1, ← hw1]
              · rw [e2, ← hw1]
              · rw [e3, ← hw1]
            · rw [mget_mset_ne _ _ _ _ hjc] at hw1
              exact ⟨w1, hw1, e1, e2, e3⟩
          · intro j hj
            have hj1 : j ∉ rest := fun h => hj (List.mem_cons_of_mem _ h)
            have hj2 : j ≠ c := fun h => hj (h ▸ List.mem_cons_self _ _)
            rw [g7 j hj1, hvstep, mget_mset_ne _ _ _ _ hj2]
          · rw [g8, hvstep]
            exact hck
      · have hstep : convertChildren st (c :: rest) = convertChildren st rest := by
          simp only [convertChildren, hchild, if_neg hcond]
        rw [hstep]
        obtain ⟨g1, g2, g3, g4, g5, g6, g7, g8⟩ := ih st
        exact ⟨g1, g2, g3, g4, g5, g6,
          fun j hj => g7 j (fun h => hj (List.mem_cons_of_mem _ h)), g8⟩

theorem indexOf_append_middle {l1 l2 : List Nat} {d : Nat} (h1 : d ∉ l1) :
    (l1 ++ d :: l2).indexOf d = l1.length := by
  induction l1 with
  | nil => simp
  | cons a t ih =>
    have ha : d ≠ a := fun h => h1 (h ▸ List.mem_cons_self _ _)
    have ht : d ∉ t := fun h => h1 (List.mem_cons_of_mem _ h)
    rw [List.cons_append, List.indexOf_cons_ne _ (fun h => ha h.symm), ih ht]
    rfl

theorem filter_ne_middle {l1 l2 : List Nat} {d : Nat} (h1 : d ∉ l1) (h2 : d ∉ l2) :
    (l1 ++ d :: l2).filter (fun i => decide (i ≠ d)) = l1 ++ l2 := by
  rw [List.filter_append, List.filter_cons]
  rw [if_neg (by simp)]
  rw [List.filter_eq_self.mpr (fun a ha => by
      simp only [decide_eq_true_eq]
      exact fun h => h1 (h ▸ ha)),
    List.filter_eq_self.mpr (fun a ha => by
      simp only [decide_eq_true_eq]
      exact fun h => h2 (h ▸ ha))]

theorem splice_children {l1 l2 : List Nat} {d : Nat} (h1 : d ∉ l1) (h2 : d ∉ l2)
    (ins : List Nat) :
    ((l1 ++ d :: l2).filter (fun i => decide (i ≠ d))).take
        ((l1 ++ d :: l2).indexOf d) ++ ins ++
      ((l1 ++ d :: l2).filter (fun i => decide (i ≠ d))).drop
        ((l1 ++ d :: l2).indexOf d) = l1 ++ ins ++ l2 := by
  rw [filter_ne_middle h1 h2, indexOf_append_middle h1,
    List.take_left, List.drop_left]

theorem reparentFold_char (pid : Option Nat) :
    ∀ (cs : List Nat) (s : VCState α), cs.Nodup →
      (reparentFold pid cs s).rootId = s.rootId ∧
      (reparentFold pid cs s).currentId = s.currentId ∧
      (reparentFold pid cs s).nextId = s.nextId ∧
      (reparentFold pid cs s).maxVersions = s.maxVersions ∧
      (reparentFold pid cs s).clock = s.clock ∧
      (reparentFold pid cs s).cache = s.cache ∧
      (∀ x, x ∉ cs → mget (reparentFold pid cs s).versions x = mget s.versions x) ∧
      (∀ c ∈ cs, ∀ w, mget s.versions c = some w →
        mget (reparentFold pid cs s).versions c = some { w with parentId := pid }) ∧
      keysOf (reparentFold pid cs s).versions = keysOf s.versions := by
  intro cs
  induction cs with
  | nil =>
    intro s _
    exact ⟨rfl, rfl, rfl, rfl, rfl, rfl, fun x _ => rfl,
      fun c hc => absurd hc (List.not_mem_nil c), rfl⟩
  | cons c rest ih =>
    intro s hnd
    have hcrest : c ∉ rest := (List.nodup_cons.mp hnd).1
    have hndrest : rest.Nodup := (List.nodup_cons.mp hnd).2
    cases hx : mget s.versions c with
    | none =>
      have hstep : reparentFold pid (c :: rest) s = reparentFold pid rest s := by
        simp only [reparentFold, List.foldl_cons, hx]
      obtain ⟨i1, i2, i3, i4, i5, i6, i7, i8, i9⟩ := ih s hndrest
      rw [hstep]
      refine ⟨i1, i2, i3, i4, i5, i6, ?_, ?_, i9⟩
      · intro x hx'
        exact i7 x (fun hh => hx' (List.mem_cons_of_mem _ hh))
      · intro c' hc' w hw
        rcases List.mem_cons.mp hc' with hc' | hc'
        · rw [hc'] at hw
          rw [hw] at hx
          cases hx
        · exact i8 c' hc' w hw
    | some child =>
      have hstep : reparentFold pid (c :: rest) s =
          reparentFold pid rest
            { s with versions := mset s.versions c ({ child with parentId := pid }) } := by
        simp only [reparentFold, List.foldl_cons, hx]
      obtain ⟨i1, i2, i3, i4, i5, i6, i7, i8, i9⟩ :=
        ih { s with versions := mset s.versions c ({ child with parentId := pid }) } hndrest
      rw [hstep]
      refine ⟨i1, i2, i3, i4, i5, i6, ?_, ?_, ?_⟩
      · intro x hx'
        have hxc : x ≠ c := fun hh => hx' (hh ▸ List.mem_cons_self _ _)
        rw [i7 x (fun hh => hx' (List.mem_cons_of_mem _ hh))]
        exact mget_mset_ne _ _ _ _ hxc
      · intro c' hc' w hw
        rcases List.mem_cons.mp hc' with hc' | hc'
        · subst hc'
          rw [hw] at hx
          cases hx
          rw [i7 c' hcrest]
          exact mget_mset_self _ _ _
        · have hc'c : c' ≠ c := fun hh => hcrest (hh ▸ hc')
          have hw' : mget (mset s.versions c ({ child with parentId := pid })) c' = some w := by
            rw [mget_mset_ne _ _ _ _ hc'c]
            exact hw
          exact i8 c' hc' w hw'
      · rw [i9]
        exact keysOf_mset_of_mem _
          (List.mem_map_of_mem Prod.fst (mget_eq_some_mem hx))

theorem reparent_char {st : VCState α} (hI : Inv st) {d p : Nat} {vd vp : Version α}
    (hd : mget st.versions d = some vd) (hdp : vd.parentId = some p)
    (hp : mget st.versions p = some vp)
    (hroot : ¬ st.rootId = some d) (hcur : ¬ st.currentId = some d)
    {l1 l2 : List Nat} (hsplit : vp.children = l1 ++ d :: l2) (hdl1 : d ∉ l1) :
    Inv (deleteVersionAndReparentChildren st d) ∧
    (deleteVersionAndReparentChildren st d).rootId = st.rootId ∧
    (deleteVersionAndReparentChildren st d).currentId = st.currentId ∧
    (deleteVersionAndReparentChildren st d).nextId = st.nextId ∧
    (deleteVersionAndReparentChildren st d).maxVersions = st.maxVersions ∧
    mget (deleteVersionAndReparentChildren st d).versions d = none ∧
    (∀ x, x ≠ d →
      (mget (deleteVersionAndReparentChildren st d).versions x = none ↔
        mget st.versions x = none)) ∧
    (∃ vp', mget (deleteVersionAndReparentChildren st d).versions p = some vp' ∧
      vp'.children = l1 ++ vd.children ++ l2 ∧ vp'.parentId = vp.parentId) ∧
    (∀ c ∈ vd.children, ∃ vc',
      mget (deleteVersionAndReparentChildren st d).versions c = some vc' ∧
      vc'.parentId = some p) ∧
    (Good st → ∀ c ∈ vd.children, ∀ L, Resolves st.versions c L →
      (resolveData (deleteVersionAndReparentChildren st d) c).1 = some L) := by
  obtain ⟨rnk, hrnk⟩ := hI.acyclic
  have hmemd : (d, vd) ∈ st.versions := mget_eq_some_mem hd
  have hmemp : (p, vp) ∈ st.versions := mget_eq_some_mem hp
  have hrank_pd : rnk p < rnk d := hrnk (d, vd) hmemd p hdp
  have hdnep : d ≠ p := by
    intro h
    rw [h] at hrank_pd
    exact Nat.lt_irrefl _ hrank_pd
  have hpo_entry : ∀ c q, parentOf st.versions c = some q →
      ∃ wc, mget st.versions c = some wc ∧ wc.parentId = some q := by
    intro c q h1
    unfold parentOf at h1
    cases hx : mget st.versions c with
    | none => rw [hx] at h1; cases h1
    | some wc =>
      rw [hx] at h1
      exact ⟨wc, rfl, h1⟩
  have hch_par : ∀ c ∈ vd.children, parentOf st.versions c = some d :=
    fun c hc => hI.chBack (d, vd) hmemd c hc
  have hch_entry : ∀ c ∈ vd.children,
      ∃ wc, mget st.versions c = some wc ∧ wc.parentId = some d :=
    fun c hc => hpo_entry c d (hch_par c hc)
  have hch_pres : ∀ c ∈ vd.children, mget st.versions c ≠ none := by
    intro c hc h0
    obtain ⟨wc, hwc, _⟩ := hch_entry c hc
    rw [hwc] at h0
    cases h0
  have hch_rank : ∀ c ∈ vd.children, rnk d < rnk c := by
    intro c hc
    obtain ⟨wc, hwc, hpar⟩ := hch_entry c hc
    exact hrnk (c, wc) (mget_eq_some_mem hwc) d hpar
  have hch_ne_d : ∀ c ∈ vd.children, c ≠ d := by
    intro c hc h
    have h1 := hch_rank c hc
    rw [h] at h1
    exact Nat.lt_irrefl _ h1
  have hch_ne_p : ∀ c ∈ vd.children, c ≠ p := by
    intro c hc h
    obtain ⟨wc, hwc, hpar⟩ := hch_entry c hc
    rw [h] at hwc
    have hwv : wc = vp := Option.some.inj (hwc.symm.trans hp)
    rw [hwv] at hpar
    have h2 : rnk d < rnk p := hrnk (p, vp) hmemp d hpar
    exact Nat.lt_irrefl _ (Nat.lt_trans hrank_pd h2)
  have hdnotch : d ∉ vd.children := fun h => (hch_ne_d d h) rfl
  have hpnotch : p ∉ vd.children := fun h => (hch_ne_p p h) rfl
  have hchn : vd.children.Nodup := hI.childNodup (d, vd) hmemd
  have hvpnd : vp.children.Nodup := hI.childNodup (p, vp) hmemp
  have hvpnd' : (l1 ++ d :: l2).Nodup := by
    rw [← hsplit]
    exact hvpnd
  have hdl2 : d ∉ l2 := by
    have h2 : (d :: l2).Nodup := hvpnd'.of_append_right
    exact (List.nodup_cons.mp h2).1
  have hvp_ch_par : ∀ c ∈ vp.children, parentOf st.versions c = some p :=
    fun c hc => hI.chBack (p, vp) hmemp c hc
  have hdisj : ∀ c ∈ vd.children, c ∉ vp.children := by
    intro c hc hcp
    have h1 := hch_par c hc
    have h2 := hvp_ch_par c hcp
    rw [h1] at h2
    exact hdnep (Option.some.inj h2)
  have hvp_ch_ne_p : ∀ c ∈ vp.children, c ≠ p := by
    intro c hc h
    have h1 := hvp_ch_par c hc
    rw [h] at h1
    obtain ⟨wc, hwc, hpar⟩ := hpo_entry p p h1
    have hwv : wc = vp := Option.some.inj (hwc.symm.trans hp)
    rw [hwv] at hpar
    exact Nat.lt_irrefl _ (hrnk (p, vp) hmemp p hpar)
  obtain ⟨r1, c1, mx1, n1, iff1, shape1, off1, keys1⟩ :=
    convertChildren_shape vd.children st
  set stC : VCState α := convertChildren st vd.children with hstC
  have hgetpC : mget stC.versions p = some vp := by
    rw [off1 p hpnotch]
    exact hp
  have hgetpC' : mget (convertChildren st vd.children).versions p = some vp := by
    rw [← hstC]
    exact hgetpC
  set vpn : Version α := { vp with children := l1 ++ vd.children ++ l2 } with hvpn
  set ST3 : VCState α :=
    { stC with versions := mset stC.versions p vpn, cache := [] } with hST3
  set ST4 : VCState α := reparentFold (some p) vd.children ST3 with hST4
  set FINS : VCState α := { ST4 with versions := mdel ST4.versions d } with hFINS
  have hdmem : d ∈ l1 ++ d :: l2 :=
    List.mem_append_right _ (List.mem_cons_self _ _)
  have hred : deleteVersionAndReparentChildren st d = FINS := by
    simp only [deleteVersionAndReparentChildren, hd, hdp, hgetpC']
    rw [if_neg hroot, hsplit, if_pos hdmem, splice_children hdl1 hdl2]
    rfl
  have hfinv : (deleteVersionAndReparentChildren st d).versions = mdel ST4.versions d := by
    rw [hred, hFINS]
  have hfinr : (deleteVersionAndReparentChildren st d).rootId = ST4.rootId := by
    rw [hred, hFINS]
  have hfincc : (deleteVersionAndReparentChildren st d).currentId = ST4.currentId := by
    rw [hred, hFINS]
  have hfinn : (deleteVersionAndReparentChildren st d).nextId = ST4.nextId := by
    rw [hred, hFINS]
  have hfinm : (deleteVersionAndReparentChildren st d).maxVersions = ST4.maxVersions := by
    rw [hred, hFINS]
  have hfinca : (deleteVersionAndReparentChildren st d).cache = ST4.cache := by
    rw [hred, hFINS]
  have hS3v : ST3.versions = mset stC.versions p vpn := by rw [hST3]
  have hS3cache : ST3.cache = [] := by rw [hST3]
  have hS3r : ST3.rootId = stC.rootId := by rw [hST3]
  have hS3cc : ST3.currentId = stC.currentId := by rw [hST3]
  have hS3n : ST3.nextId = stC.nextId := by rw [hST3]
  have hS3m : ST3.maxVersions = stC.maxVersions := by rw [hST3]
  obtain ⟨f1, f2, f3, f4, f5, f6, f7, f8, f9⟩ :=
    reparentFold_char (some p) vd.children ST3 hchn
  rw [← hST4] at f1 f2 f3 f4 f5 f6 f7 f8 f9
  have hfin_rr : (deleteVersionAndReparentChildren st d).rootId = st.rootId := by
    rw [hfinr, f1, hS3r]
    exact r1
  have hfin_cc : (deleteVersionAndReparentChildren st d).currentId = st.currentId := by
    rw [hfincc, f2, hS3cc]
    exact c1
  have hfin_nn : (deleteVersionAndReparentChildren st d).nextId = st.nextId := by
    rw [hfinn, f3, hS3n]
    exact n1
  have hfin_mm : (deleteVersionAndReparentChildren st d).maxVersions = st.maxVersions := by
    rw [hfinm, f4, hS3m]
    exact mx1
  have hfin_cache : (deleteVersionAndReparentChildren st d).cache = [] := by
    rw [hfinca, f6, hS3cache]
  have hfin_d0 : mget (deleteVersionAndReparentChildren st d).versions d = none := by
    rw [hfinv]
    exact mget_mdel_self _ _
  have hfin_ne : ∀ x, x ≠ d →
      mget (deleteVersionAndReparentChildren st d).versions x = mget ST4.versions x := by
    intro x hx
    rw [hfinv]
    exact mget_mdel_ne _ _ _ hx
  have hS3x : ∀ x, x ≠ p → mget ST3.versions x = mget stC.versions x := by
    intro x hx
    rw [hS3v]
    exact mget_mset_ne _ _ _ _ hx
  have hfin_p : mget (deleteVersionAndReparentChildren st d).versions p = some vpn := by
    rw [hfin_ne p (fun h => hdnep h.symm), f7 p hpnotch, hS3v]
    exact mget_mset_self _ _ _
  have hfin_ch : ∀ c ∈ vd.children,
      ∃ (wc0 wcC : Version α), mget st.versions c = some wc0 ∧
        mget stC.versions c = some wcC ∧
        mget (deleteVersionAndReparentChildren st d).versions c =
          some ({ wcC with parentId := some p }) ∧
        wcC.id = wc0.id ∧ wcC.children = wc0.children := by
    intro c hc
    obtain ⟨wc0, hwc0, _⟩ := hch_entry c hc
    cases hx : mget stC.versions c with
    | none =>
      have h1 : mget st.versions c = none := (iff1 c).mp hx
      rw [hwc0] at h1
      cases h1
    | some wcC =>
      obtain ⟨w0', hw0', hid, _, hchl⟩ := shape1 c wcC hx
      have hw : w0' = wc0 := Option.some.inj (hw0'.symm.trans hwc0)
      refine ⟨wc0, wcC, hwc0, rfl, ?_, by rw [hid, hw], by rw [hchl, hw]⟩
      rw [hfin_ne c (hch_ne_d c hc)]
      refine f8 c hc wcC ?_
      rw [hS3x c (hch_ne_p c hc)]
      exact hx
  have hfin_other : ∀ x, x ≠ d → x ≠ p → x ∉ vd.children →
      mget (deleteVersionAndReparentChildren st d).versions x = mget st.versions x := by
    intro x h1 h2 h3
    rw [hfin_ne x h1, f7 x h3, hS3x x h2]
    exact off1 x h3
  have hfin_none_iff : ∀ x, x ≠ d →
      (mget (deleteVersionAndReparentChildren st d).versions x = none ↔
        mget st.versions x = none) := by
    intro x h1
    by_cases h2 : x = p
    · subst h2
      rw [hfin_p, hp]
      simp
    · by_cases h3 : x ∈ vd.children
      · obtain ⟨wc0, wcC, hwc0, _, hfc, _⟩ := hfin_ch x h3
        rw [hfc, hwc0]
        simp
      · rw [hfin_other x h1 h2 h3]
  have hS3keys : keysOf ST3.versions = keysOf stC.versions := by
    rw [hS3v]
    exact keysOf_mset_of_mem _ (List.mem_map_of_mem Prod.fst (mget_eq_some_mem hgetpC))
  have hfin_keys : (keysOf (deleteVersionAndReparentChildren st d).versions).Nodup := by
    rw [hfinv]
    have h5 : (keysOf ST4.versions).Nodup := by
      rw [f9, hS3keys, keys1]
      exact hI.nodupKeys
    exact h5.sublist (keysOf_mdel_sublist _ _)
  have hfin_mem : ∀ e ∈ (deleteVersionAndReparentChildren st d).versions,
      mget (deleteVersionAndReparentChildren st d).versions e.1 = some e.2 := by
    intro e he
    have he' : (e.1, e.2) ∈ (deleteVersionAndReparentChildren st d).versions := by
      cases e
      exact he
    exact mget_of_mem_nodup hfin_keys he'
  have hcase : ∀ e ∈ (deleteVersionAndReparentChildren st d).versions,
      (e.1 = p ∧ e.2 = vpn) ∨
      (e.1 ∈ vd.children ∧ e.2.parentId = some p ∧ e.2.id = e.1 ∧
        (∃ w0, mget st.versions e.1 = some w0 ∧ e.2.children = w0.children)) ∨
      (e.1 ≠ d ∧ e.1 ≠ p ∧ e.1 ∉ vd.children ∧ mget st.versions e.1 = some e.2) := by
    intro e he
    have hme := hfin_mem e he
    have hed : e.1 ≠ d := by
      intro h
      rw [h, hfin_d0] at hme
      cases hme
    by_cases hep : e.1 = p
    · left
      refine ⟨hep, ?_⟩
      rw [hep, hfin_p] at hme
      exact (Option.some.inj hme).symm
    · by_cases hec : e.1 ∈ vd.children
      · right; left
        obtain ⟨wc0, wcC, hwc0, hxc, hfc, hid, hchl⟩ := hfin_ch e.1 hec
        rw [hfc] at hme
        have he2 : e.2 = { wcC with parentId := some p } := (Option.some.inj hme).symm
        refine ⟨hec, by rw [he2], ?_, ⟨wc0, hwc0, ?_⟩⟩
        · rw [he2]
          exact hid.trans (hI.keyMatch (e.1, wc0) (mget_eq_some_mem hwc0))
        · rw [he2]
          exact hchl
      · right; right
        refine ⟨hed, hep, hec, ?_⟩
        rw [← hfin_other e.1 hed hep hec]
        exact hme
  have hrootsome : ∃ r, st.rootId = some r ∧ r ≠ d := by
    cases hr : st.rootId with
    | none =>
      have h0 : st.versions = [] := hI.rootNone.mp hr
      rw [h0] at hd
      cases hd
    | some r =>
      refine ⟨r, rfl, ?_⟩
      intro h
      rw [h] at hr
      exact hroot hr
  obtain ⟨r, hr, hrd⟩ := hrootsome
  have hcursome : ∃ cu, st.currentId = some cu ∧ cu ≠ d := by
    cases hc0 : st.currentId with
    | none =>
      have h0 : st.versions = [] := hI.currNone.mp hc0
      rw [h0] at hd
      cases hd
    | some cu =>
      refine ⟨cu, rfl, ?_⟩
      intro h
      rw [h] at hc0
      exact hcur hc0
  obtain ⟨cu, hcu, hcud⟩ := hcursome
  have hrfin : mget (deleteVersionAndReparentChildren st d).versions r ≠ none :=
    fun h0 => hI.rootMem r hr ((hfin_none_iff r hrd).mp h0)
  have hcufin : mget (deleteVersionAndReparentChildren st d).versions cu ≠ none :=
    fun h0 => hI.currMem cu hcu ((hfin_none_iff cu hcud).mp h0)
  have hpo : ∀ x w, mget (deleteVersionAndReparentChildren st d).versions x = some w →
      parentOf (deleteVersionAndReparentChildren st d).versions x = w.parentId := by
    intro x w h
    simp [parentOf, h]
  have hInv : Inv (deleteVersionAndReparentChildren st d) := by
    refine ⟨hfin_keys, ?_, ?_, ?_, ?_, ?_, ?_, ?_, ?_, ?_, ?_, ?_, ?_⟩
    · -- keyMatch
      intro e he
      rcases hcase e he with ⟨hep, he2⟩ | ⟨hec, hpar, hid, hch⟩ | ⟨hed, hene, henc, hst⟩
      · rw [he2, hep]
        exact hI.keyMatch (p, vp) hmemp
      · exact hid
      · exact hI.keyMatch (e.1, e.2) (mget_eq_some_mem hst)
    · -- keysLt
      intro e he
      rw [hfin_nn]
      rcases hcase e he with ⟨hep, he2⟩ | ⟨hec, hpar, hid, hch⟩ | ⟨hed, hene, henc, hst⟩
      · rw [hep]
        exact hI.keysLt (p, vp) hmemp
      · obtain ⟨wc0, hwc0, _⟩ := hch_entry e.1 hec
        exact hI.keysLt (e.1, wc0) (mget_eq_some_mem hwc0)
      · exact hI.keysLt (e.1, e.2) (mget_eq_some_mem hst)
    · -- rootNone
      constructor
      · intro h0
        rw [hfin_rr, hr] at h0
        cases h0
      · intro h0
        have h1 : mget (deleteVersionAndReparentChildren st d).versions r = none := by
          rw [h0]
          rfl
        exact absurd h1 hrfin
    · -- currNone
      constructor
      · intro h0
        rw [hfin_cc, hcu] at h0
        cases h0
      · intro h0
        have h1 : mget (deleteVersionAndReparentChildren st d).versions cu = none := by
          rw [h0]
          rfl
        exact absurd h1 hcufin
    · -- rootMem
      intro r' h0
      rw [hfin_rr, hr] at h0
      cases h0
      exact hrfin
    · -- currMem
      intro c' h0
      rw [hfin_cc, hcu] at h0
      cases h0
      exact hcufin
    · -- parentRootIff
      intro e he
      rw [hfin_rr]
      rcases hcase e he with ⟨hep, he2⟩ | ⟨hec, hpar, hid, hch⟩ | ⟨hed, hene, henc, hst⟩
      · rw [he2, hep]
        exact hI.parentRootIff (p, vp) hmemp
      · constructor
        · intro h0
          rw [hpar] at h0
          cases h0
        · intro h0
          obtain ⟨wc0, hwc0, hwpar⟩ := hch_entry e.1 hec
          have h1 := (hI.parentRootIff (e.1, wc0) (mget_eq_some_mem hwc0)).mpr h0
          rw [hwpar] at h1
          cases h1
      · exact hI.parentRootIff (e.1, e.2) (mget_eq_some_mem hst)
    · -- parentMem
      intro e he q hq
      rcases hcase e he with ⟨hep, he2⟩ | ⟨hec, hpar, hid, hch⟩ | ⟨hed, hene, henc, hst⟩
      · rw [he2] at hq
        have hq' : vp.parentId = some q := hq
        have hqd : q ≠ d := by
          intro h
          rw [h] at hq'
          have h2 : rnk d < rnk p := hrnk (p, vp) hmemp d hq'
          exact Nat.lt_irrefl _ (Nat.lt_trans hrank_pd h2)
        have h3 : mget st.versions q ≠ none := hI.parentMem (p, vp) hmemp q hq'
        intro h0
        exact h3 ((hfin_none_iff q hqd).mp h0)
      · have hqp : p = q := Option.some.inj (hpar.symm.trans hq)
        rw [← hqp, hfin_p]
        intro h0
        cases h0
      · have hqd : q ≠ d := by
          intro h
          rw [h] at hq
          have h1 : e.1 ∈ vd.children :=
            hI.chFull (e.1, e.2) (mget_eq_some_mem hst) (d, vd) hmemd hq
          exact henc h1
        have h3 : mget st.versions q ≠ none :=
          hI.parentMem (e.1, e.2) (mget_eq_some_mem hst) q hq
        intro h0
        exact h3 ((hfin_none_iff q hqd).mp h0)
    · -- childNodup
      intro e he
      rcases hcase e he with ⟨hep, he2⟩ | ⟨hec, hpar, hid, hch⟩ | ⟨hed, hene, henc, hst⟩
      · rw [he2]
        show (l1 ++ vd.children ++ l2).Nodup
        rw [List.nodup_append] at hvpnd'
        obtain ⟨h1nd, hdl2nd, hdisj12⟩ := hvpnd'
        have h2nd : l2.Nodup := (List.nodup_cons.mp hdl2nd).2
        rw [List.nodup_append, List.nodup_append]
        refine ⟨⟨h1nd, hchn, ?_⟩, h2nd, ?_⟩
        · intro a hal1 hach
          exact hdisj a hach (by
            rw [hsplit]
            exact List.mem_append_left _ hal1)
        · intro a ha hal2
          rcases List.mem_append.mp ha with h6 | h6
          · exact hdisj12 h6 (List.mem_cons_of_mem _ hal2)
          · exact hdisj a h6 (by
              rw [hsplit]
              exact List.mem_append_right _ (List.mem_cons_of_mem _ hal2))
      · obtain ⟨w0, hw0, hchl⟩ := hch
        rw [hchl]
        exact hI.childNodup (e.1, w0) (mget_eq_some_mem hw0)
      · exact hI.childNodup (e.1, e.2) (mget_eq_some_mem hst)
    · -- chBack
      intro e he c hcch
      rcases hcase e he with ⟨hep, he2⟩ | ⟨hec, hpar, hid, hch⟩ | ⟨hed, hene, henc, hst⟩
      · rw [he2] at hcch
        rw [hep]
        have hcch' : c ∈ (l1 ++ vd.children) ++ l2 := hcch
        rcases List.mem_append.mp hcch' with hcl | hcl2
        · rcases List.mem_append.mp hcl with hcl1 | hcm
          · -- c ∈ l1
            have hcvp : c ∈ vp.children := by
              rw [hsplit]
              exact List.mem_append_left _ hcl1
            have hcd : c ≠ d := fun h => hdl1 (h ▸ hcl1)
            have hcnotch : c ∉ vd.children := fun h => hdisj c h hcvp
            have hcp : c ≠ p := hvp_ch_ne_p c hcvp
            obtain ⟨wc, hwc, hwcpar⟩ := hpo_entry c p (hvp_ch_par c hcvp)
            rw [hpo c wc (by rw [hfin_other c hcd hcp hcnotch]; exact hwc)]
            exact hwcpar
          · -- c ∈ vd.children
            obtain ⟨wc0, wcC, hwc0, _, hfc, _⟩ := hfin_ch c hcm
            rw [hpo c _ hfc]
        · -- c ∈ l2
          have hcvp : c ∈ vp.children := by
            rw [hsplit]
            exact List.mem_append_right _ (List.mem_cons_of_mem _ hcl2)
          have hcd : c ≠ d := fun h => hdl2 (h ▸ hcl2)
          have hcnotch : c ∉ vd.children := fun h => hdisj c h hcvp
          have hcp : c ≠ p := hvp_ch_ne_p c hcvp
          obtain ⟨wc, hwc, hwcpar⟩ := hpo_entry c p (hvp_ch_par c hcvp)
          rw [hpo c wc (by rw [hfin_other c hcd hcp hcnotch]; exact hwc)]
          exact hwcpar
      · -- e is a reparented child of d; its children list is unchanged
        obtain ⟨w0, hw0, hchl⟩ := hch
        rw [hchl] at hcch
        have h1 : parentOf st.versions c = some e.1 :=
          hI.chBack (e.1, w0) (mget_eq_some_mem hw0) c hcch
        obtain ⟨wc, hwc, hwcpar⟩ := hpo_entry c e.1 h1
        have hcd : c ≠ d := by
          intro h
          rw [h] at hwc
          have hwv : wc = vd := Option.some.inj (hwc.symm.trans hd)
          rw [hwv, hdp] at hwcpar
          have hpe : p = e.1 := Option.some.inj hwcpar
          rw [← hpe] at hec
          exact hpnotch hec
        have hcnotch : c ∉ vd.children := by
          intro h
          have h3 := hch_par c h
          rw [h1] at h3
          exact (hch_ne_d e.1 hec) (Option.some.inj h3)
        by_cases hcp : c = p
        · subst hcp
          have hwv : wc = vp := Option.some.inj (hwc.symm.trans hp)
          rw [hpo c _ hfin_p, hvpn]
          rw [← hwv]
          exact hwcpar
        · rw [hpo c wc (by rw [hfin_other c hcd hcp hcnotch]; exact hwc)]
          exact hwcpar
      · -- e survives unchanged
        have h1 : parentOf st.versions c = some e.1 :=
          hI.chBack (e.1, e.2) (mget_eq_some_mem hst) c hcch
        obtain ⟨wc, hwc, hwcpar⟩ := hpo_entry c e.1 h1
        have hcd : c ≠ d := by
          intro h
          rw [h] at hwc
          have hwv : wc = vd := Option.some.inj (hwc.symm.trans hd)
          rw [hwv, hdp] at hwcpar
          exact hene (Option.some.inj hwcpar).symm
        have hcnotch : c ∉ vd.children := by
          intro h
          have h3 := hch_par c h
          rw [h1] at h3
          have hde : e.1 = d := Option.some.inj h3
          have h4 := hfin_mem e he
          rw [hde, hfin_d0] at h4
          cases h4
        by_cases hcp : c = p
        · subst hcp
          have hwv : wc = vp := Option.some.inj (hwc.symm.trans hp)
          rw [hpo c _ hfin_p, hvpn]
          rw [← hwv]
          exact hwcpar
        · rw [hpo c wc (by rw [hfin_other c hcd hcp hcnotch]; exact hwc)]
          exact hwcpar
    · -- chFull
      intro ce hce pe hpe hcp0
      have hpe_ne_d : pe.1 ≠ d := by
        intro h
        have h4 := hfin_mem pe hpe
        rw [h, hfin_d0] at h4
        cases h4
      rcases hcase ce hce with ⟨hep, he2⟩ | ⟨hec, hpar, hid, hch⟩ | ⟨hed, hene, henc, hst⟩
      · rw [he2] at hcp0
        have hq : vp.parentId = some pe.1 := hcp0
        rcases hcase pe hpe with ⟨hqp, hq2⟩ | ⟨hqc, hqpar, hqid, hqch⟩ | ⟨hqd, hqnp, hqnc, hqst⟩
        · rw [hqp] at hq
          exact absurd (hrnk (p, vp) hmemp p hq) (Nat.lt_irrefl _)
        · obtain ⟨w0, hw0, hchl⟩ := hqch
          rw [hep, hchl]
          exact hI.chFull (p, vp) hmemp (pe.1, w0) (mget_eq_some_mem hw0) hq
        · rw [hep]
          exact hI.chFull (p, vp) hmemp (pe.1, pe.2) (mget_eq_some_mem hqst) hq
      · have hq : p = pe.1 := Option.some.inj (hpar.symm.trans hcp0)
        have h4 := hfin_mem pe hpe
        rw [← hq, hfin_p] at h4
        have hpe2 : pe.2 = vpn := (Option.some.inj h4).symm
        rw [hpe2, hvpn]
        show ce.1 ∈ l1 ++ vd.children ++ l2
        exact List.mem_append_left _ (List.mem_append_right _ hec)
      · by_cases hqp : pe.1 = p
        · have h4 := hfin_mem pe hpe
          rw [hqp, hfin_p] at h4
          have hpe2 : pe.2 = vpn := (Option.some.inj h4).symm
          rw [hpe2, hvpn]
          show ce.1 ∈ l1 ++ vd.children ++ l2
          have h5 : ce.1 ∈ vp.children :=
            hI.chFull (ce.1, ce.2) (mget_eq_some_mem hst) (p, vp) hmemp
              (by rw [hcp0, hqp])
          rw [hsplit] at h5
          rcases List.mem_append.mp h5 with h6 | h6
          · exact List.mem_append_left _ (List.mem_append_left _ h6)
          · rcases List.mem_cons.mp h6 with h7 | h7
            · exact absurd h7 hed
            · exact List.mem_append_right _ h7
        · rcases hcase pe hpe with ⟨hqp', _⟩ | ⟨hqc, hqpar, hqid, hqch⟩ | ⟨hqd, hqnp, hqnc, hqst⟩
          · exact absurd hqp' hqp
          · obtain ⟨w0, hw0, hchl⟩ := hqch
            rw [hchl]
            exact hI.chFull (ce.1, ce.2) (mget_eq_some_mem hst) (pe.1, w0)
              (mget_eq_some_mem hw0) hcp0
          · exact hI.chFull (ce.1, ce.2) (mget_eq_some_mem hst) (pe.1, pe.2)
              (mget_eq_some_mem hqst) hcp0
    · -- acyclic
      refine ⟨rnk, fun e he q hq => ?_⟩
      rcases hcase e he with ⟨hep, he2⟩ | ⟨hec, hpar, hid, hch⟩ | ⟨hed, hene, henc, hst⟩
      · rw [he2] at hq
        rw [hep]
        exact hrnk (p, vp) hmemp q hq
      · have hqp : q = p := (Option.some.inj (hpar.symm.trans hq)).symm
        rw [hqp]
        exact Nat.lt_trans hrank_pd (hch_rank e.1 hec)
      · exact hrnk (e.1, e.2) (mget_eq_some_mem hst) q hq
  refine ⟨hInv, hfin_rr, hfin_cc, hfin_nn, hfin_mm, hfin_d0, hfin_none_iff,
    ⟨vpn, hfin_p, by rw [hvpn], by rw [hvpn]⟩, ?_, ?_⟩
  · intro c hc
    obtain ⟨wc0, wcC, hwc0, _, hfc, _⟩ := hfin_ch c hc
    exact ⟨{ wcC with parentId := some p }, hfc, rfl⟩
  · intro hG c hc L hres
    obtain ⟨_, _, _, _, _, _, _, _, _, _, E1⟩ :=
      convertChildren_char vd.children st hG hchn hch_pres
    rw [← hstC] at E1
    obtain ⟨wc0, wcC, hwc0, hxc, hfc, hid, hchl⟩ := hfin_ch c hc
    obtain ⟨Lc, hLc, hresC⟩ := E1 c hc wcC hxc
    have hLL : L = Lc := resolves_det hres hresC
    rw [hLL]
    have hresF : Resolves (deleteVersionAndReparentChildren st d).versions c Lc :=
      ⟨1, resolveNC_succ_data hfc hLc⟩
    obtain ⟨rnkF, hrnkF⟩ := hInv.acyclic
    have hckF : CacheOK (deleteVersionAndReparentChildren st d) :=
      fun e he => absurd (hfin_cache ▸ he) (List.not_mem_nil e)
    exact resolveData_complete hrnkF hckF hresF

theorem goodReparentSt : Good reparentSt := by
  refine ⟨⟨by decide, by decide, by decide, by decide, by decide, by decide, by decide,
    by decide, by decide, by decide, by decide, by decide,
    ⟨fun x => x, by unfold ParentRank; decide⟩⟩, ?_, ?_⟩
  · intro e he
    simp [reparentSt] at he
  · intro e he
    rw [show reparentSt.versions =
      [(0, reparentV0), (1, reparentV1), (2, reparentV2)] from rfl] at he
    rcases List.mem_cons.mp he with rfl | he
    · exact ⟨[7], 1, by decide⟩
    rcases List.mem_cons.mp he with rfl | he
    · exact ⟨[7, 8], 1, by decide⟩
    rcases List.mem_cons.mp he with rfl | he
    · exact ⟨[7, 9], 2, by decide⟩
    · cases he

theorem delete_reparent_inv {st : VCState α} (hI : Inv st) (d : Nat)
    (hcur : st.currentId ≠ some d) : Inv (deleteVersionAndReparentChildren st d) := by
  cases hx : mget st.versions d with
  | none =>
    have h0 : deleteVersionAndReparentChildren st d = st := by
      simp only [deleteVersionAndReparentChildren, hx]
    rw [h0]
    exact hI
  | some vd =>
    by_cases hroot : st.rootId = some d
    · have h0 : deleteVersionAndReparentChildren st d = st := by
        simp only [deleteVersionAndReparentChildren, hx]
        rw [if_pos hroot]
      rw [h0]
      exact hI
    · have hmemd : (d, vd) ∈ st.versions := mget_eq_some_mem hx
      have hpar : ∃ p, vd.parentId = some p := by
        cases hy : vd.parentId with
        | none =>
          have h1 := (hI.parentRootIff (d, vd) hmemd).mp hy
          exact absurd h1 hroot
        | some p => exact ⟨p, rfl⟩
      obtain ⟨p, hdp⟩ := hpar
      have hvp : ∃ vp, mget st.versions p = some vp := by
        cases hy : mget st.versions p with
        | none => exact absurd hy (hI.parentMem (d, vd) hmemd p hdp)
        | some vp => exact ⟨vp, rfl⟩
      obtain ⟨vp, hp⟩ := hvp
      have hdmem : d ∈ vp.children :=
        hI.chFull (d, vd) hmemd (p, vp) (mget_eq_some_mem hp) hdp
      obtain ⟨s, t, hsplit0⟩ := List.append_of_mem hdmem
      have hds : d ∉ s := by
        have h0 : (s ++ d :: t).Nodup := by
          rw [← hsplit0]
          exact hI.childNodup (p, vp) (mget_eq_some_mem hp)
        rw [List.nodup_append] at h0
        intro hmem
        exact h0.2.2 hmem (List.mem_cons_self _ _)
      exact (reparent_char hI hx hdp hp hroot hcur hsplit0 hds).1

/-- C6: deleting a non-root, non-current node `d` whose children are
delta-encoded against it keeps those children's collections intact: each
former child still `resolveData`s to the collection it resolved to before
the deletion, the children are spliced into `d`'s parent's child list at
the exact position `d` occupied, and each child's `parentId` is
reassigned to `d`'s former parent. -/
theorem claim6_reparent {st : VCState α} (hG : Good st) {d : Nat} {vd : Version α}
    (hd : mget st.versions d = some vd)
    (hroot : st.rootId ≠ some d) (hcur : st.currentId ≠ some d)
    (hdelta : ∀ c ∈ vd.children, ∀ wc, mget st.versions c = some wc →
      wc.data = none ∧ wc.delta.isSome = true ∧ wc.parentId = some d) :
    ∃ p vp, vd.parentId = some p ∧ mget st.versions p = some vp ∧
      (∀ c ∈ vd.children, ∀ L, (resolveData st c).1 = some L →
        (resolveData (deleteVersionAndReparentChildren st d) c).1 = some L) ∧
      (∀ l1 l2, vp.children = l1 ++ d :: l2 → d ∉ l1 →
        ∃ vp', mget (deleteVersionAndReparentChildren st d).versions p = some vp' ∧
          vp'.children = l1 ++ vd.children ++ l2) ∧
      (∀ c ∈ vd.children, ∃ vc',
        mget (deleteVersionAndReparentChildren st d).versions c = some vc' ∧
        vc'.parentId = some p) := by
  have hI := hG.inv
  have hmemd : (d, vd) ∈ st.versions := mget_eq_some_mem hd
  have hpar : ∃ p, vd.parentId = some p := by
    cases hx : vd.parentId with
    | none =>
      have h1 := (hI.parentRootIff (d, vd) hmemd).mp hx
      exact absurd h1 hroot
    | some p => exact ⟨p, rfl⟩
  obtain ⟨p, hdp⟩ := hpar
  have hvp : ∃ vp, mget st.versions p = some vp := by
    cases hx : mget st.versions p with
    | none => exact absurd hx (hI.parentMem (d, vd) hmemd p hdp)
    | some vp => exact ⟨vp, rfl⟩
  obtain ⟨vp, hp⟩ := hvp
  have hdmem : d ∈ vp.children :=
    hI.chFull (d, vd) hmemd (p, vp) (mget_eq_some_mem hp) hdp
  obtain ⟨s, t, hsplit0⟩ := List.append_of_mem hdmem
  have hds : d ∉ s := by
    have h0 : (s ++ d :: t).Nodup := by
      rw [← hsplit0]
      exact hI.childNodup (p, vp) (mget_eq_some_mem hp)
    rw [List.nodup_append] at h0
    intro hmem
    exact h0.2.2 hmem (List.mem_cons_self _ _)
  refine ⟨p, vp, hdp, hp, ?_, ?_, ?_⟩
  · intro c hc L hL
    obtain ⟨_, _, _, _, _, _, _, _, _, h10⟩ :=
      reparent_char hG.inv hd hdp hp hroot hcur hsplit0 hds
    exact h10 hG c hc L (resolveData_sound hG.cacheOK hL)
  · intro l1 l2 hsp hdl1
    obtain ⟨_, _, _, _, _, _, _, h8, _, _⟩ :=
      reparent_char hG.inv hd hdp hp hroot hcur hsp hdl1
    obtain ⟨vp', hvp', hch, _⟩ := h8
    exact ⟨vp', hvp', hch⟩
  · intro c hc
    obtain ⟨_, _, _, _, _, _, _, _, h9, _⟩ :=
      reparent_char hG.inv hd hdp hp hroot hcur hsplit0 hds
    exact h9 c hc

/-- Witness for C6 on the concrete three-node store: node 1 is non-root,
non-current, with its single child delta-encoded against it. -/
theorem claim6_witness :
    ∃ p vp, reparentV1.parentId = some p ∧ mget reparentSt.versions p = some vp ∧
      (∀ c ∈ reparentV1.children, ∀ L, (resolveData reparentSt c).1 = some L →
        (resolveData (deleteVersionAndReparentChildren reparentSt 1) c).1 = some L) ∧
      (∀ l1 l2, vp.children = l1 ++ 1 :: l2 → 1 ∉ l1 →
        ∃ vp', mget (deleteVersionAndReparentChildren reparentSt 1).versions p = some vp' ∧
          vp'.children = l1 ++ reparentV1.children ++ l2) ∧
      (∀ c ∈ reparentV1.children, ∃ vc',
        mget (deleteVersionAndReparentChildren reparentSt 1).versions c = some vc' ∧
        vc'.parentId = some p) :=
  claim6_reparent goodReparentSt (by decide) (by decide) (by decide) (by decide)

theorem enumIdMap_char (N : Nat) :
    ∀ (l : List (Nat × Version α)) (k : Nat),
      (∀ x, x ∉ l.map Prod.fst →
        mget ((List.enumFrom k l).map fun q => (q.2.1, N + q.1)) x = none) ∧
      (∀ x, x ∈ l.map Prod.fst →
        ∃ j, mget ((List.enumFrom k l).map fun q => (q.2.1, N + q.1)) x = some j) ∧
      (∀ x j, mget ((List.enumFrom k l).map fun q => (q.2.1, N + q.1)) x = some j →
        N + k ≤ j ∧ j < N + k + l.length) ∧
      ((l.map Prod.fst).Nodup →
        ∀ x y j, mget ((List.enumFrom k l).map fun q => (q.2.1, N + q.1)) x = some j →
          mget ((List.enumFrom k l).map fun q => (q.2.1, N + q.1)) y = some j → x = y) ∧
      (∀ x j, mget ((List.enumFrom k l).map fun q => (q.2.1, N + q.1)) x = some j →
        ∃ v, l.get? (j - (N + k)) = some (x, v)) := by
  intro l
  induction l with
  | nil =>
    intro k
    refine ⟨fun x _ => rfl, ?_, ?_, ?_, ?_⟩
    · intro x hx
      cases hx
    · intro x j h
      cases h
    · intro _ x y j h
      cases h
    · intro x j h
      cases h
  | cons a t ih =>
    intro k
    obtain ⟨ih1, ih2, ih3, ih4, ih5⟩ := ih (k + 1)
    have hcons : (List.enumFrom k (a :: t)).map (fun q => (q.2.1, N + q.1)) =
        (a.1, N + k) :: (List.enumFrom (k + 1) t).map fun q => (q.2.1, N + q.1) := rfl
    refine ⟨?_, ?_, ?_, ?_, ?_⟩
    · intro x hx
      rw [hcons, mget, if_neg (fun h => hx (by rw [← h]; exact List.mem_cons_self _ _))]
      exact ih1 x (fun h => hx (List.mem_cons_of_mem _ h))
    · intro x hx
      rw [hcons]
      by_cases hax : a.1 = x
      · rw [mget, if_pos hax]
        exact ⟨N + k, rfl⟩
      · rw [mget, if_neg hax]
        rcases List.mem_cons.mp hx with hx | hx
        · exact absurd hx.symm hax
        · exact ih2 x hx
    · intro x j h
      rw [hcons] at h
      rw [mget] at h
      by_cases hax : a.1 = x
      · rw [if_pos hax] at h
        cases h
        constructor
        · exact Nat.le_refl _
        · have : 0 < (a :: t).length := Nat.succ_pos _
          simp only [List.length_cons]
          omega
      · rw [if_neg hax] at h
        obtain ⟨h1, h2⟩ := ih3 x j h
        simp only [List.length_cons]
        omega
    · intro hnd x y j hx hy
      have hand : a.1 ∉ t.map Prod.fst ∧ (t.map Prod.fst).Nodup := by
        rw [List.map_cons, List.nodup_cons] at hnd
        exact hnd
      rw [hcons, mget] at hx hy
      by_cases hax : a.1 = x
      · rw [if_pos hax] at hx
        by_cases hay : a.1 = y
        · rw [← hax, ← hay]
        · rw [if_neg hay] at hy
          cases hx
          obtain ⟨h1, _⟩ := ih3 y _ hy
          omega
      · rw [if_neg hax] at hx
        by_cases hay : a.1 = y
        · rw [if_pos hay] at hy
          cases hy
          obtain ⟨h1, _⟩ := ih3 x _ hx
          omega
        · rw [if_neg hay] at hy
          exact ih4 hand.2 x y j hx hy
    · intro x j h
      rw [hcons, mget] at h
      by_cases hax : a.1 = x
      · rw [if_pos hax] at h
        cases h
        have hidx : N + k - (N + k) = 0 := by omega
        rw [hidx]
        refine ⟨a.2, ?_⟩
        rw [← hax]
        rfl
      · rw [if_neg hax] at h
        obtain ⟨v, hv⟩ := ih5 x j h
        obtain ⟨h1, _⟩ := ih3 x j h
        refine ⟨v, ?_⟩
        rw [show j - (N + k) = (j - (N + (k + 1))) + 1 from by omega]
        exact hv

theorem regraftNode_fst (st : VCState α) (idMap : List (Nat × Nat)) (tmp : VCState α)
    (irid oldId : Nat) (v : Version α) :
    (regraftNode st idMap tmp irid oldId v).1 = (mget idMap oldId).getD 0 := by
  simp only [regraftNode]
  by_cases h : oldId = irid ∧ v.delta.isSome = true ∧ v.data = none
  · rw [if_pos h]
    cases hres : (resolveData tmp oldId).1 <;> rfl
  · rw [if_neg h]

theorem regraftNode_snd (st : VCState α) (idMap : List (Nat × Nat)) (tmp : VCState α)
    (irid oldId : Nat) (v : Version α) :
    (regraftNode st idMap tmp irid oldId v).2.id = (mget idMap oldId).getD 0 ∧
    (regraftNode st idMap tmp irid oldId v).2.parentId =
      (if oldId = irid then st.rootId
       else match v.parentId with
            | none => none
            | some q => mget idMap q) ∧
    (regraftNode st idMap tmp irid oldId v).2.children =
      v.children.filterMap (mget idMap) := by
  simp only [regraftNode]
  by_cases h : oldId = irid ∧ v.delta.isSome = true ∧ v.data = none
  · rw [if_pos h]
    cases hres : (resolveData tmp oldId).1
    · exact ⟨rfl, rfl, rfl⟩
    · exact ⟨rfl, rfl, rfl⟩
  · rw [if_neg h]
    exact ⟨rfl, rfl, rfl⟩

theorem graftInsertFold_char (st' : VCState α) (idMap : List (Nat × Nat))
    (tmp : VCState α) (irid : Nat) :
    ∀ (l : List (Nat × Version α)) (s : VCState α),
      (l.map fun p => (regraftNode st' idMap tmp irid p.1 p.2).1).Nodup →
      (∀ p ∈ l, (regraftNode st' idMap tmp irid p.1 p.2).1 ∉ keysOf s.versions) →
      (graftInsertFold st' idMap tmp irid l s).rootId = s.rootId ∧
      (graftInsertFold st' idMap tmp irid l s).currentId = s.currentId ∧
      (graftInsertFold st' idMap tmp irid l s).nextId = s.nextId ∧
      (graftInsertFold st' idMap tmp irid l s).maxVersions = s.maxVersions ∧
      (graftInsertFold st' idMap tmp irid l s).cache = s.cache ∧
      (∀ x, (∀ p ∈ l, x ≠ (regraftNode st' idMap tmp irid p.1 p.2).1) →
        mget (graftInsertFold st' idMap tmp irid l s).versions x = mget s.versions x) ∧
      (∀ p ∈ l, mget (graftInsertFold st' idMap tmp irid l s).versions
          (regraftNode st' idMap tmp irid p.1 p.2).1 =
        some (regraftNode st' idMap tmp irid p.1 p.2).2) ∧
      keysOf (graftInsertFold st' idMap tmp irid l s).versions =
        keysOf s.versions ++ l.map (fun p => (regraftNode st' idMap tmp irid p.1 p.2).1) := by
  intro l
  induction l with
  | nil =>
    intro s _ _
    refine ⟨rfl, rfl, rfl, rfl, rfl, fun x _ => rfl, ?_, by simp [graftInsertFold]⟩
    intro p hp
    cases hp
  | cons a t ih =>
    intro s hnd hfresh
    have hka : (regraftNode st' idMap tmp irid a.1 a.2).1 ∉
        (t.map fun p => (regraftNode st' idMap tmp irid p.1 p.2).1) := by
      rw [List.map_cons, List.nodup_cons] at hnd
      exact hnd.1
    have hndt : (t.map fun p => (regraftNode st' idMap tmp irid p.1 p.2).1).Nodup := by
      rw [List.map_cons, List.nodup_cons] at hnd
      exact hnd.2
    have hkas : (regraftNode st' idMap tmp irid a.1 a.2).1 ∉ keysOf s.versions :=
      hfresh a (List.mem_cons_self _ _)
    have hstep : graftInsertFold st' idMap tmp irid (a :: t) s =
        graftInsertFold st' idMap tmp irid t
          { s with versions := (mset s.versions (regraftNode st' idMap tmp irid a.1 a.2).1
              (regraftNode st' idMap tmp irid a.1 a.2).2) } := by
      simp only [graftInsertFold, List.foldl_cons]
    have hkeys' : keysOf (mset s.versions (regraftNode st' idMap tmp irid a.1 a.2).1
        (regraftNode st' idMap tmp irid a.1 a.2).2) =
        keysOf s.versions ++ [(regraftNode st' idMap tmp irid a.1 a.2).1] :=
      keysOf_mset_of_not_mem _ hkas
    have hfresh' : ∀ p ∈ t, (regraftNode st' idMap tmp irid p.1 p.2).1 ∉
        keysOf (mset s.versions (regraftNode st' idMap tmp irid a.1 a.2).1
          (regraftNode st' idMap tmp irid a.1 a.2).2) := by
      intro p hp
      rw [hkeys']
      intro hmem
      rcases List.mem_append.mp hmem with h1 | h1
      · exact hfresh p (List.mem_cons_of_mem _ hp) h1
      · rcases List.mem_singleton.mp h1 with h2
        exact hka (h2 ▸ List.mem_map_of_mem _ hp)
    obtain ⟨i1, i2, i3, i4, i5, i6, i7, i8⟩ := ih
      { s with versions := (mset s.versions (regraftNode st' idMap tmp irid a.1 a.2).1
          (regraftNode st' idMap tmp irid a.1 a.2).2) } hndt hfresh'
    rw [hstep]
    refine ⟨i1, i2, i3, i4, i5, ?_, ?_, ?_⟩
    · intro x hx
      rw [i6 x (fun p hp => hx p (List.mem_cons_of_mem _ hp))]
      exact mget_mset_ne _ _ _ _ (hx a (List.mem_cons_self _ _))
    · intro p hp
      rcases List.mem_cons.mp hp with hp1 | hp1
      · rw [hp1]
        rw [i6 _ (fun q hq heq => hka (by rw [heq]; exact List.mem_map_of_mem _ hq))]
        exact mget_mset_self _ _ _
      · exact i7 p hp1
    · rw [i8, hkeys', List.append_assoc]
      rfl

/-- `graftTree` returns the same new-current id as its prune-free core. -/
theorem graftTree_fst (st : VCState α) (imported : List (Nat × Version α))
    (irid icur : Nat) :
    (graftTree st imported irid icur).1 =
      (graftTreeNoPrune st imported irid icur).1 := rfl

/-- `graftTree` is its prune-free core followed by the capacity check
(`pruneOldVersions` exactly when the grafted store exceeds the cap). -/
theorem graftTree_snd (st : VCState α) (imported : List (Nat × Version α))
    (irid icur : Nat) :
    (graftTree st imported irid icur).2 =
      (if (graftTreeNoPrune st imported irid icur).2.maxVersions <
          (graftTreeNoPrune st imported irid icur).2.versions.length
       then pruneOldVersions (graftTreeNoPrune st imported irid icur).2 0
       else (graftTreeNoPrune st imported irid icur).2) := rfl

theorem graftTreeNoPrune_char {st : VCState α} (hI : Inv st) {r : Nat} {w : Version α}
    (hr : st.rootId = some r) (hw : mget st.versions r = some w)
    (imported : List (Nat × Version α)) (irid icur : Nat)
    (hkeys : (imported.map Prod.fst).Nodup)
    (hrm : irid ∈ imported.map Prod.fst)
    (hcm : icur ∈ imported.map Prod.fst) :
    (∀ k j, mget (graftIdMap st imported) k = some j → mget st.versions j = none) ∧
    (keysOf (graftTreeNoPrune st imported irid icur).2.versions).Nodup ∧
    (∃ nc, mget (graftIdMap st imported) icur = some nc ∧
      (graftTreeNoPrune st imported irid icur).1 = some nc ∧
      (graftTreeNoPrune st imported irid icur).2.currentId = some nc) ∧
    (∃ nr, mget (graftIdMap st imported) irid = some nr ∧
      mget (graftTreeNoPrune st imported irid icur).2.versions r =
        some { w with children := w.children ++ [nr] }) ∧
    (∀ p ∈ imported, ∃ (j : Nat) (nv : Version α),
      mget (graftIdMap st imported) p.1 = some j ∧
      mget (graftTreeNoPrune st imported irid icur).2.versions j = some nv ∧
      nv.id = j ∧
      nv.children = p.2.children.filterMap (mget (graftIdMap st imported)) ∧
      nv.parentId = (if p.1 = irid then st.rootId
        else match p.2.parentId with
             | none => none
             | some q => mget (graftIdMap st imported) q)) ∧
    (∀ x, x ≠ r → x < st.nextId →
      mget (graftTreeNoPrune st imported irid icur).2.versions x = mget st.versions x) ∧
    (graftTreeNoPrune st imported irid icur).2.rootId = st.rootId ∧
    (graftTreeNoPrune st imported irid icur).2.nextId = st.nextId + imported.length ∧
    keysOf (graftTreeNoPrune st imported irid icur).2.versions =
      keysOf st.versions ++
        imported.map (fun p => (mget (graftIdMap st imported) p.1).getD 0) ∧
    (∀ x j, mget (graftIdMap st imported) x = some j →
      ∃ v, imported.get? (j - st.nextId) = some (x, v)) ∧
    (∀ x j, mget (graftIdMap st imported) x = some j →
      st.nextId ≤ j ∧ j < st.nextId + imported.length) ∧
    (∀ x, x ∉ imported.map Prod.fst → mget (graftIdMap st imported) x = none) ∧
    (graftTreeNoPrune st imported irid icur).2.versions.length =
      st.versions.length + imported.length ∧
    (graftTreeNoPrune st imported irid icur).2.maxVersions = st.maxVersions := by
  obtain ⟨Z1, Z2, Z3, Z4, Z5⟩ := enumIdMap_char st.nextId imported 0
  have hidm : graftIdMap st imported =
      (List.enumFrom 0 imported).map fun q => (q.2.1, st.nextId + q.1) := rfl
  have Z2' : ∀ x, x ∈ imported.map Prod.fst →
      ∃ j, mget (graftIdMap st imported) x = some j := by
    intro x hx
    rw [hidm]
    exact Z2 x hx
  have Z3' : ∀ x j, mget (graftIdMap st imported) x = some j →
      st.nextId ≤ j ∧ j < st.nextId + imported.length := by
    intro x j h
    rw [hidm] at h
    have h2 := Z3 x j h
    omega
  have Z4' : ∀ x y j, mget (graftIdMap st imported) x = some j →
      mget (graftIdMap st imported) y = some j → x = y := by
    intro x y j h1 h2
    rw [hidm] at h1 h2
    exact Z4 hkeys x y j h1 h2
  have Z1' : ∀ x, x ∉ imported.map Prod.fst →
      mget (graftIdMap st imported) x = none := by
    intro x hx
    rw [hidm]
    exact Z1 x hx
  have Z5' : ∀ x j, mget (graftIdMap st imported) x = some j →
      ∃ v, imported.get? (j - st.nextId) = some (x, v) := by
    intro x j h
    rw [hidm] at h
    obtain ⟨v, hv⟩ := Z5 x j h
    rw [Nat.add_zero] at hv
    exact ⟨v, hv⟩
  have hfreshlocal : ∀ k j, mget (graftIdMap st imported) k = some j →
      mget st.versions j = none := by
    intro k j h
    obtain ⟨h1, _⟩ := Z3' k j h
    cases hx : mget st.versions j with
    | none => rfl
    | some v =>
      have h2 : j < st.nextId := hI.keysLt (j, v) (mget_eq_some_mem hx)
      omega
  have hent : ∀ p ∈ imported, ∃ j, mget (graftIdMap st imported) p.1 = some j :=
    fun p hp => Z2' p.1 (List.mem_map_of_mem Prod.fst hp)
  have himp_nd : imported.Nodup := hkeys.of_map
  have hinj_on : ∀ x ∈ imported, ∀ y ∈ imported, x.1 = y.1 → x = y :=
    List.inj_on_of_nodup_map hkeys
  have hinsnd : (imported.map fun p =>
      (regraftNode st (graftIdMap st imported)
        (tempResolver imported irid icur) irid p.1 p.2).1).Nodup := by
    refine List.Nodup.map_on ?_ himp_nd
    intro x hx y hy heq
    rw [regraftNode_fst, regraftNode_fst] at heq
    obtain ⟨jx, hjx⟩ := hent x hx
    obtain ⟨jy, hjy⟩ := hent y hy
    rw [hjx, hjy] at heq
    have hjj : jx = jy := heq
    rw [hjj] at hjx
    exact hinj_on x hx y hy (Z4' x.1 y.1 jy hjx hjy)
  set idM : List (Nat × Nat) := graftIdMap st imported with hidM
  set tmpV : VCState α := tempResolver imported irid icur with htmpV
  set ST0 : VCState α :=
    { versions := st.versions, rootId := some r, currentId := st.currentId,
      maxVersions := st.maxVersions, nextId := st.nextId + imported.length,
      clock := st.clock, cache := st.cache } with hST0
  have hfresh0 : ∀ p ∈ imported,
      (regraftNode st idM tmpV irid p.1 p.2).1 ∉ keysOf ST0.versions := by
    intro p hp hmem
    obtain ⟨j, hj⟩ := hent p hp
    rw [regraftNode_fst, hj] at hmem
    have hmem' : j ∈ keysOf st.versions := hmem
    have hnone := hfreshlocal p.1 j hj
    rw [mget_none_iff] at hnone
    exact hnone hmem'
  set ST1 : VCState α := graftInsertFold st idM tmpV irid imported ST0 with hST1
  obtain ⟨g1, g2, g3, g4, g5, g6, g7, g8⟩ :=
    graftInsertFold_char st idM tmpV irid imported ST0 hinsnd hfresh0
  rw [← hST1] at g1 g2 g3 g4 g5 g6 g7 g8
  have hrlt : r < st.nextId := hI.keysLt (r, w) (mget_eq_some_mem hw)
  have hrne : ∀ p ∈ imported, r ≠ (regraftNode st idM tmpV irid p.1 p.2).1 := by
    intro p hp heq
    obtain ⟨j, hj⟩ := hent p hp
    rw [regraftNode_fst, hj] at heq
    have h3 : r = j := heq
    obtain ⟨h1, _⟩ := Z3' p.1 j hj
    omega
  have hget1r : mget ST1.versions r = some w := by
    rw [g6 r hrne]
    exact hw
  obtain ⟨nr, hnr⟩ := Z2' irid hrm
  obtain ⟨nc, hnc⟩ := Z2' icur hcm
  set WR : Version α := { w with children := w.children ++ [nr] } with hWR
  set ST2 : VCState α := { ST1 with versions := mset ST1.versions r WR } with hST2
  set ST3 : VCState α := { ST2 with currentId := some nc, cache := [] } with hST3g
  have hA : mget (graftIdMap st imported) irid = some nr := hnr
  have hB : mget (graftIdMap st imported) icur = some nc := hnc
  have hC : mget
      (imported.foldl
        (fun (s : VCState α) p =>
          { s with versions := (mset s.versions
              (regraftNode st (graftIdMap st imported)
                (tempResolver imported irid icur) irid p.1 p.2).1
              (regraftNode st (graftIdMap st imported)
                (tempResolver imported irid icur) irid p.1 p.2).2) })
        { versions := st.versions, rootId := some r, currentId := st.currentId,
          maxVersions := st.maxVersions, nextId := st.nextId + imported.length,
          clock := st.clock, cache := st.cache }).versions r = some w := hget1r
  have hred : graftTreeNoPrune st imported irid icur = (some nc, ST3) := by
    simp only [graftTreeNoPrune, hr, hA, hB, hC]
    rfl
  have hST3v : ST3.versions = mset ST1.versions r WR := by
    rw [hST3g, hST2]
  have hrmem1 : r ∈ keysOf ST1.versions :=
    List.mem_map_of_mem Prod.fst (mget_eq_some_mem hget1r)
  have hlen3 : ST3.versions.length = st.versions.length + imported.length := by
    rw [hST3v, mset_length, if_pos hrmem1]
    have h2 : ST1.versions.length = (keysOf ST1.versions).length :=
      (List.length_map _ _).symm
    rw [h2, g8, List.length_append, List.length_map]
    rw [show keysOf ST0.versions = st.versions.map Prod.fst from rfl, List.length_map]
  have hm3 : ST3.maxVersions = st.maxVersions := by
    rw [hST3g, hST2]
    exact g4
  have hfin : (graftTreeNoPrune st imported irid icur).2 = ST3 := by
    rw [hred]
  have hfin1 : (graftTreeNoPrune st imported irid icur).1 = some nc := by
    rw [hred]
  have hget3 : ∀ x, x ≠ r → mget ST3.versions x = mget ST1.versions x := by
    intro x hx
    rw [hST3v]
    exact mget_mset_ne _ _ _ _ hx
  have hget3r : mget ST3.versions r = some WR := by
    rw [hST3v]
    exact mget_mset_self _ _ _
  have h2keys : keysOf ST3.versions = keysOf ST0.versions ++
      (imported.map fun p => (regraftNode st idM tmpV irid p.1 p.2).1) := by
    rw [hST3v, keysOf_mset_of_mem _ hrmem1]
    exact g8
  have hmapeq : (imported.map fun p => (regraftNode st idM tmpV irid p.1 p.2).1) =
      imported.map fun p => (mget idM p.1).getD 0 := by
    simp only [regraftNode_fst]
  refine ⟨hfreshlocal, ?_, ⟨nc, hnc, hfin1, ?_⟩, ⟨nr, hnr, ?_⟩, ?_, ?_, ?_, ?_, ?_,
    Z5', Z3', Z1', ?_, ?_⟩
  · -- no id collisions: result keys are duplicate-free
    rw [hfin, h2keys, List.nodup_append]
    refine ⟨hI.nodupKeys, hinsnd, ?_⟩
    intro x hx1 hx2
    have hx1' : x ∈ keysOf st.versions := hx1
    obtain ⟨e, he, heq⟩ := List.mem_map.mp hx1'
    have hlt : x < st.nextId := by
      have h3 := hI.keysLt e he
      rw [heq] at h3
      exact h3
    obtain ⟨q, hq, hqe⟩ := List.mem_map.mp hx2
    obtain ⟨j, hj⟩ := hent q hq
    rw [regraftNode_fst, hj] at hqe
    have hxj : j = x := hqe
    obtain ⟨h1, _⟩ := Z3' q.1 j hj
    omega
  · -- currentId
    rw [hfin, hST3g]
  · -- one new child under the local root
    rw [hfin, hget3r, hWR]
  · -- every imported node, re-keyed and remapped
    intro p hp
    obtain ⟨j, hj⟩ := hent p hp
    have hkey : (regraftNode st idM tmpV irid p.1 p.2).1 = j := by
      rw [regraftNode_fst, hj]
      rfl
    have hjr : j ≠ r := by
      obtain ⟨h1, _⟩ := Z3' p.1 j hj
      omega
    have hm1 : mget ST1.versions j = some (regraftNode st idM tmpV irid p.1 p.2).2 := by
      rw [← hkey]
      exact g7 p hp
    refine ⟨j, (regraftNode st idM tmpV irid p.1 p.2).2, hj, ?_, ?_, ?_, ?_⟩
    · rw [hfin, hget3 j hjr]
      exact hm1
    · rw [(regraftNode_snd st idM tmpV irid p.1 p.2).1, hj]
      rfl
    · exact (regraftNode_snd st idM tmpV irid p.1 p.2).2.2
    · exact (regraftNode_snd st idM tmpV irid p.1 p.2).2.1
  · -- untouched local nodes
    intro x hxr hxlt
    have hxne : ∀ p ∈ imported, x ≠ (regraftNode st idM tmpV irid p.1 p.2).1 := by
      intro p hp heq
      obtain ⟨j, hj⟩ := hent p hp
      rw [regraftNode_fst, hj] at heq
      have h3 : x = j := heq
      obtain ⟨h1, _⟩ := Z3' p.1 j hj
      omega
    rw [hfin, hget3 x hxr, g6 x hxne]
  · -- root pointer unchanged
    rw [hfin]
    show ST1.rootId = st.rootId
    exact g1.trans hr.symm
  · -- id counter advanced past every fresh id
    rw [hfin]
    show ST1.nextId = st.nextId + imported.length
    exact g3
  · -- result key list
    have hkk : keysOf ST0.versions = keysOf st.versions := rfl
    rw [hfin, h2keys, hmapeq, hkk]
  · -- size of the (pre-prune) result
    rw [hfin]
    exact hlen3
  · -- capacity unchanged
    rw [hfin]
    exact hm3

/-- C8, amended: grafting an imported tree (with possibly colliding node
ids) into a non-empty local tree re-keys every imported node with a fresh
local id (never colliding with an existing id, duplicate-free overall),
remaps `parentId` (the imported root is attached under the local root) and
`children` (dropping unknown targets), adds exactly one new child — the
remapped imported root — under the local root, and sets `current` to the
remapped imported-current node — provided the grafted store fits under the
capacity cap; when it does not, the prune that `graftTree` then runs can
evict local nodes and undo the root's new child (see the counterexample). -/
theorem claim8_graft {st : VCState α} (hI : Inv st) {r : Nat} {w : Version α}
    (hr : st.rootId = some r) (hw : mget st.versions r = some w)
    (imported : List (Nat × Version α)) (irid icur : Nat)
    (hkeys : (imported.map Prod.fst).Nodup)
    (hrm : irid ∈ imported.map Prod.fst)
    (hcm : icur ∈ imported.map Prod.fst)
    (hsize : st.versions.length + imported.length ≤ st.maxVersions) :
    (∀ k j, mget (graftIdMap st imported) k = some j → mget st.versions j = none) ∧
    (keysOf (graftTree st imported irid icur).2.versions).Nodup ∧
    (∃ nc, mget (graftIdMap st imported) icur = some nc ∧
      (graftTree st imported irid icur).1 = some nc ∧
      (graftTree st imported irid icur).2.currentId = some nc) ∧
    (∃ nr, mget (graftIdMap st imported) irid = some nr ∧
      mget (graftTree st imported irid icur).2.versions r =
        some { w with children := w.children ++ [nr] }) ∧
    (∀ p ∈ imported, ∃ (j : Nat) (nv : Version α),
      mget (graftIdMap st imported) p.1 = some j ∧
      mget (graftTree st imported irid icur).2.versions j = some nv ∧
      nv.id = j ∧
      nv.children = p.2.children.filterMap (mget (graftIdMap st imported)) ∧
      nv.parentId = (if p.1 = irid then st.rootId
        else match p.2.parentId with
             | none => none
             | some q => mget (graftIdMap st imported) q)) ∧
    (∀ x, x ≠ r → x < st.nextId →
      mget (graftTree st imported irid icur).2.versions x = mget st.versions x) := by
  obtain ⟨a1, a2, ⟨nc, hnc, hfst, hcur⟩, ⟨nr, hnr, hrget⟩, a5, a6,
      _, _, _, _, _, _, hlen, hmax⟩ :=
    graftTreeNoPrune_char hI hr hw imported irid icur hkeys hrm hcm
  have hnp : (graftTree st imported irid icur).2 =
      (graftTreeNoPrune st imported irid icur).2 := by
    rw [graftTree_snd]
    rw [if_neg (by rw [hmax, hlen]; omega)]
  refine ⟨a1, ?_, ⟨nc, hnc, ?_, ?_⟩, ⟨nr, hnr, ?_⟩, ?_, ?_⟩
  · rw [hnp]
    exact a2
  · rw [graftTree_fst]
    exact hfst
  · rw [hnp]
    exact hcur
  · rw [hnp]
    exact hrget
  · intro p hp
    obtain ⟨j, nv, h1, h2, h3, h4, h5⟩ := a5 p hp
    exact ⟨j, nv, h1, by rw [hnp]; exact h2, h3, h4, h5⟩
  · intro x hx hlt
    rw [hnp]
    exact a6 x hx hlt

/-- Witness for C8: graft a two-node imported tree whose ids 0 and 1
collide with the local one-node store. -/
theorem claim8_witness :
    (∀ k j, mget (graftIdMap oneNodeSt graftImp) k = some j →
      mget oneNodeSt.versions j = none) ∧
    (keysOf (graftTree oneNodeSt graftImp 0 1).2.versions).Nodup ∧
    (∃ nc, mget (graftIdMap oneNodeSt graftImp) 1 = some nc ∧
      (graftTree oneNodeSt graftImp 0 1).1 = some nc ∧
      (graftTree oneNodeSt graftImp 0 1).2.currentId = some nc) ∧
    (∃ nr, mget (graftIdMap oneNodeSt graftImp) 0 = some nr ∧
      mget (graftTree oneNodeSt graftImp 0 1).2.versions 0 =
        some { (⟨0, none, [], 0, "init", 0, 0, some [], none⟩ : Version Nat) with
          children := (⟨0, none, [], 0, "init", 0, 0, some [], none⟩ : Version Nat).children
            ++ [nr] }) ∧
    (∀ p ∈ graftImp, ∃ (j : Nat) (nv : Version Nat),
      mget (graftIdMap oneNodeSt graftImp) p.1 = some j ∧
      mget (graftTree oneNodeSt graftImp 0 1).2.versions j = some nv ∧
      nv.id = j ∧
      nv.children = p.2.children.filterMap (mget (graftIdMap oneNodeSt graftImp)) ∧
      nv.parentId = (if p.1 = 0 then oneNodeSt.rootId
        else match p.2.parentId with
             | none => none
             | some q => mget (graftIdMap oneNodeSt graftImp) q)) ∧
    (∀ x, x ≠ 0 → x < oneNodeSt.nextId →
      mget (graftTree oneNodeSt graftImp 0 1).2.versions x = mget oneNodeSt.versions x) :=
  claim8_graft invOneNode rfl (by decide) graftImp 0 1 (by decide) (by decide)
    (by decide) (by decide)

/-- C8 counterexample to the unamended claim: grafting a well-formed
one-node import into a full-to-capacity store triggers the prune inside
`graftTree`, which evicts the old local node 1 (so local nodes other than
the root are not left untouched) and rewrites the root's child list to
hold only the remapped imported root (so the new child is not merely
appended to the existing children). -/
theorem claim8_counterexample :
    Inv gcxSt ∧
    (gcxImp.map Prod.fst).Nodup ∧
    5 ∈ gcxImp.map Prod.fst ∧
    gcxSt.versions.length + gcxImp.length > gcxSt.maxVersions ∧
    (∀ nr, mget (graftIdMap gcxSt gcxImp) 5 = some nr →
      mget (graftTree gcxSt gcxImp 5 5).2.versions 0 ≠
        some { gcxV0 with children := gcxV0.children ++ [nr] }) ∧
    mget gcxSt.versions 1 ≠ none ∧
    mget (graftTree gcxSt gcxImp 5 5).2.versions 1 = none := by
  refine ⟨⟨by decide, by decide, by decide, by decide, by decide, by decide, by decide,
    by decide, by decide, by decide, by decide, by decide,
    ⟨fun x => x, by unfold ParentRank; decide⟩⟩,
    by decide, by decide, by decide, by decide, by decide, by decide⟩

theorem graft_inv {st : VCState α} (hI : Inv st) {r : Nat} {w : Version α}
    (hr : st.rootId = some r) (hw : mget st.versions r = some w)
    (imported : List (Nat × Version α)) (irid icur : Nat)
    (hkeys : (imported.map Prod.fst).Nodup)
    (hrm : irid ∈ imported.map Prod.fst)
    (hcm : icur ∈ imported.map Prod.fst)
    (hchnd : ∀ p ∈ imported, p.2.children.Nodup)
    (hchback : ∀ p ∈ imported, ∀ c ∈ p.2.children, ∀ q ∈ imported, q.1 = c →
      q.2.parentId = some p.1)
    (hparfull : ∀ p ∈ imported, p.1 ≠ irid → ∃ q, p.2.parentId = some q ∧
      q ∈ imported.map Prod.fst ∧ ∀ e ∈ imported, e.1 = q → p.1 ∈ e.2.children)
    (hnorootch : ∀ p ∈ imported, irid ∉ p.2.children)
    (hacy : ∃ rnkI : Nat → Nat, ∀ p ∈ imported, ∀ q, p.1 ≠ irid →
      p.2.parentId = some q → rnkI q < rnkI p.1) :
    Inv (graftTree st imported irid icur).2 := by
  have hcore : Inv (graftTreeNoPrune st imported irid icur).2 := by
    obtain ⟨hfresh, hnodup, ⟨nc, hnc, hret, hcurid⟩, ⟨nr, hnr, hrootget⟩, himp, hloc,
      hrootid, hnextid, hkeyseq, hpos, hbnd, hnone, _, _⟩ :=
      graftTreeNoPrune_char hI hr hw imported irid icur hkeys hrm hcm
    set GT : VCState α := (graftTreeNoPrune st imported irid icur).2 with hGT
    set idM : List (Nat × Nat) := graftIdMap st imported with hidM
    set RV : Version α := { w with children := w.children ++ [nr] } with hRV
    have hinj : ∀ x y j, mget idM x = some j → mget idM y = some j → x = y := by
      intro x y j h1 h2
      obtain ⟨v1, hv1⟩ := hpos x j h1
      obtain ⟨v2, hv2⟩ := hpos y j h2
      rw [hv1] at hv2
      have h3 : (x, v1) = (y, v2) := Option.some.inj hv2
      exact congrArg Prod.fst h3
    have hwmem : (r, w) ∈ st.versions := mget_eq_some_mem hw
    have hrlt : r < st.nextId := hI.keysLt (r, w) hwmem
    have hwparnone : w.parentId = none := (hI.parentRootIff (r, w) hwmem).mpr hr
    have hgr : GT.rootId = some r := by
      rw [hrootid]
      exact hr
    have hresget : ∀ e ∈ GT.versions, mget GT.versions e.1 = some e.2 := by
      intro e he
      have he' : (e.1, e.2) ∈ GT.versions := by
        cases e
        exact he
      exact mget_of_mem_nodup hnodup he'
    have hpoGT : ∀ x wx, mget GT.versions x = some wx →
        parentOf GT.versions x = wx.parentId := by
      intro x wx h
      simp [parentOf, h]
    have hstentry : ∀ c q, parentOf st.versions c = some q →
        ∃ wc, mget st.versions c = some wc ∧ wc.parentId = some q := by
      intro c q h1
      unfold parentOf at h1
      cases hx : mget st.versions c with
      | none => rw [hx] at h1; cases h1
      | some wc =>
        rw [hx] at h1
        exact ⟨wc, rfl, h1⟩
    have hstpres_lt : ∀ x v, mget st.versions x = some v → x < st.nextId :=
      fun x v h => hI.keysLt (x, v) (mget_eq_some_mem h)
    have hkeyent : ∀ k, k ∈ imported.map Prod.fst → ∃ e, e ∈ imported ∧ e.1 = k := by
      intro k hk
      obtain ⟨e, he, heq⟩ := List.mem_map.mp hk
      exact ⟨e, he, heq⟩
    have hkeysome : ∀ k, k ∈ imported.map Prod.fst → ∃ j, mget idM k = some j := by
      intro k hk
      obtain ⟨e, he, heq⟩ := hkeyent k hk
      obtain ⟨j, nv, hj, _⟩ := himp e he
      rw [heq] at hj
      exact ⟨j, hj⟩
    have hkeymem : ∀ k j, mget idM k = some j → k ∈ imported.map Prod.fst := by
      intro k j h
      by_contra hk
      rw [hnone k hk] at h
      cases h
    have hcase : ∀ e ∈ GT.versions,
        (e.1 = r ∧ e.2 = RV) ∨
        (∃ p, p ∈ imported ∧ mget idM p.1 = some e.1 ∧
          e.2.id = e.1 ∧
          e.2.children = p.2.children.filterMap (mget idM) ∧
          e.2.parentId = (if p.1 = irid then st.rootId
            else match p.2.parentId with
                 | none => none
                 | some q => mget idM q) ∧
          st.nextId ≤ e.1) ∨
        (e.1 ≠ r ∧ e.1 < st.nextId ∧ mget st.versions e.1 = some e.2) := by
      intro e he
      have hme := hresget e he
      have hkey : e.1 ∈ keysOf GT.versions := by
        have he' : (e.1, e.2) ∈ GT.versions := by
          cases e
          exact he
        exact List.mem_map_of_mem Prod.fst he'
      rw [hkeyseq] at hkey
      rcases List.mem_append.mp hkey with hold | hnew
      · have hlt : e.1 < st.nextId := by
          obtain ⟨q0, hq0, hq0e⟩ := List.mem_map.mp hold
          have h3 := hI.keysLt q0 hq0
          rw [hq0e] at h3
          exact h3
        by_cases her : e.1 = r
        · left
          refine ⟨her, ?_⟩
          rw [her, hrootget] at hme
          exact (Option.some.inj hme).symm
        · right; right
          refine ⟨her, hlt, ?_⟩
          rw [← hloc e.1 her hlt]
          exact hme
      · right; left
        obtain ⟨p, hp, hpe⟩ := List.mem_map.mp hnew
        obtain ⟨j, nv, hj, hnvget, hnvid, hnvch, hnvpar⟩ := himp p hp
        have hje : j = e.1 := by
          rw [hj] at hpe
          exact hpe
        rw [hje] at hj hnvget hnvid
        have hnv2 : nv = e.2 := Option.some.inj (hnvget.symm.trans hme)
        rw [hnv2] at hnvid hnvch hnvpar
        exact ⟨p, hp, hj, hnvid, hnvch, hnvpar, (hbnd p.1 e.1 hj).1⟩
    have hncsome : mget GT.versions nc ≠ none := by
      obtain ⟨e0, he0, he0k⟩ := hkeyent icur hcm
      obtain ⟨j, nv, hj, hnvget, _⟩ := himp e0 he0
      rw [he0k] at hj
      rw [hj] at hnc
      rw [Option.some.inj hnc] at hnvget
      rw [hnvget]
      intro h
      cases h
    have hrsome : mget GT.versions r ≠ none := by
      rw [hrootget]
      intro h
      cases h
    refine ⟨hnodup, ?_, ?_, ?_, ?_, ?_, ?_, ?_, ?_, ?_, ?_, ?_, ?_⟩
    · -- keyMatch
      intro e he
      rcases hcase e he with ⟨her, he2⟩ | ⟨p, hp, hj, hid, _⟩ | ⟨her, hlt, hst⟩
      · rw [he2, her, hRV]
        exact hI.keyMatch (r, w) hwmem
      · exact hid
      · exact hI.keyMatch (e.1, e.2) (mget_eq_some_mem hst)
    · -- keysLt
      intro e he
      rw [hnextid]
      rcases hcase e he with ⟨her, _⟩ | ⟨p, hp, hj, _⟩ | ⟨_, hlt, _⟩
      · rw [her]
        omega
      · exact (hbnd p.1 e.1 hj).2
      · omega
    · -- rootNone
      constructor
      · intro h0
        rw [hgr] at h0
        cases h0
      · intro h0
        have h1 : mget GT.versions r = none := by
          rw [h0]
          rfl
        exact absurd h1 hrsome
    · -- currNone
      constructor
      · intro h0
        rw [hcurid] at h0
        cases h0
      · intro h0
        have h1 : mget GT.versions nc = none := by
          rw [h0]
          rfl
        exact absurd h1 hncsome
    · -- rootMem
      intro r' h0
      rw [hgr] at h0
      cases h0
      exact hrsome
    · -- currMem
      intro c' h0
      rw [hcurid] at h0
      cases h0
      exact hncsome
    · -- parentRootIff
      intro e he
      rw [hgr]
      rcases hcase e he with ⟨her, he2⟩ | ⟨p, hp, hj, hid, hch, hpar, hge⟩ | ⟨her, hlt, hst⟩
      · constructor
        · intro _
          rw [her]
        · intro _
          rw [he2, hRV]
          show w.parentId = none
          exact hwparnone
      · constructor
        · intro h0
          rw [h0] at hpar
          by_cases hpi : p.1 = irid
          · rw [if_pos hpi, hr] at hpar
            cases hpar
          · rw [if_neg hpi] at hpar
            obtain ⟨q0, hq0par, hq0mem, _⟩ := hparfull p hp hpi
            rw [hq0par] at hpar
            obtain ⟨jq, hjq⟩ := hkeysome q0 hq0mem
            have hpar' : (none : Option Nat) = mget idM q0 := hpar
            rw [hjq] at hpar'
            cases hpar'
        · intro h0
          have h1 : r = e.1 := Option.some.inj h0
          omega
      · constructor
        · intro h0
          have h1 := (hI.parentRootIff (e.1, e.2) (mget_eq_some_mem hst)).mp h0
          rw [hr] at h1
          exact absurd (Option.some.inj h1).symm her
        · intro h0
          exact absurd (Option.some.inj h0).symm her
    · -- parentMem
      intro e he q hq
      rcases hcase e he with ⟨her, he2⟩ | ⟨p, hp, hj, hid, hch, hpar, hge⟩ | ⟨her, hlt, hst⟩
      · rw [he2] at hq
        have hq' : w.parentId = some q := hq
        rw [hwparnone] at hq'
        cases hq'
      · rw [hpar] at hq
        by_cases hpi : p.1 = irid
        · rw [if_pos hpi, hr] at hq
          rw [← Option.some.inj hq]
          exact hrsome
        · rw [if_neg hpi] at hq
          obtain ⟨q0, hq0par, hq0mem, _⟩ := hparfull p hp hpi
          rw [hq0par] at hq
          have hq2 : mget idM q0 = some q := hq
          obtain ⟨e0, he0, he0k⟩ := hkeyent q0 hq0mem
          obtain ⟨j0, nv0, hj0, hnv0get, _⟩ := himp e0 he0
          rw [he0k] at hj0
          rw [hj0] at hq2
          rw [Option.some.inj hq2] at hnv0get
          rw [hnv0get]
          intro h
          cases h
      · have hq' : mget st.versions q ≠ none :=
          hI.parentMem (e.1, e.2) (mget_eq_some_mem hst) q hq
        cases hx : mget st.versions q with
        | none => exact absurd hx hq'
        | some wq =>
          have hqlt : q < st.nextId := hstpres_lt q wq hx
          by_cases hqr : q = r
          · rw [hqr]
            exact hrsome
          · rw [hloc q hqr hqlt, hx]
            intro h
            cases h
    · -- childNodup
      intro e he
      rcases hcase e he with ⟨her, he2⟩ | ⟨p, hp, hj, hid, hch, hpar, hge⟩ | ⟨her, hlt, hst⟩
      · rw [he2, hRV]
        show (w.children ++ [nr]).Nodup
        rw [List.nodup_append]
        refine ⟨hI.childNodup (r, w) hwmem, List.nodup_singleton _, ?_⟩
        intro a ha ha1
        have haw : parentOf st.versions a = some r := hI.chBack (r, w) hwmem a ha
        obtain ⟨wa, hwa, _⟩ := hstentry a r haw
        have halt : a < st.nextId := hstpres_lt a wa hwa
        have hnrge : st.nextId ≤ nr := (hbnd irid nr hnr).1
        rw [List.mem_singleton.mp ha1] at halt
        omega
      · rw [hch]
        refine List.Nodup.filterMap ?_ (hchnd p hp)
        intro a a' b hb hb'
        exact hinj a a' b hb hb'
      · exact hI.childNodup (e.1, e.2) (mget_eq_some_mem hst)
    · -- chBack
      intro e he c hcch
      rcases hcase e he with ⟨her, he2⟩ | ⟨p, hp, hj, hid, hch, hpar, hge⟩ | ⟨her, hlt, hst⟩
      · rw [he2] at hcch
        rw [her]
        have hcch' : c ∈ w.children ++ [nr] := hcch
        rcases List.mem_append.mp hcch' with hcw | hcnr
        · have haw : parentOf st.versions c = some r := hI.chBack (r, w) hwmem c hcw
          obtain ⟨wc, hwc, hwcpar⟩ := hstentry c r haw
          have hclt : c < st.nextId := hstpres_lt c wc hwc
          have hcr : c ≠ r := by
            intro h
            rw [h, hw] at hwc
            have hww : wc = w := (Option.some.inj hwc).symm
            rw [hww, hwparnone] at hwcpar
            cases hwcpar
          rw [hpoGT c wc (by rw [hloc c hcr hclt]; exact hwc)]
          exact hwcpar
        · rw [List.mem_singleton.mp hcnr]
          obtain ⟨e0, he0, he0k⟩ := hkeyent irid hrm
          obtain ⟨j0, nv0, hj0, hnv0get, _, _, hnv0par⟩ := himp e0 he0
          rw [he0k] at hj0
          rw [hj0] at hnr
          rw [Option.some.inj hnr] at hnv0get
          rw [hpoGT nr nv0 hnv0get, hnv0par, if_pos he0k]
          exact hr
      · rw [hch] at hcch
        obtain ⟨c0, hc0mem, hc0get⟩ := List.mem_filterMap.mp hcch
        have hc0key : c0 ∈ imported.map Prod.fst := hkeymem c0 c hc0get
        obtain ⟨e0, he0, he0k⟩ := hkeyent c0 hc0key
        obtain ⟨j0, nv0, hj0, hnv0get, _, _, hnv0par⟩ := himp e0 he0
        rw [he0k] at hj0
        rw [hj0] at hc0get
        rw [Option.some.inj hc0get] at hnv0get
        have hc0ir : e0.1 ≠ irid := by
          rw [he0k]
          intro h
          rw [h] at hc0mem
          exact hnorootch p hp hc0mem
        have hback : e0.2.parentId = some p.1 := hchback p hp c0 hc0mem e0 he0 he0k
        rw [hpoGT c nv0 hnv0get, hnv0par, if_neg hc0ir, hback]
        exact hj
      · have h1 : parentOf st.versions c = some e.1 :=
          hI.chBack (e.1, e.2) (mget_eq_some_mem hst) c hcch
        obtain ⟨wc, hwc, hwcpar⟩ := hstentry c e.1 h1
        have hclt : c < st.nextId := hstpres_lt c wc hwc
        have hcr : c ≠ r := by
          intro h
          rw [h, hw] at hwc
          have hww : wc = w := (Option.some.inj hwc).symm
          rw [hww, hwparnone] at hwcpar
          cases hwcpar
        rw [hpoGT c wc (by rw [hloc c hcr hclt]; exact hwc)]
        exact hwcpar
    · -- chFull
      intro ce hce pe hpe hcp0
      rcases hcase ce hce with ⟨her, he2⟩ | ⟨p, hp, hj, hid, hch, hpar, hge⟩ | ⟨her, hlt, hst⟩
      · rw [he2] at hcp0
        have hq' : w.parentId = some pe.1 := hcp0
        rw [hwparnone] at hq'
        cases hq'
      · rw [hpar] at hcp0
        by_cases hpi : p.1 = irid
        · rw [if_pos hpi, hr] at hcp0
          have hper : pe.1 = r := (Option.some.inj hcp0).symm
          have h4 := hresget pe hpe
          rw [hper, hrootget] at h4
          have hpe2 : pe.2 = RV := (Option.some.inj h4).symm
          rw [hpe2, hRV]
          show ce.1 ∈ w.children ++ [nr]
          rw [hpi] at hj
          rw [hj] at hnr
          rw [Option.some.inj hnr]
          exact List.mem_append_right _ (List.mem_singleton.mpr rfl)
        · rw [if_neg hpi] at hcp0
          obtain ⟨q0, hq0par, hq0mem, hq0full⟩ := hparfull p hp hpi
          rw [hq0par] at hcp0
          have hq2 : mget idM q0 = some pe.1 := hcp0
          obtain ⟨e0, he0, he0k⟩ := hkeyent q0 hq0mem
          obtain ⟨j0, nv0, hj0, hnv0get, _, hnv0ch, _⟩ := himp e0 he0
          rw [he0k] at hj0
          rw [hj0] at hq2
          rw [Option.some.inj hq2] at hnv0get
          have h4 := hresget pe hpe
          rw [hnv0get] at h4
          have hpe2 : pe.2 = nv0 := (Option.some.inj h4).symm
          rw [hpe2, hnv0ch]
          exact List.mem_filterMap.mpr ⟨p.1, hq0full e0 he0 he0k, hj⟩
      · have hqpres : mget st.versions pe.1 ≠ none :=
          hI.parentMem (ce.1, ce.2) (mget_eq_some_mem hst) pe.1 hcp0
        cases hx : mget st.versions pe.1 with
        | none => exact absurd hx hqpres
        | some wq =>
          have hqlt : pe.1 < st.nextId := hstpres_lt pe.1 wq hx
          by_cases hqr : pe.1 = r
          · have h4 := hresget pe hpe
            rw [hqr, hrootget] at h4
            have hpe2 : pe.2 = RV := (Option.some.inj h4).symm
            rw [hpe2, hRV]
            show ce.1 ∈ w.children ++ [nr]
            have h5 : ce.1 ∈ w.children :=
              hI.chFull (ce.1, ce.2) (mget_eq_some_mem hst) (r, w) hwmem
                (by rw [hcp0, hqr])
            exact List.mem_append_left _ h5
          · have h4 := hresget pe hpe
            rw [hloc pe.1 hqr hqlt, hx] at h4
            have hpe2 : pe.2 = wq := (Option.some.inj h4).symm
            rw [hpe2]
            exact hI.chFull (ce.1, ce.2) (mget_eq_some_mem hst) (pe.1, wq)
              (mget_eq_some_mem hx) hcp0
    · -- acyclic
      obtain ⟨rnkI, hrnkI⟩ := hacy
      obtain ⟨rnk0, hrnk0⟩ := hI.acyclic
      refine ⟨fun x => if x < st.nextId then rnk0 x else
        (rnk0 r + 1) + rnkI (((imported.get? (x - st.nextId)).map Prod.fst).getD 0),
        fun e he q hq => ?_⟩
      show (if q < st.nextId then rnk0 q else
          (rnk0 r + 1) + rnkI (((imported.get? (q - st.nextId)).map Prod.fst).getD 0)) <
        (if e.1 < st.nextId then rnk0 e.1 else
          (rnk0 r + 1) + rnkI (((imported.get? (e.1 - st.nextId)).map Prod.fst).getD 0))
      rcases hcase e he with ⟨her, he2⟩ | ⟨p, hp, hj, hid, hch, hpar, hge⟩ | ⟨her, hlt, hst⟩
      · rw [he2] at hq
        have hq' : w.parentId = some q := hq
        rw [hwparnone] at hq'
        cases hq'
      · rw [hpar] at hq
        by_cases hpi : p.1 = irid
        · rw [if_pos hpi, hr] at hq
          have hqr : q = r := Option.some.inj hq.symm
          rw [hqr]
          rw [if_pos hrlt, if_neg (by omega)]
          omega
        · rw [if_neg hpi] at hq
          obtain ⟨q0, hq0par, hq0mem, _⟩ := hparfull p hp hpi
          rw [hq0par] at hq
          have hq2 : mget idM q0 = some q := hq
          obtain ⟨hqge, _⟩ := hbnd q0 q hq2
          obtain ⟨v1, hv1⟩ := hpos p.1 e.1 hj
          obtain ⟨v2, hv2⟩ := hpos q0 q hq2
          rw [if_neg (by omega), if_neg (by omega), hv1, hv2]
          simp only [Option.map_some', Option.getD_some]
          have h5 := hrnkI p hp q0 hpi hq0par
          omega
      · have hqpres : mget st.versions q ≠ none :=
          hI.parentMem (e.1, e.2) (mget_eq_some_mem hst) q hq
        cases hx : mget st.versions q with
        | none => exact absurd hx hqpres
        | some wq =>
          have hqlt : q < st.nextId := hstpres_lt q wq hx
          rw [if_pos hqlt, if_pos hlt]
          exact hrnk0 (e.1, e.2) (mget_eq_some_mem hst) q hq
  rw [graftTree_snd]
  by_cases hc : (graftTreeNoPrune st imported irid icur).2.maxVersions <
      (graftTreeNoPrune st imported irid icur).2.versions.length
  · rw [if_pos hc]
    exact (pruneOldVersions_char hcore 0).1
  · rw [if_neg hc]
    exact hcore

theorem clearHistory_inv (st : VCState α) : Inv (clearHistory st) := by
  constructor
  · simp [clearHistory, keysOf]
  · intro e he
    cases he
  · intro e he
    cases he
  · exact ⟨fun _ => rfl, fun _ => rfl⟩
  · exact ⟨fun _ => rfl, fun _ => rfl⟩
  · intro r hrr
    cases hrr
  · intro c hcc
    cases hcc
  · intro e he
    cases he
  · intro e he p hp
    cases he
  · intro e he
    cases he
  · intro e he c hc
    cases he
  · intro ce hce pe hpe hpp
    cases hce
  · exact ⟨fun _ => 0, fun e he => by cases he⟩

/-- C4 counterexample: `deleteVersionAndReparentChildren` applied to the
current (non-root) node deletes it without moving `current`, leaving the
current pointer dangling; and `graftTree` fed an imported payload whose
parent/children lists are not mutually inverse (node 6 claims node 5 as
parent, node 5 lists no children) carries that violation into the store —
the tree invariants do not survive every public operation as claimed. -/
theorem claim4_counterexample :
    (Inv cxSt2 ∧ cxSt2.currentId = some 1 ∧
      ¬ Inv (deleteVersionAndReparentChildren cxSt2 1)) ∧
    (Inv oneNodeSt ∧
      ¬ Inv (graftTree oneNodeSt badImp 5 5).2) := by
  constructor
  · refine ⟨⟨by decide, by decide, by decide, by decide, by decide, by decide, by decide,
      by decide, by decide, by decide, by decide, by decide,
      ⟨fun x => x, by unfold ParentRank; decide⟩⟩, by decide, ?_⟩
    intro h
    exact h.currMem 1 (by decide) (by decide)
  · refine ⟨invOneNode, ?_⟩
    intro h
    have h2 := h.chFull (2, ⟨2, some 1, [], 0, "j", 1, 0, some [10], none⟩)
      (by decide) (1, ⟨1, some 0, [], 0, "i", 1, 0, some [9], none⟩)
      (by decide) (by decide)
    exact absurd h2 (by decide)

/-- C4, amended: on any state satisfying the tree invariants, those
invariants are preserved by `createVersion`, `undo`, `redo`,
`goToVersion`, `clearHistory` and `pruneOldVersions` unconditionally; by
`deleteVersionAndReparentChildren` whenever the deleted node is not the
current node; and by `graftTree` whenever the imported payload is itself
a well-formed tree (duplicate-free ids, parent/children mutually inverse,
acyclic, root and current present). -/
theorem claim4_amended {st : VCState α} (hI : Inv st) :
    (∀ (sz : α → Nat) (data : List α) (descr : String),
      Inv (createVersion sz st data descr).2) ∧
    Inv (undo st).2 ∧
    Inv (redo st).2 ∧
    (∀ id, Inv (goToVersion st id).2) ∧
    Inv (clearHistory st) ∧
    (∀ fr, Inv (pruneOldVersions st fr)) ∧
    (∀ d, st.currentId ≠ some d → Inv (deleteVersionAndReparentChildren st d)) ∧
    (∀ (imported : List (Nat × Version α)) (irid icur r : Nat) (w : Version α),
      st.rootId = some r → mget st.versions r = some w →
      (imported.map Prod.fst).Nodup →
      irid ∈ imported.map Prod.fst →
      icur ∈ imported.map Prod.fst →
      (∀ p ∈ imported, p.2.children.Nodup) →
      (∀ p ∈ imported, ∀ c ∈ p.2.children, ∀ q ∈ imported, q.1 = c →
        q.2.parentId = some p.1) →
      (∀ p ∈ imported, p.1 ≠ irid → ∃ q, p.2.parentId = some q ∧
        q ∈ imported.map Prod.fst ∧ ∀ e ∈ imported, e.1 = q → p.1 ∈ e.2.children) →
      (∀ p ∈ imported, irid ∉ p.2.children) →
      (∃ rnkI : Nat → Nat, ∀ p ∈ imported, ∀ q, p.1 ≠ irid →
        p.2.parentId = some q → rnkI q < rnkI p.1) →
      Inv (graftTree st imported irid icur).2) := by
  refine ⟨?_, undo_inv hI, redo_inv hI, fun id => goToVersion_inv hI id,
    clearHistory_inv st, fun fr => (pruneOldVersions_char hI fr).1,
    fun d hd => delete_reparent_inv hI d hd, ?_⟩
  · intro sz data descr
    exact (createVersion_char sz hI data descr).1
  · intro imported irid icur r w hr hw hkeys hrm hcm h1 h2 h3 h4 h5
    exact graft_inv hI hr hw imported irid icur hkeys hrm hcm h1 h2 h3 h4 h5

/-- Witness for the amended C4 on the concrete three-node store. -/
theorem claim4_witness :
    (∀ (sz : Nat → Nat) (data : List Nat) (descr : String),
      Inv (createVersion sz reparentSt data descr).2) ∧
    Inv (undo reparentSt).2 ∧
    Inv (redo reparentSt).2 ∧
    (∀ id, Inv (goToVersion reparentSt id).2) ∧
    Inv (clearHistory reparentSt) ∧
    (∀ fr, Inv (pruneOldVersions reparentSt fr)) ∧
    (∀ d, reparentSt.currentId ≠ some d →
      Inv (deleteVersionAndReparentChildren reparentSt d)) ∧
    (∀ (imported : List (Nat × Version Nat)) (irid icur r : Nat) (w : Version Nat),
      reparentSt.rootId = some r → mget reparentSt.versions r = some w →
      (imported.map Prod.fst).Nodup →
      irid ∈ imported.map Prod.fst →
      icur ∈ imported.map Prod.fst →
      (∀ p ∈ imported, p.2.children.Nodup) →
      (∀ p ∈ imported, ∀ c ∈ p.2.children, ∀ q ∈ imported, q.1 = c →
        q.2.parentId = some p.1) →
      (∀ p ∈ imported, p.1 ≠ irid → ∃ q, p.2.parentId = some q ∧
        q ∈ imported.map Prod.fst ∧ ∀ e ∈ imported, e.1 = q → p.1 ∈ e.2.children) →
      (∀ p ∈ imported, irid ∉ p.2.children) →
      (∃ rnkI : Nat → Nat, ∀ p ∈ imported, ∀ q, p.1 ≠ irid →
        p.2.parentId = some q → rnkI q < rnkI p.1) →
      Inv (graftTree reparentSt imported irid icur).2) :=
  claim4_amended goodReparentSt.inv

end VC
